import Mathlib

/-!
Verification development for the SmartPath railway route engine
(`graph_algorithms.py`).  Python dictionaries are modelled as
insertion-ordered association lists, floats as rationals (`float('inf')`
becomes `⊤` in `WithTop ℚ`), raised exceptions as `Except` errors, and the
unbounded `while` loops as fuel-indexed recursions whose fuel is shown (or
hypothesised) to suffice.  The A* heuristic of the source computes a real
square root, so the embedding abstracts it as an arbitrary function
`String → WithTop ℚ`; the theorems constrain it exactly as the claims do
(non-negative, never overestimating the true distance to the goal).
-/

namespace SmartPath

/-- One station record as stored in `RailwayGraph.stations`. -/
structure StationInfo where
  name : String
  city : String
  lat : ℚ
  lon : ℚ
deriving DecidableEq

/-- `self.adjacency_list`: a `defaultdict(list)` from source code to the
insertion-ordered list of `(target, distance)` pairs. -/
abbrev AdjMap := List (String × List (String × ℚ))

/-- The graph store (`RailwayGraph.__init__`). -/
structure RailwayGraph where
  adjacency_list : AdjMap
  stations : List (String × StationInfo)
  edges_count : Nat
deriving DecidableEq

/-- Python dict assignment `d[k] = v`: overwrite in place, else append. -/
def upsert {α : Type} : List (String × α) → String → α → List (String × α)
  | [], k, v => [(k, v)]
  | (k', v') :: rest, k, v =>
    if k' = k then (k, v) :: rest else (k', v') :: upsert rest k v

/-- Read access to the `defaultdict(list)` used only to iterate the value:
a missing key yields the default empty list. -/
def dget (m : AdjMap) (k : String) : List (String × ℚ) := (m.lookup k).getD []

/-- Subscripting a `defaultdict(list)` with a missing key inserts `[]` for it
(insertion order: appended at the end). -/
def touch (m : AdjMap) (k : String) : AdjMap :=
  if (m.lookup k).isSome then m else m ++ [(k, [])]

/-- Python `k in d` membership test for a dict. -/
def hasKey {α : Type} (m : List (String × α)) (k : String) : Bool :=
  (m.lookup k).isSome

/-- `self.adjacency_list[source].append((target, distance))` on the
`defaultdict`: append to the key's list, vivifying a missing key. -/
def adjPush : AdjMap → String → String × ℚ → AdjMap
  | [], k, e => [(k, [e])]
  | (k', l) :: rest, k, e =>
    if k' = k then (k', l ++ [e]) :: rest else (k', l) :: adjPush rest k e

/-- `RailwayGraph()`. -/
def emptyGraph : RailwayGraph := ⟨[], [], 0⟩

/-- `add_station`. -/
def RailwayGraph.add_station (g : RailwayGraph) (code name city : String)
    (lat lon : ℚ) : RailwayGraph :=
  { g with stations := upsert g.stations code ⟨name, city, lat, lon⟩ }

/-- `add_edge`. -/
def RailwayGraph.add_edge (g : RailwayGraph) (source target : String)
    (distance : ℚ) : RailwayGraph :=
  { g with adjacency_list := adjPush g.adjacency_list source (target, distance),
           edges_count := g.edges_count + 1 }

/-- `get_station_info`. -/
def RailwayGraph.get_station_info (g : RailwayGraph) (code : String) :
    Option StationInfo :=
  g.stations.lookup code

/-- Stable insertion used to model Python's stable `sorted(..., key=name)`:
the new element goes after every element whose name key is `≤` its own. -/
def insertByName (x : String × String) : List (String × String) → List (String × String)
  | [] => [x]
  | y :: ys => if y.2 ≤ x.2 then y :: insertByName x ys else x :: y :: ys

/-- Stable sort by the name component. -/
def sortByName (l : List (String × String)) : List (String × String) :=
  l.foldl (fun acc x => insertByName x acc) []

/-- `get_stations_by_city`: `(code, name)` pairs of the city, sorted by name. -/
def RailwayGraph.get_stations_by_city (g : RailwayGraph) (city : String) :
    List (String × String) :=
  sortByName ((g.stations.filter (fun p => p.2.city == city)).map
    (fun p => (p.1, p.2.name)))

/-- A raised Python exception, or exhaustion of the model's loop fuel. -/
inductive PyErr where
  | keyError (k : String)
  | valueError (msg : String)
  | fuelOut
deriving DecidableEq

/-- Round-half-to-even to an integer, as Python's `round` does. -/
def roundHalfEven (q : ℚ) : ℤ :=
  if q - ⌊q⌋ < 1/2 then ⌊q⌋
  else if 1/2 < q - ⌊q⌋ then ⌊q⌋ + 1
  else if ⌊q⌋ % 2 = 0 then ⌊q⌋ else ⌊q⌋ + 1

/-- Python `round(x, 2)`. -/
def round2 (q : ℚ) : ℚ := (roundHalfEven (q * 100) : ℚ) / 100

/-- `calculate_price`: base fare 5.0 plus 0.15 per km, rounded to 2 decimals. -/
def RailwayGraph.calculate_price (_g : RailwayGraph) (distance : ℚ) : ℚ :=
  round2 (5 + distance * (15/100))

/-- `calculate_time`: distance / 80 km/h plus 0.05 h per intermediate stop
when `num_stops > 1`, rounded to 2 decimals. -/
def RailwayGraph.calculate_time (_g : RailwayGraph) (distance : ℚ)
    (num_stops : ℤ) : ℚ :=
  round2 (distance / 80 +
    (if 1 < num_stops then ((num_stops : ℚ) - 1) * (5/100) else 0))

/-! ### Walks and paths through the stored graph -/

/-- `WalkOn g p w`: `p` is a directed walk whose consecutive stations are
joined by recorded edges, and `w` is the sum of the chosen edge distances. -/
inductive WalkOn (g : RailwayGraph) : List String → ℚ → Prop where
  | single (u : String) : WalkOn g [u] 0
  | cons {u v : String} {rest : List String} {c w : ℚ} :
      (v, c) ∈ dget g.adjacency_list u → WalkOn g (v :: rest) w →
      WalkOn g (u :: v :: rest) (c + w)

/-- `PathOn g p`: `p` is a directed walk (edge existence only). -/
inductive PathOn (g : RailwayGraph) : List String → Prop where
  | single (u : String) : PathOn g [u]
  | cons {u v : String} {rest : List String} {c : ℚ} :
      (v, c) ∈ dget g.adjacency_list u → PathOn g (v :: rest) →
      PathOn g (u :: v :: rest)

/-- The walk runs from `s` to `e`. -/
def Routes (s e : String) (p : List String) : Prop :=
  p.head? = some s ∧ p.getLast? = some e

/-- Every recorded edge distance is non-negative. -/
def NonnegWeights (g : RailwayGraph) : Prop :=
  ∀ p ∈ g.adjacency_list, ∀ e ∈ p.2, 0 ≤ e.2

/-- Every recorded edge target is a known station. -/
def WellFormedTargets (g : RailwayGraph) : Prop :=
  ∀ p ∈ g.adjacency_list, ∀ e ∈ p.2, hasKey g.stations e.1 = true

/-! ### Basic lemmas about the dictionary model -/

theorem lookup_mem {α : Type} {m : List (String × α)} {k : String} {v : α}
    (h : m.lookup k = some v) : (k, v) ∈ m := by
  induction m with
  | nil => simp [List.lookup] at h
  | cons p rest ih =>
    cases p with
    | mk k' v' =>
      by_cases hk : k = k'
      · subst hk
        simp [List.lookup_cons] at h
        subst h
        exact List.mem_cons_self _ _
      · rw [List.lookup_cons, show (k == k') = false from beq_false_of_ne hk] at h
        exact List.mem_cons_of_mem _ (ih h)

theorem mem_dget_mem_adj {g : RailwayGraph} {u v : String} {c : ℚ}
    (h : (v, c) ∈ dget g.adjacency_list u) :
    ∃ l, (u, l) ∈ g.adjacency_list ∧ (v, c) ∈ l := by
  unfold dget at h
  cases hl : g.adjacency_list.lookup u with
  | none => rw [hl] at h; simp at h
  | some l =>
    rw [hl] at h
    exact ⟨l, lookup_mem hl, h⟩

theorem nonneg_of_edge {g : RailwayGraph} (hg : NonnegWeights g)
    {u v : String} {c : ℚ} (h : (v, c) ∈ dget g.adjacency_list u) : 0 ≤ c := by
  obtain ⟨l, hl, hm⟩ := mem_dget_mem_adj h
  exact hg _ hl _ hm

theorem wellformed_of_edge {g : RailwayGraph} (hg : WellFormedTargets g)
    {u v : String} {c : ℚ} (h : (v, c) ∈ dget g.adjacency_list u) :
    hasKey g.stations v = true := by
  obtain ⟨l, hl, hm⟩ := mem_dget_mem_adj h
  exact hg _ hl _ hm

theorem walk_nonneg {g : RailwayGraph} (hg : NonnegWeights g) :
    ∀ {p : List String} {w : ℚ}, WalkOn g p w → 0 ≤ w := by
  intro p w h
  induction h with
  | single => exact le_refl 0
  | cons he _ ih => exact add_nonneg (nonneg_of_edge hg he) ih

theorem touch_dget (m : AdjMap) (k k' : String) : dget (touch m k) k' = dget m k' := by
  unfold touch dget
  split
  · rfl
  · rename_i hnone
    rw [List.lookup_append]
    cases hl : m.lookup k' with
    | some v => simp
    | none =>
      simp only [Option.getD_none, Option.none_or]
      by_cases hk : k' = k
      · subst hk
        simp [List.lookup]
      · simp [List.lookup, show (k' == k) = false from beq_false_of_ne hk]

/-! ### Breadth-first search (`bfs_shortest_path`) -/

/-- Inner neighbor loop of BFS.  Returns the found path as soon as a neighbor
equals the destination, otherwise the updated visited set and the entries
appended to the queue. -/
def bfsScan (e : String) (path : List String) :
    List (String × ℚ) → List String → List (String × List String) →
    Option (List String) × List String × List (String × List String)
  | [], visited, acc => (none, visited, acc)
  | (n, _) :: ns, visited, acc =>
    if n ∈ visited then bfsScan e path ns visited acc
    else if n = e then (some (path ++ [n]), visited, acc)
    else bfsScan e path ns (visited ++ [n]) (acc ++ [(n, path ++ [n])])

/-- The `while queue:` loop of BFS, fuel-indexed.  Dequeuing a node reads
`self.adjacency_list[current]`, which vivifies a missing key. -/
def bfsLoop (e : String) : Nat → List (String × List String) → List String →
    AdjMap → Except PyErr ((List String × Nat) × AdjMap)
  | 0, _, _, _ => .error .fuelOut
  | fuel+1, queue, visited, adjm =>
    match queue with
    | [] => .ok (([], 0), adjm)
    | (current, path) :: rest =>
      let adjm' := touch adjm current
      match bfsScan e path (dget adjm' current) visited [] with
      | (some found, _, _) => .ok ((found, found.length - 1), adjm')
      | (none, visited', fresh) => bfsLoop e fuel (rest ++ fresh) visited' adjm'

/-- Total number of adjacency entries. -/
def totalAdjSize (m : AdjMap) : Nat := (m.map (fun p => p.2.length)).sum

/-- Sufficient BFS fuel: every enqueue consumes a distinct edge target. -/
def bfsFuel (g : RailwayGraph) : Nat := totalAdjSize g.adjacency_list + 2

/-- `bfs_shortest_path`, with the state of the store after the call. -/
def RailwayGraph.bfs_run (g : RailwayGraph) (start e : String) :
    Except PyErr ((List String × Nat) × RailwayGraph) :=
  if hasKey g.adjacency_list start = false ∨ hasKey g.stations e = false then
    .ok (([], 0), g)
  else if start = e then .ok (([start], 0), g)
  else
    match bfsLoop e (bfsFuel g) [(start, [start])] [start] g.adjacency_list with
    | .ok (r, adjm) => .ok (r, { g with adjacency_list := adjm })
    | .error err => .error err

/-- The value `bfs_shortest_path` returns to its caller. -/
def RailwayGraph.bfs_shortest_path (g : RailwayGraph) (start e : String) :
    Except PyErr (List String × Nat) :=
  (g.bfs_run start e).map (fun r => r.1)

/-! ### Dijkstra (`dijkstra_shortest_path`) -/

/-- Minimum of a nonempty heap under Python's lexicographic tuple order,
keeping the first occurrence (all tied tuples are identical values). -/
def pqMinAux (x : ℚ × String) : List (ℚ × String) → ℚ × String
  | [] => x
  | y :: ys =>
    if y.1 < x.1 ∨ (y.1 = x.1 ∧ y.2 < x.2) then pqMinAux y ys else pqMinAux x ys

/-- `heapq.heappop`: remove and return the smallest tuple. -/
def heappop (pq : List (ℚ × String)) : Option ((ℚ × String) × List (ℚ × String)) :=
  match pq with
  | [] => none
  | x :: xs =>
    let m := pqMinAux x xs
    some (m, (x :: xs).erase m)

/-- State of the Dijkstra main loop. -/
structure DijState where
  distances : List (String × WithTop ℚ)
  previous : List (String × String)
  pq : List (ℚ × String)
  visited : List String
  adjm : AdjMap
deriving DecidableEq

/-- Path reconstruction: follow the predecessor map from the destination,
append the start, and reverse. -/
def reconstructLoop (previous : List (String × String)) (start : String) :
    Nat → String → List String → Except PyErr (List String)
  | 0, _, _ => .error .fuelOut
  | fuel+1, current, acc =>
    match previous.lookup current with
    | some p => reconstructLoop previous start fuel p (acc ++ [current])
    | none => .ok (acc ++ [start]).reverse

/-- The `for neighbor, weight in self.adjacency_list[current]` relaxation
loop.  `distances[neighbor]` raises `KeyError` when the target is unknown. -/
def relaxNeighbors (current : String) (d : ℚ) :
    List (String × ℚ) → List (String × WithTop ℚ) → List (String × String) →
    List (ℚ × String) →
    Except PyErr (List (String × WithTop ℚ) × List (String × String) × List (ℚ × String))
  | [], dist, prev, pq => .ok (dist, prev, pq)
  | (n, w) :: ns, dist, prev, pq =>
    match dist.lookup n with
    | none => .error (.keyError n)
    | some dn =>
      if ((d + w : ℚ) : WithTop ℚ) < dn then
        relaxNeighbors current d ns (upsert dist n ((d + w : ℚ) : WithTop ℚ))
          (upsert prev n current) (pq ++ [(d + w, n)])
      else relaxNeighbors current d ns dist prev pq

/-- The `while priority_queue:` loop of Dijkstra, fuel-indexed. -/
def dijkstraLoop (s e : String) : Nat → DijState →
    Except PyErr ((List String × WithTop ℚ) × AdjMap)
  | 0, _ => .error .fuelOut
  | fuel+1, st =>
    match heappop st.pq with
    | none => .ok (([], 0), st.adjm)
    | some ((d, current), pq') =>
      if current ∈ st.visited then dijkstraLoop s e fuel { st with pq := pq' }
      else
        let visited' := st.visited ++ [current]
        if current = e then
          match reconstructLoop st.previous s (st.visited.length + 2) current [] with
          | .error err => .error err
          | .ok path =>
            match st.distances.lookup e with
            | none => .error (.keyError e)
            | some de => .ok ((path, de), st.adjm)
        else
          match st.distances.lookup current with
          | none => .error (.keyError current)
          | some dc =>
            if dc < (d : WithTop ℚ) then
              dijkstraLoop s e fuel { st with pq := pq', visited := visited' }
            else
              let adjm' := touch st.adjm current
              match relaxNeighbors current d (dget adjm' current)
                  st.distances st.previous pq' with
              | .error err => .error err
              | .ok (dist', prev', pq'') =>
                dijkstraLoop s e fuel ⟨dist', prev', pq'', visited', adjm'⟩

/-- All strings occurring as edge targets. -/
def targetsOf (m : AdjMap) : List String :=
  (m.map (fun p => p.2.map Prod.fst)).flatten

/-- Sufficient Dijkstra fuel: each fresh pop settles a distinct candidate
node and contributes at most one push per adjacency entry. -/
def dijkstraFuel (g : RailwayGraph) (s : String) : Nat :=
  (totalAdjSize g.adjacency_list + 1) *
    ((s :: targetsOf g.adjacency_list).dedup).length + 3

/-- `dijkstra_shortest_path`, with the state of the store after the call. -/
def RailwayGraph.dijkstra_run (g : RailwayGraph) (start e : String) :
    Except PyErr ((List String × WithTop ℚ) × RailwayGraph) :=
  if hasKey g.adjacency_list start = false ∨ hasKey g.stations e = false then
    .ok (([], 0), g)
  else if start = e then .ok (([start], 0), g)
  else
    let dist0 := upsert (g.stations.map (fun p => (p.1, (⊤ : WithTop ℚ)))) start 0
    match dijkstraLoop start e (dijkstraFuel g start)
        ⟨dist0, [], [(0, start)], [], g.adjacency_list⟩ with
    | .ok (r, adjm) => .ok (r, { g with adjacency_list := adjm })
    | .error err => .error err

/-- The value `dijkstra_shortest_path` returns to its caller. -/
def RailwayGraph.dijkstra_shortest_path (g : RailwayGraph) (start e : String) :
    Except PyErr (List String × WithTop ℚ) :=
  (g.dijkstra_run start e).map (fun r => r.1)

/-! ### A* (`a_star_shortest_path`)

The source heuristic is a real-valued Euclidean distance in degree space
(`(Δlat² + Δlon²) ** 0.5`, `inf` for an unknown station).  The embedding
takes the heuristic as an explicit function `h : String → WithTop ℚ`. -/

/-- Python's `min(open_set, key=lambda s: f_score[s])`: the earliest element
with minimal key; the key of every member is evaluated. -/
def argminFAux (fs : List (String × WithTop ℚ)) (best : String)
    (bestF : WithTop ℚ) : List String → Except PyErr String
  | [] => .ok best
  | x :: xs =>
    match fs.lookup x with
    | none => .error (.keyError x)
    | some fx =>
      if fx < bestF then argminFAux fs x fx xs else argminFAux fs best bestF xs

/-- State of the A* main loop.  The open set is kept in insertion order,
which is also the tie-break order used for the minimum (the Python set
iteration order is unspecified; the model fixes it to insertion order). -/
structure AstarState where
  g_score : List (String × WithTop ℚ)
  f_score : List (String × WithTop ℚ)
  open_set : List String
  came_from : List (String × String)
  adjm : AdjMap
deriving DecidableEq

/-- A* relaxation over `self.adjacency_list[current]`.  Both
`g_score[current]` and `g_score[neighbor]` are dict subscripts that raise
`KeyError` for unknown keys. -/
def astarRelax (h : String → WithTop ℚ) (current : String) :
    List (String × ℚ) → List (String × WithTop ℚ) → List (String × WithTop ℚ) →
    List String → List (String × String) →
    Except PyErr (List (String × WithTop ℚ) × List (String × WithTop ℚ) ×
      List String × List (String × String))
  | [], gs, fs, os, cf => .ok (gs, fs, os, cf)
  | (n, w) :: ns, gs, fs, os, cf =>
    match gs.lookup current with
    | none => .error (.keyError current)
    | some gc =>
      match gs.lookup n with
      | none => .error (.keyError n)
      | some gn =>
        if gc + (w : WithTop ℚ) < gn then
          astarRelax h current ns (upsert gs n (gc + (w : WithTop ℚ)))
            (upsert fs n (gc + (w : WithTop ℚ) + h n))
            (if n ∈ os then os else os ++ [n]) (upsert cf n current)
        else astarRelax h current ns gs fs os cf

/-- The `while open_set:` loop of A*, fuel-indexed. -/
def astarLoop (h : String → WithTop ℚ) (s e : String) : Nat → AstarState →
    Except PyErr ((List String × WithTop ℚ) × AdjMap)
  | 0, _ => .error .fuelOut
  | fuel+1, st =>
    match st.open_set with
    | [] => .ok (([], 0), st.adjm)
    | o :: os =>
      match st.f_score.lookup o with
      | none => .error (.keyError o)
      | some fo =>
        match argminFAux st.f_score o fo os with
        | .error err => .error err
        | .ok current =>
          if current = e then
            match reconstructLoop st.came_from s (st.came_from.length + 2)
                current [] with
            | .error err => .error err
            | .ok path =>
              match st.g_score.lookup e with
              | none => .error (.keyError e)
              | some ge => .ok ((path, ge), st.adjm)
          else
            let os' := st.open_set.erase current
            let adjm' := touch st.adjm current
            match astarRelax h current (dget adjm' current) st.g_score
                st.f_score os' st.came_from with
            | .error err => .error err
            | .ok (gs, fs, os2, cf) => astarLoop h s e fuel ⟨gs, fs, os2, cf, adjm'⟩

/-- All duplicate-free edge-following vertex sequences from `u` avoiding
`avoid`, of length at most `fuel + 1`. -/
def simpleSeqsFrom (m : AdjMap) : Nat → String → List String → List (List String)
  | 0, u, _ => [[u]]
  | fuel+1, u, avoid =>
    [u] :: (dget m u).flatMap (fun e =>
      if e.1 ∈ avoid then []
      else (simpleSeqsFrom m fuel e.1 (e.1 :: avoid)).map (fun l => u :: l))

/-- All edge-choice weights of a fixed vertex sequence (parallel edges give
several weights). -/
def seqWeights (m : AdjMap) : List String → List ℚ
  | [] => []
  | [_] => [0]
  | u :: v :: rest =>
    ((dget m u).filter (fun e => e.1 == v)).flatMap
      (fun e => (seqWeights m (v :: rest)).map (fun w => e.2 + w))

/-- The distinct weights of simple walks from `s` to `v`. -/
def simpleWeightsTo (m : AdjMap) (s v : String) : List ℚ :=
  (((simpleSeqsFrom m ((targetsOf m).dedup.length + 1) s [s]).filter
    (fun l => l.getLast? == some v)).flatMap (seqWeights m)).dedup

/-- Sufficient A* fuel: every iteration either shrinks the open set or
strictly lowers some station's `g_score` within its finite set of simple
walk weights. -/
def astarFuel (g : RailwayGraph) (s : String) : Nat :=
  2 + (((s :: g.stations.map Prod.fst).dedup).map
    (fun v => (simpleWeightsTo g.adjacency_list s v).length)).sum

/-- `a_star_shortest_path`, with the state of the store after the call. -/
def RailwayGraph.a_star_run (g : RailwayGraph) (h : String → WithTop ℚ)
    (start e : String) :
    Except PyErr ((List String × WithTop ℚ) × RailwayGraph) :=
  if hasKey g.adjacency_list start = false ∨ hasKey g.stations e = false then
    .ok (([], 0), g)
  else if start = e then .ok (([start], 0), g)
  else
    let gs0 := upsert (g.stations.map (fun p => (p.1, (⊤ : WithTop ℚ)))) start 0
    let fs0 := upsert (g.stations.map (fun p => (p.1, (⊤ : WithTop ℚ)))) start (h start)
    match astarLoop h start e (astarFuel g start)
        ⟨gs0, fs0, [start], [], g.adjacency_list⟩ with
    | .ok (r, adjm) => .ok (r, { g with adjacency_list := adjm })
    | .error err => .error err

/-- The value `a_star_shortest_path` returns to its caller. -/
def RailwayGraph.a_star_shortest_path (g : RailwayGraph) (h : String → WithTop ℚ)
    (start e : String) : Except PyErr (List String × WithTop ℚ) :=
  (g.a_star_run h start e).map (fun r => r.1)

/-! ### Route resolvers -/

/-- The successful route dictionary shape shared by both resolvers. -/
structure FoundRoute where
  origin_code : String
  origin_name : String
  dest_code : String
  dest_name : String
  path : List String
  metric : WithTop ℚ
  algorithm : String
deriving DecidableEq

/-- Resolver result: `found: false` with a message, or a found route. -/
inductive BestRoute where
  | notFound (message : String)
  | found (r : FoundRoute)
deriving DecidableEq

/-- The Cartesian product of origin and destination stations, origin-outer. -/
def cityPairs (os ds : List (String × String)) :
    List ((String × String) × (String × String)) :=
  os.flatMap (fun o => ds.map (fun d => (o, d)))

/-- One pair search of `find_best_route_between_cities`: `'bfs'` runs BFS,
any other strategy string runs Dijkstra. -/
def runPairSearch (alg : String) (g : RailwayGraph) (o d : String) :
    Except PyErr ((List String × WithTop ℚ) × RailwayGraph) :=
  if alg = "bfs" then
    match g.bfs_run o d with
    | .ok ((p, stops), g') => .ok ((p, ((stops : ℚ) : WithTop ℚ)), g')
    | .error err => .error err
  else g.dijkstra_run o d

/-- The nested loop of `find_best_route_between_cities`, keeping the first
strictly best non-empty result. -/
def bestRouteFold (alg : String) :
    List ((String × String) × (String × String)) → Option FoundRoute →
    WithTop ℚ → RailwayGraph → Except PyErr (Option FoundRoute × RailwayGraph)
  | [], best, _, g => .ok (best, g)
  | (o, dd) :: ps, best, bestMetric, g =>
    match runPairSearch alg g o.1 dd.1 with
    | .error err => .error err
    | .ok ((path, metric), g') =>
      if path ≠ [] ∧ metric < bestMetric then
        bestRouteFold alg ps (some ⟨o.1, o.2, dd.1, dd.2, path, metric, alg⟩)
          metric g'
      else bestRouteFold alg ps best bestMetric g'

/-- `find_best_route_between_cities`, with the state of the store after. -/
def RailwayGraph.find_best_route_between_cities_run (g : RailwayGraph)
    (origin_city destination_city alg : String) :
    Except PyErr (BestRoute × RailwayGraph) :=
  let os := g.get_stations_by_city origin_city
  let ds := g.get_stations_by_city destination_city
  if os = [] ∨ ds = [] then
    .ok (.notFound "No se encontraron estaciones en una o ambas ciudades", g)
  else
    match bestRouteFold alg (cityPairs os ds) none ⊤ g with
    | .error err => .error err
    | .ok (none, g') =>
      .ok (.notFound "No se encontro ninguna ruta entre las ciudades", g')
    | .ok (some r, g') => .ok (.found r, g')

/-- The value `find_best_route_between_cities` returns. -/
def RailwayGraph.find_best_route_between_cities (g : RailwayGraph)
    (origin_city destination_city alg : String) : Except PyErr BestRoute :=
  (g.find_best_route_between_cities_run origin_city destination_city alg).map
    (fun r => r.1)

/-- `find_best_route_between_stations`, with the state of the store after.
Any strategy other than `'a_star'` raises `ValueError`. -/
def RailwayGraph.find_best_route_between_stations_run (g : RailwayGraph)
    (h : String → WithTop ℚ) (origin destination alg : String) :
    Except PyErr (BestRoute × RailwayGraph) :=
  if alg ≠ "a_star" then
    .error (.valueError "El algoritmo seleccionado no es valido. Solo se permite A*.")
  else if hasKey g.stations origin = false ∨ hasKey g.stations destination = false then
    .ok (.notFound "No se encontraron estaciones de origen o destino", g)
  else
    match g.a_star_run h origin destination with
    | .error err => .error err
    | .ok ((path, dist), g') =>
      if path ≠ [] then
        match g.stations.lookup origin, g.stations.lookup destination with
        | some oi, some di =>
          .ok (.found ⟨origin, oi.name, destination, di.name, path, dist, "a_star"⟩, g')
        | _, _ => .error (.keyError origin)
      else .ok (.notFound "No se encontro ruta entre las estaciones", g')

/-- The value `find_best_route_between_stations` returns. -/
def RailwayGraph.find_best_route_between_stations (g : RailwayGraph)
    (h : String → WithTop ℚ) (origin destination alg : String) :
    Except PyErr BestRoute :=
  (g.find_best_route_between_stations_run h origin destination alg).map
    (fun r => r.1)

/-! ### Itinerary (`get_route_details`) -/

/-- One step record; `distance_to_next` is `none` when the key is absent
from the Python dict. -/
structure RouteDetail where
  step : Nat
  code : String
  name : String
  city : String
  distance_to_next : Option ℚ
deriving DecidableEq

/-- First adjacency entry whose target matches, as in the linear scan. -/
def firstDistTo : List (String × ℚ) → String → Option ℚ
  | [], _ => none
  | (n, d) :: rest, nxt => if n = nxt then some d else firstDistTo rest nxt

/-- The `for i, code in enumerate(path)` loop of `get_route_details`.
Stations missing from the index are skipped; for a non-final position the
adjacency of the station is scanned (vivifying its key). -/
def routeDetailsLoop (stations : List (String × StationInfo)) :
    List String → Nat → AdjMap → List RouteDetail → List RouteDetail × AdjMap
  | [], _, adjm, acc => (acc, adjm)
  | code :: rest, i, adjm, acc =>
    match stations.lookup code with
    | none => routeDetailsLoop stations rest (i+1) adjm acc
    | some info =>
      match rest with
      | [] => (acc ++ [⟨i+1, code, info.name, info.city, none⟩], adjm)
      | nxt :: _ =>
        let adjm' := touch adjm code
        routeDetailsLoop stations rest (i+1) adjm'
          (acc ++ [⟨i+1, code, info.name, info.city, firstDistTo (dget adjm' code) nxt⟩])

/-- `get_route_details`, with the state of the store after the call. -/
def RailwayGraph.get_route_details_run (g : RailwayGraph) (path : List String) :
    List RouteDetail × RailwayGraph :=
  match routeDetailsLoop g.stations path 0 g.adjacency_list [] with
  | (ds, adjm) => (ds, { g with adjacency_list := adjm })

/-- The value `get_route_details` returns to its caller. -/
def RailwayGraph.get_route_details (g : RailwayGraph) (path : List String) :
    List RouteDetail :=
  (g.get_route_details_run path).1

/-! ### Association-list and path helper lemmas -/

theorem upsert_lookup_self {α : Type} (m : List (String × α)) (k : String) (v : α) :
    (upsert m k v).lookup k = some v := by
  induction m with
  | nil => simp [upsert, List.lookup]
  | cons p rest ih =>
    by_cases hk : p.1 = k
    · cases p
      simp_all [upsert, List.lookup]
    · cases p with
      | mk k' v' =>
        simp only [upsert, if_neg hk, List.lookup_cons]
        rw [show (k == k') = false from beq_false_of_ne (fun hkk => hk hkk.symm)]
        exact ih

theorem upsert_lookup_ne {α : Type} (m : List (String × α)) (k : String) (v : α)
    (k' : String) (h : k' ≠ k) : (upsert m k v).lookup k' = m.lookup k' := by
  induction m with
  | nil => simp [upsert, List.lookup, beq_false_of_ne h]
  | cons p rest ih =>
    cases p with
    | mk k0 v0 =>
      by_cases hk : k0 = k
      · subst hk
        simp [upsert, List.lookup_cons, beq_false_of_ne h]
      · simp only [upsert, if_neg hk, List.lookup_cons]
        cases hbe : (k' == k0) with
        | true => rfl
        | false => exact ih

theorem pathOn_ne_nil {g : RailwayGraph} {p : List String} (h : PathOn g p) : p ≠ [] := by
  cases h <;> simp

theorem pathOn_append_edge {g : RailwayGraph} {p : List String} {u v : String} {c : ℚ}
    (h : PathOn g p) (hl : p.getLast? = some u)
    (he : (v, c) ∈ dget g.adjacency_list u) : PathOn g (p ++ [v]) := by
  induction h with
  | single w =>
    simp only [List.getLast?_singleton, Option.some_inj] at hl
    subst hl
    exact PathOn.cons he (PathOn.single v)
  | cons hedge htail ih =>
    rename_i u' v' rest c'
    have hl' : (v' :: rest).getLast? = some u := by
      rw [List.getLast?_cons_cons] at hl
      exact hl
    exact PathOn.cons hedge (ih hl')

theorem walkOn_ne_nil {g : RailwayGraph} {p : List String} {w : ℚ}
    (h : WalkOn g p w) : p ≠ [] := by
  cases h <;> simp

theorem walkOn_append_edge {g : RailwayGraph} {p : List String} {w : ℚ}
    {u v : String} {c : ℚ} (h : WalkOn g p w) (hl : p.getLast? = some u)
    (he : (v, c) ∈ dget g.adjacency_list u) : WalkOn g (p ++ [v]) (w + c) := by
  induction h with
  | single x =>
    simp only [List.getLast?_singleton, Option.some_inj] at hl
    subst hl
    have := WalkOn.cons (g := g) he (WalkOn.single v)
    simpa using this
  | cons hedge htail ih =>
    rename_i u' v' rest c' w'
    have hl' : (v' :: rest).getLast? = some u := by
      rw [List.getLast?_cons_cons] at hl
      exact hl
    have := WalkOn.cons (g := g) hedge (ih hl')
    simpa [add_assoc] using this

theorem walkOn_pathOn {g : RailwayGraph} {p : List String} {w : ℚ}
    (h : WalkOn g p w) : PathOn g p := by
  induction h with
  | single u => exact PathOn.single u
  | cons he _ ih => exact PathOn.cons he ih

theorem pathOn_walkOn {g : RailwayGraph} {p : List String}
    (h : PathOn g p) : ∃ w, WalkOn g p w := by
  induction h with
  | single u => exact ⟨0, WalkOn.single u⟩
  | cons he _ ih =>
    obtain ⟨w, hw⟩ := ih
    exact ⟨_, WalkOn.cons he hw⟩

/-! ### BFS correctness -/

theorem bfsScan_spec (e : String) (path : List String) :
    ∀ (l : List (String × ℚ)) (visited : List String)
      (acc : List (String × List String)),
    (∃ n c vis2 acc2, bfsScan e path l visited acc = (some (path ++ [n]), vis2, acc2) ∧
        (n, c) ∈ l ∧ n ∉ visited ∧ n = e) ∨
    (∃ news : List String,
        bfsScan e path l visited acc =
          (none, visited ++ news, acc ++ news.map (fun n => (n, path ++ [n]))) ∧
        news.Nodup ∧
        (∀ n ∈ news, (∃ c, (n, c) ∈ l) ∧ n ∉ visited ∧ n ≠ e) ∧
        (∀ nc ∈ l, nc.1 ∈ visited ++ news)) := by
  intro l
  induction l with
  | nil =>
    intro visited acc
    right
    exact ⟨[], by simp [bfsScan], by simp, by simp, by simp⟩
  | cons nc ns ih =>
    intro visited acc
    cases nc with
    | mk n c =>
      by_cases hv : n ∈ visited
      · rcases ih visited acc with ⟨n', c', v2, a2, hrun, hm, hnv, hne⟩ | ⟨news, hrun, hnd, hprops, hcov⟩
        · left
          exact ⟨n', c', v2, a2, by simpa [bfsScan, if_pos hv] using hrun,
            List.mem_cons_of_mem _ hm, hnv, hne⟩
        · right
          refine ⟨news, by simpa [bfsScan, if_pos hv] using hrun, hnd, ?_, ?_⟩
          · intro x hx
            obtain ⟨⟨cx, hcx⟩, hxv, hxe⟩ := hprops x hx
            exact ⟨⟨cx, List.mem_cons_of_mem _ hcx⟩, hxv, hxe⟩
          · intro x hx
            rcases List.mem_cons.mp hx with rfl | hx'
            · exact List.mem_append.mpr (Or.inl hv)
            · exact hcov x hx'
      · by_cases hne : n = e
        · left
          exact ⟨n, c, visited, acc,
            by simp [bfsScan, if_neg hv, if_pos hne], List.mem_cons_self _ _, hv, hne⟩
        · rcases ih (visited ++ [n]) (acc ++ [(n, path ++ [n])]) with
            ⟨n', c', v2, a2, hrun, hm, hnv, hne'⟩ | ⟨news, hrun, hnd, hprops, hcov⟩
          · left
            refine ⟨n', c', v2, a2, by simpa [bfsScan, if_neg hv, if_neg hne] using hrun,
              List.mem_cons_of_mem _ hm, fun hx => hnv (List.mem_append.mpr (Or.inl hx)), hne'⟩
          · right
            refine ⟨n :: news, ?_, ?_, ?_, ?_⟩
            · simpa [bfsScan, if_neg hv, if_neg hne, List.append_assoc] using hrun
            · refine List.nodup_cons.mpr ⟨?_, hnd⟩
              intro hmem
              exact (hprops n hmem).2.1 (List.mem_append.mpr (Or.inr (List.mem_singleton.mpr rfl)))
            · intro x hx
              rcases List.mem_cons.mp hx with rfl | hx'
              · exact ⟨⟨c, List.mem_cons_self _ _⟩, hv, hne⟩
              · obtain ⟨⟨cx, hcx⟩, hxv, hxe⟩ := hprops x hx'
                exact ⟨⟨cx, List.mem_cons_of_mem _ hcx⟩,
                  fun hx2 => hxv (List.mem_append.mpr (Or.inl hx2)), hxe⟩
            · intro x hx
              rcases List.mem_cons.mp hx with rfl | hx'
              · simp
              · have := hcov x hx'
                simp only [List.mem_append, List.mem_singleton, List.mem_cons] at this ⊢
                tauto

/-- The loop invariant of BFS, relative to the original graph `g`. -/
structure BfsInv (g : RailwayGraph) (s e : String)
    (queue : List (String × List String)) (visited : List String) : Prop where
  entries : ∀ q ∈ queue, PathOn g q.2 ∧ q.2.head? = some s ∧ q.2.getLast? = some q.1
  levels : (queue.map (fun q => q.2.length)).Sorted (· ≤ ·)
  spread : ∀ q ∈ queue, ∀ q' ∈ queue, q.2.length ≤ q'.2.length + 1
  inVisited : ∀ q ∈ queue, q.1 ∈ visited
  sInVisited : s ∈ visited
  eNotVisited : e ∉ visited
  closure : ∀ u ∈ visited, (∃ p, (u, p) ∈ queue) ∨
    ∀ nc ∈ dget g.adjacency_list u, nc.1 ∈ visited
  optimal : ∀ q ∈ queue, ∀ r, PathOn g r → r.head? = some s →
    r.getLast? = some q.1 → q.2.length ≤ r.length

theorem sorted_head_min {l : List (String × List String)} {f : String × List String}
    (hs : (l.map (fun q => q.2.length)).Sorted (· ≤ ·)) (hf : l.head? = some f) :
    ∀ q ∈ l, f.2.length ≤ q.2.length := by
  cases l with
  | nil => simp at hf
  | cons a rest =>
    simp only [List.head?_cons, Option.some_inj] at hf
    subst hf
    intro q hq
    rcases List.mem_cons.mp hq with rfl | hq'
    · exact le_refl _
    · have := (List.pairwise_cons.mp hs).1
      exact this _ (List.mem_map_of_mem _ hq')

/-- Any directed path from `s` to a node outside `visited` is at least one
longer than the path of the queue front. -/
theorem bfs_bound {g : RailwayGraph} {s e : String}
    {queue : List (String × List String)} {visited : List String}
    (inv : BfsInv g s e queue visited) {f : String × List String}
    (hf : queue.head? = some f) :
    ∀ (q : List String), PathOn g q → ∀ (u : String), q.head? = some u →
      u ∈ visited → (∀ x, q.getLast? = some x → x ∉ visited) →
      ∀ (r : List String), PathOn g r → r.head? = some s → r.getLast? = some u →
      f.2.length + 1 ≤ r.length - 1 + q.length := by
  intro q hq
  induction hq with
  | single w =>
    intro u hu huv hlast r _ _ _
    simp only [List.head?_cons, Option.some_inj] at hu
    subst hu
    exact absurd huv (hlast w (by simp))
  | cons hedge htail ih =>
    rename_i u' v' rest c'
    intro u hu huv hlast r hr hrh hrl
    simp only [List.head?_cons, Option.some_inj] at hu
    subst hu
    have h1 : 1 ≤ r.length := by
      have := pathOn_ne_nil hr
      cases r with
      | nil => simp at this
      | cons a l => simp
    rcases inv.closure u' huv with ⟨pu, hpu⟩ | hexp
    · have hopt := inv.optimal (u', pu) hpu r hr hrh hrl
      have hmin := sorted_head_min inv.levels hf (u', pu) hpu
      simp only [List.length_cons] at *
      omega
    · have hv' : v' ∈ visited := hexp (v', c') hedge
      have hlast' : ∀ x, (v' :: rest).getLast? = some x → x ∉ visited := by
        intro x hx
        exact hlast x (by rwa [List.getLast?_cons_cons])
      have hr' : PathOn g (r ++ [v']) := pathOn_append_edge hr hrl hedge
      have hrh' : (r ++ [v']).head? = some s := by
        rw [List.head?_append_of_ne_nil _ (pathOn_ne_nil hr)]
        exact hrh
      have hrl' : (r ++ [v']).getLast? = some v' := List.getLast?_concat _
      have hih := ih v' rfl hv' hlast' (r ++ [v']) hr' hrh' hrl'
      have hrlen : (r ++ [v']).length = r.length + 1 := by simp
      rw [hrlen] at hih
      simp only [List.length_cons] at *
      omega

theorem pairwise_le_const {l : List String} {f : String → Nat} {k : Nat}
    (h : ∀ n ∈ l, f n = k) : (l.map f).Pairwise (· ≤ ·) := by
  induction l with
  | nil => simp
  | cons a rest ih =>
    simp only [List.map_cons, List.pairwise_cons]
    constructor
    · intro b hb
      obtain ⟨x, hx, rfl⟩ := List.mem_map.mp hb
      rw [h a (by simp), h x (List.mem_cons_of_mem _ hx)]
    · exact ih (fun n hn => h n (List.mem_cons_of_mem _ hn))

/-- One dequeue step preserves the BFS invariant. -/
theorem bfsInv_step {g : RailwayGraph} {s e : String}
    {current : String} {path : List String} {rest : List (String × List String)}
    {visited news : List String}
    (inv : BfsInv g s e ((current, path) :: rest) visited)
    (hnd : news.Nodup)
    (hprops : ∀ n ∈ news, (∃ c, (n, c) ∈ dget g.adjacency_list current) ∧
      n ∉ visited ∧ n ≠ e)
    (hcov : ∀ nc ∈ dget g.adjacency_list current, nc.1 ∈ visited ++ news) :
    BfsInv g s e (rest ++ news.map (fun n => (n, path ++ [n]))) (visited ++ news) := by
  obtain ⟨hopath, hohead, holast⟩ := inv.entries (current, path) (List.mem_cons_self _ _)
  have hlen : ∀ q ∈ news.map (fun n => (n, path ++ [n])), q.2.length = path.length + 1 := by
    intro q hq
    obtain ⟨n, _, rfl⟩ := List.mem_map.mp hq
    simp
  have hrestlen : ∀ q ∈ rest, path.length ≤ q.2.length := by
    intro q hq
    exact sorted_head_min inv.levels rfl q (List.mem_cons_of_mem _ hq)
  have hrestspread : ∀ q ∈ rest, q.2.length ≤ path.length + 1 := by
    intro q hq
    exact inv.spread q (List.mem_cons_of_mem _ hq) (current, path) (List.mem_cons_self _ _)
  refine ⟨?_, ?_, ?_, ?_, ?_, ?_, ?_, ?_⟩
  · intro q hq
    rcases List.mem_append.mp hq with hq' | hq'
    · exact inv.entries q (List.mem_cons_of_mem _ hq')
    · obtain ⟨n, hn, rfl⟩ := List.mem_map.mp hq'
      obtain ⟨⟨c, hc⟩, _, _⟩ := hprops n hn
      exact ⟨pathOn_append_edge hopath holast hc,
        by rw [List.head?_append_of_ne_nil _ (pathOn_ne_nil hopath)]; exact hohead,
        List.getLast?_concat _⟩
  · rw [List.map_append]
    refine List.pairwise_append.mpr ⟨(List.pairwise_cons.mp inv.levels).2, ?_, ?_⟩
    · rw [List.map_map]
      exact pairwise_le_const (k := path.length + 1) (fun n hn => by simp)
    · intro a ha b hb
      obtain ⟨q, hq, rfl⟩ := List.mem_map.mp ha
      obtain ⟨q', hq', rfl⟩ := List.mem_map.mp hb
      rw [hlen q' hq']
      exact hrestspread q hq
  · intro q hq q' hq'
    rcases List.mem_append.mp hq with h1 | h1 <;> rcases List.mem_append.mp hq' with h2 | h2
    · exact inv.spread q (List.mem_cons_of_mem _ h1) q' (List.mem_cons_of_mem _ h2)
    · rw [hlen q' h2]
      exact le_trans (hrestspread q h1) (by omega)
    · rw [hlen q h1]
      exact Nat.add_le_add_right (hrestlen q' h2) 1
    · rw [hlen q h1, hlen q' h2]
      omega
  · intro q hq
    rcases List.mem_append.mp hq with h1 | h1
    · exact List.mem_append.mpr (Or.inl (inv.inVisited q (List.mem_cons_of_mem _ h1)))
    · obtain ⟨n, hn, rfl⟩ := List.mem_map.mp h1
      exact List.mem_append.mpr (Or.inr hn)
  · exact List.mem_append.mpr (Or.inl inv.sInVisited)
  · intro hmem
    rcases List.mem_append.mp hmem with h1 | h1
    · exact inv.eNotVisited h1
    · exact (hprops e h1).2.2 rfl
  · intro u hu
    rcases List.mem_append.mp hu with h1 | h1
    · rcases inv.closure u h1 with ⟨p', hp'⟩ | hexp
      · rcases List.mem_cons.mp hp' with heq | hmem
        · right
          intro nc hnc
          have : u = current := congrArg Prod.fst heq
          subst this
          exact hcov nc hnc
        · exact Or.inl ⟨p', List.mem_append.mpr (Or.inl hmem)⟩
      · right
        intro nc hnc
        exact List.mem_append.mpr (Or.inl (hexp nc hnc))
    · left
      exact ⟨path ++ [u], List.mem_append.mpr (Or.inr (List.mem_map_of_mem _ h1))⟩
  · intro q hq r hr hrh hrl
    rcases List.mem_append.mp hq with h1 | h1
    · exact inv.optimal q (List.mem_cons_of_mem _ h1) r hr hrh hrl
    · obtain ⟨n, hn, rfl⟩ := List.mem_map.mp h1
      have hlast : ∀ x, r.getLast? = some x → x ∉ visited := by
        intro x hx
        rw [hrl] at hx
        cases hx
        exact (hprops n hn).2.1
      have hb := bfs_bound inv rfl r hr s hrh inv.sInVisited hlast
        [s] (PathOn.single s) rfl rfl
      simp only [List.length_singleton, List.length_append, List.length_cons,
        List.length_nil] at hb ⊢
      omega

/-- Partial correctness of the BFS loop: a returned non-empty path is a
shortest directed path from `s` to `e`. -/
theorem bfsLoop_correct {g : RailwayGraph} {s e : String} :
    ∀ (fuel : Nat) (queue : List (String × List String)) (visited : List String)
      (adjm : AdjMap), BfsInv g s e queue visited →
      (∀ k, dget adjm k = dget g.adjacency_list k) →
      ∀ {p : List String} {m : Nat} {adjm2 : AdjMap},
      bfsLoop e fuel queue visited adjm = .ok ((p, m), adjm2) → p ≠ [] →
      PathOn g p ∧ p.head? = some s ∧ p.getLast? = some e ∧ m = p.length - 1 ∧
        ∀ r, PathOn g r → r.head? = some s → r.getLast? = some e →
          p.length ≤ r.length := by
  intro fuel
  induction fuel with
  | zero =>
    intro queue visited adjm _ _ p m adjm2 hrun
    simp [bfsLoop] at hrun
  | succ fuel ih =>
    intro queue visited adjm inv hadj p m adjm2 hrun hp
    cases queue with
    | nil =>
      simp only [bfsLoop, Except.ok.injEq, Prod.mk.injEq] at hrun
      exact absurd hrun.1.1.symm hp
    | cons front rest =>
      obtain ⟨current, path⟩ := front
      have hlist : dget (touch adjm current) current = dget g.adjacency_list current := by
        rw [touch_dget]
        exact hadj current
      rw [show bfsLoop e (fuel+1) ((current, path) :: rest) visited adjm =
          (match bfsScan e path (dget (touch adjm current) current) visited [] with
          | (some found, _, _) => .ok ((found, found.length - 1), touch adjm current)
          | (none, visited', fresh) =>
            bfsLoop e fuel (rest ++ fresh) visited' (touch adjm current)) from rfl,
        hlist] at hrun
      rcases bfsScan_spec e path (dget g.adjacency_list current) visited [] with
        ⟨n, c, v2, a2, hscan, hm, hnv, hne⟩ | ⟨news, hscan, hnd, hprops, hcov⟩
      · rw [hscan] at hrun
        simp only [Except.ok.injEq, Prod.mk.injEq] at hrun
        obtain ⟨⟨hpe, hme⟩, _⟩ := hrun
        obtain ⟨hopath, hohead, holast⟩ := inv.entries (current, path) (List.mem_cons_self _ _)
        subst hne
        subst hpe
        refine ⟨pathOn_append_edge hopath holast hm,
          by rw [List.head?_append_of_ne_nil _ (pathOn_ne_nil hopath)]; exact hohead,
          List.getLast?_concat _, hme.symm, ?_⟩
        intro r hr hrh hrl
        have hlast : ∀ x, r.getLast? = some x → x ∉ visited := by
          intro x hx
          rw [hrl] at hx
          cases hx
          exact hnv
        have hb := bfs_bound inv rfl r hr s hrh inv.sInVisited hlast
          [s] (PathOn.single s) rfl rfl
        simp only [List.length_singleton, List.length_append, List.length_cons,
          List.length_nil] at hb ⊢
        omega
      · rw [hscan] at hrun
        simp only [List.nil_append] at hrun
        have hadj' : ∀ k, dget (touch adjm current) k = dget g.adjacency_list k := by
          intro k
          rw [touch_dget]
          exact hadj k
        exact ih _ _ _ (bfsInv_step inv hnd hprops hcov) hadj' hrun hp

/-- Claim-level BFS correctness: a returned non-empty result is a directed
path from start to end, the metric is its edge count, and no directed path
between the same endpoints has fewer edges. -/
theorem bfs_shortest_path_correct {g : RailwayGraph} {s e : String}
    {p : List String} {m : Nat}
    (hrun : g.bfs_shortest_path s e = .ok (p, m)) (hp : p ≠ []) :
    PathOn g p ∧ p.head? = some s ∧ p.getLast? = some e ∧ m = p.length - 1 ∧
      ∀ r, PathOn g r → r.head? = some s → r.getLast? = some e →
        m ≤ r.length - 1 := by
  unfold RailwayGraph.bfs_shortest_path RailwayGraph.bfs_run at hrun
  by_cases hguard : hasKey g.adjacency_list s = false ∨ hasKey g.stations e = false
  · rw [if_pos hguard] at hrun
    simp only [Except.map, Except.ok.injEq, Prod.mk.injEq] at hrun
    exact absurd hrun.1.symm hp
  · rw [if_neg hguard] at hrun
    by_cases hse : s = e
    · rw [if_pos hse] at hrun
      simp only [Except.map, Except.ok.injEq, Prod.mk.injEq] at hrun
      obtain ⟨hps, hm0⟩ := hrun
      subst hse
      subst hps
      refine ⟨PathOn.single s, rfl, rfl, by simp [hm0.symm], ?_⟩
      intro r hr _ _
      omega
    · rw [if_neg hse] at hrun
      cases hloop : bfsLoop e (bfsFuel g) [(s, [s])] [s] g.adjacency_list with
      | error err => rw [hloop] at hrun; simp [Except.map] at hrun
      | ok res =>
        obtain ⟨⟨p', m'⟩, adjm'⟩ := res
        rw [hloop] at hrun
        simp only [Except.map, Except.ok.injEq, Prod.mk.injEq] at hrun
        obtain ⟨hpp, hmm⟩ := hrun
        subst hpp
        subst hmm
        have hinv : BfsInv g s e [(s, [s])] [s] := by
          refine ⟨?_, ?_, ?_, ?_, ?_, ?_, ?_, ?_⟩
          · intro q hq
            rcases List.mem_singleton.mp hq with rfl
            exact ⟨PathOn.single s, rfl, rfl⟩
          · simp
          · intro q hq q' hq'
            rcases List.mem_singleton.mp hq with rfl
            rcases List.mem_singleton.mp hq' with rfl
            omega
          · intro q hq
            rcases List.mem_singleton.mp hq with rfl
            simp
          · simp
          · intro hmem
            rcases List.mem_singleton.mp hmem with rfl
            exact hse rfl
          · intro u hu
            rcases List.mem_singleton.mp hu with rfl
            exact Or.inl ⟨[u], by simp⟩
          · intro q hq r hr hrh hrl
            rcases List.mem_singleton.mp hq with rfl
            have := pathOn_ne_nil hr
            cases r with
            | nil => simp at this
            | cons a l => simp
        obtain ⟨h1, h2, h3, h4, h5⟩ :=
          bfsLoop_correct (bfsFuel g) [(s, [s])] [s] g.adjacency_list hinv
            (fun k => rfl) hloop hp
        refine ⟨h1, h2, h3, h4, ?_⟩
        intro r hr hrh hrl
        have := h5 r hr hrh hrl
        omega

/-! ### BFS fuel sufficiency -/

theorem mem_targetsOf {m : AdjMap} {u v : String} {c : ℚ}
    (h : (v, c) ∈ dget m u) : v ∈ targetsOf m := by
  obtain ⟨l, hl, hm⟩ : ∃ l, (u, l) ∈ m ∧ (v, c) ∈ l := by
    unfold dget at h
    cases hl : m.lookup u with
    | none => rw [hl] at h; simp at h
    | some l =>
      rw [hl] at h
      exact ⟨l, lookup_mem hl, h⟩
  unfold targetsOf
  rw [List.mem_flatten]
  exact ⟨l.map Prod.fst, List.mem_map_of_mem _ hl, List.mem_map_of_mem _ hm⟩

theorem filterNe_length {l : List String} {n : String} (h : n ∈ l) :
    (l.filter (fun t => t ≠ n)).length + 1 ≤ l.length := by
  induction l with
  | nil => simp at h
  | cons a rest ih =>
    by_cases ha : a = n
    · subst ha
      have heq : (a :: rest).filter (fun t => t ≠ a) = rest.filter (fun t => t ≠ a) := by
        simp [List.filter_cons]
      rw [heq, List.length_cons]
      have h2 : (rest.filter (fun t => t ≠ a)).length ≤ rest.length :=
        List.length_filter_le _ _
      omega
    · rcases List.mem_cons.mp h with rfl | h'
      · exact absurd rfl ha
      · have h2 := ih h'
        have heq : (a :: rest).filter (fun t => t ≠ n) = a :: rest.filter (fun t => t ≠ n) := by
          simp [List.filter_cons, ha]
        rw [heq, List.length_cons, List.length_cons]
        omega

theorem filter_append_measure {T : List String} (hT : T.Nodup) :
    ∀ (news visited : List String), news.Nodup →
      (∀ n ∈ news, n ∈ T ∧ n ∉ visited) →
      (T.filter (fun t => t ∉ visited ++ news)).length + news.length ≤
        (T.filter (fun t => t ∉ visited)).length := by
  intro news
  induction news with
  | nil =>
    intro visited _ _
    simp
  | cons n ns ih =>
    intro visited hnd hsub
    obtain ⟨hnT, hnv⟩ := hsub n (List.mem_cons_self _ _)
    have step1 : (T.filter (fun t => t ∉ visited ++ n :: ns)).length + ns.length ≤
        (T.filter (fun t => t ∉ visited ++ [n])).length := by
      have heq : T.filter (fun t => t ∉ visited ++ n :: ns) =
          T.filter (fun t => t ∉ (visited ++ [n]) ++ ns) := by
        apply List.filter_congr
        intro x _
        simp [List.mem_append, List.mem_cons, or_assoc]
      rw [heq]
      exact ih (visited ++ [n]) (List.nodup_cons.mp hnd).2
        (fun x hx => ⟨(hsub x (List.mem_cons_of_mem _ hx)).1, by
          intro hmem
          rcases List.mem_append.mp hmem with h1 | h1
          · exact (hsub x (List.mem_cons_of_mem _ hx)).2 h1
          · rcases List.mem_singleton.mp h1 with rfl
            exact (List.nodup_cons.mp hnd).1 hx⟩)
    have step2 : (T.filter (fun t => t ∉ visited ++ [n])).length + 1 ≤
        (T.filter (fun t => t ∉ visited)).length := by
      have heq : T.filter (fun t => t ∉ visited ++ [n]) =
          (T.filter (fun t => t ∉ visited)).filter (fun t => t ≠ n) := by
        rw [List.filter_filter]
        apply List.filter_congr
        intro x _
        simp only [List.mem_append, List.mem_singleton, decide_not]
        cases hd1 : decide (x = n) <;> cases hd2 : decide (x ∈ visited) <;>
          simp_all
      rw [heq]
      apply filterNe_length
      rw [List.mem_filter]
      exact ⟨hnT, by simpa using hnv⟩
    simp only [List.length_cons]
    omega

theorem bfsLoop_sufficient {g : RailwayGraph} {e : String} :
    ∀ (fuel : Nat) (queue : List (String × List String)) (visited : List String)
      (adjm : AdjMap), (∀ k, dget adjm k = dget g.adjacency_list k) →
      queue.length +
        ((targetsOf g.adjacency_list).dedup.filter (fun t => t ∉ visited)).length
        < fuel →
      ∃ r, bfsLoop e fuel queue visited adjm = .ok r := by
  intro fuel
  induction fuel with
  | zero =>
    intro queue visited adjm _ hm
    omega
  | succ fuel ih =>
    intro queue visited adjm hadj hm
    cases queue with
    | nil => exact ⟨(([], 0), adjm), rfl⟩
    | cons front rest =>
      obtain ⟨current, path⟩ := front
      have hlist : dget (touch adjm current) current = dget g.adjacency_list current := by
        rw [touch_dget]
        exact hadj current
      have hstep : bfsLoop e (fuel+1) ((current, path) :: rest) visited adjm =
          (match bfsScan e path (dget g.adjacency_list current) visited [] with
          | (some found, _, _) => .ok ((found, found.length - 1), touch adjm current)
          | (none, visited', fresh) =>
            bfsLoop e fuel (rest ++ fresh) visited' (touch adjm current)) := by
        rw [show bfsLoop e (fuel+1) ((current, path) :: rest) visited adjm =
          (match bfsScan e path (dget (touch adjm current) current) visited [] with
          | (some found, _, _) => .ok ((found, found.length - 1), touch adjm current)
          | (none, visited', fresh) =>
            bfsLoop e fuel (rest ++ fresh) visited' (touch adjm current)) from rfl, hlist]
      rcases bfsScan_spec e path (dget g.adjacency_list current) visited [] with
        ⟨n, c, v2, a2, hscan, _, _, _⟩ | ⟨news, hscan, hnd, hprops, _⟩
      · rw [hstep, hscan]
        exact ⟨_, rfl⟩
      · rw [hstep, hscan]
        apply ih
        · intro k
          rw [touch_dget]
          exact hadj k
        · have hcount := filter_append_measure (List.nodup_dedup _) news visited hnd
            (fun n hn => ⟨by
              obtain ⟨⟨c, hc⟩, _, _⟩ := hprops n hn
              exact List.mem_dedup.mpr (mem_targetsOf hc),
              (hprops n hn).2.1⟩)
          simp only [List.length_cons] at hm
          simp only [List.nil_append, List.length_append, List.length_map]
          omega

/-- BFS always returns a value, on every graph and every pair of codes. -/
theorem bfs_run_total (g : RailwayGraph) (s e : String) :
    ∃ r, g.bfs_run s e = .ok r := by
  unfold RailwayGraph.bfs_run
  by_cases hguard : hasKey g.adjacency_list s = false ∨ hasKey g.stations e = false
  · rw [if_pos hguard]
    exact ⟨_, rfl⟩
  · rw [if_neg hguard]
    by_cases hse : s = e
    · rw [if_pos hse]
      exact ⟨_, rfl⟩
    · rw [if_neg hse]
      have hlen : (targetsOf g.adjacency_list).dedup.length ≤
          totalAdjSize g.adjacency_list := by
        have h1 : (targetsOf g.adjacency_list).dedup.length ≤
            (targetsOf g.adjacency_list).length :=
          (List.dedup_sublist _).length_le
        have h2 : (targetsOf g.adjacency_list).length = totalAdjSize g.adjacency_list := by
          unfold targetsOf totalAdjSize
          rw [List.length_flatten, List.map_map]
          congr 1
          apply List.map_congr_left
          intro p _
          simp
        omega
      obtain ⟨r, hr⟩ := bfsLoop_sufficient (g := g) (e := e) (bfsFuel g)
        [(s, [s])] [s] g.adjacency_list (fun k => rfl) (by
          have : ((targetsOf g.adjacency_list).dedup.filter
              (fun t => t ∉ [s])).length ≤ (targetsOf g.adjacency_list).dedup.length :=
            List.length_filter_le _ _
          unfold bfsFuel
          simp only [List.length_singleton]
          omega)
      rw [hr]
      exact ⟨_, rfl⟩

/-! ### Dijkstra correctness -/

/-- Python's lexicographic order on heap tuples (`heapq` pops the least). -/
def pqle (a b : ℚ × String) : Prop :=
  a.1 < b.1 ∨ (a.1 = b.1 ∧ a.2 ≤ b.2)

theorem pqle_refl (a : ℚ × String) : pqle a a := Or.inr ⟨rfl, le_refl _⟩

theorem pqle_trans {a b c : ℚ × String} (h1 : pqle a b) (h2 : pqle b c) : pqle a c := by
  rcases h1 with h1 | ⟨h1, h1'⟩ <;> rcases h2 with h2 | ⟨h2, h2'⟩
  · exact Or.inl (lt_trans h1 h2)
  · exact Or.inl (h2 ▸ h1)
  · exact Or.inl (h1 ▸ h2)
  · exact Or.inr ⟨h1.trans h2, h1'.trans h2'⟩

theorem pqle_of_not_lt {a b : ℚ × String}
    (h : ¬(b.1 < a.1 ∨ (b.1 = a.1 ∧ b.2 < a.2))) : pqle a b := by
  push_neg at h
  rcases lt_or_eq_of_le h.1 with h1 | h1
  · exact Or.inl h1
  · exact Or.inr ⟨h1, h.2 h1.symm⟩

theorem pqle_of_lt {a b : ℚ × String}
    (h : a.1 < b.1 ∨ (a.1 = b.1 ∧ a.2 < b.2)) : pqle a b := by
  rcases h with h | ⟨h1, h2⟩
  · exact Or.inl h
  · exact Or.inr ⟨h1, le_of_lt h2⟩

theorem pqMinAux_min (x : ℚ × String) (l : List (ℚ × String)) :
    ∀ y ∈ x :: l, pqle (pqMinAux x l) y := by
  induction l generalizing x with
  | nil =>
    intro y hy
    rcases List.mem_singleton.mp hy with rfl
    exact pqle_refl _
  | cons z zs ih =>
    intro y hy
    have hcases : y = x ∨ y = z ∨ y ∈ zs := by
      rcases List.mem_cons.mp hy with h | h
      · exact Or.inl h
      · rcases List.mem_cons.mp h with h' | h'
        · exact Or.inr (Or.inl h')
        · exact Or.inr (Or.inr h')
    rw [show pqMinAux x (z :: zs) =
      (if z.1 < x.1 ∨ (z.1 = x.1 ∧ z.2 < x.2) then pqMinAux z zs else pqMinAux x zs)
      from rfl]
    by_cases hc : z.1 < x.1 ∨ (z.1 = x.1 ∧ z.2 < x.2)
    · rw [if_pos hc]
      rcases hcases with h | h | h
      · subst h
        exact pqle_trans (ih z z (List.mem_cons_self _ _)) (pqle_of_lt hc)
      · rw [h]
        exact ih z z (List.mem_cons_self _ _)
      · exact ih z y (List.mem_cons_of_mem _ h)
    · rw [if_neg hc]
      rcases hcases with h | h | h
      · rw [h]
        exact ih x x (List.mem_cons_self _ _)
      · subst h
        exact pqle_trans (ih x x (List.mem_cons_self _ _)) (pqle_of_not_lt hc)
      · exact ih x y (List.mem_cons_of_mem _ h)

theorem pqMinAux_mem (x : ℚ × String) (l : List (ℚ × String)) :
    pqMinAux x l ∈ x :: l := by
  induction l generalizing x with
  | nil => simp [pqMinAux]
  | cons z zs ih =>
    rw [show pqMinAux x (z :: zs) =
      (if z.1 < x.1 ∨ (z.1 = x.1 ∧ z.2 < x.2) then pqMinAux z zs else pqMinAux x zs)
      from rfl]
    by_cases hc : z.1 < x.1 ∨ (z.1 = x.1 ∧ z.2 < x.2)
    · rw [if_pos hc]
      rcases List.mem_cons.mp (ih z) with h | h
      · rw [h]
        exact List.mem_cons_of_mem _ (List.mem_cons_self _ _)
      · exact List.mem_cons_of_mem _ (List.mem_cons_of_mem _ h)
    · rw [if_neg hc]
      rcases List.mem_cons.mp (ih x) with h | h
      · rw [h]
        exact List.mem_cons_self _ _
      · exact List.mem_cons_of_mem _ (List.mem_cons_of_mem _ h)

theorem heappop_spec {pq : List (ℚ × String)} {m : ℚ × String}
    {pq' : List (ℚ × String)} (h : heappop pq = some (m, pq')) :
    m ∈ pq ∧ pq' = pq.erase m ∧ ∀ y ∈ pq, pqle m y := by
  cases pq with
  | nil => simp [heappop] at h
  | cons x xs =>
    simp only [heappop, Option.some_inj, Prod.mk.injEq] at h
    obtain ⟨hm, hpq'⟩ := h
    subst hm
    exact ⟨pqMinAux_mem x xs, hpq'.symm, pqMinAux_min x xs⟩

theorem heappop_none {pq : List (ℚ × String)} (h : heappop pq = none) : pq = [] := by
  cases pq with
  | nil => rfl
  | cons x xs => simp [heappop] at h

theorem indexOf_append_fresh {l : List String} {x : String} (h : x ∉ l) :
    (l ++ [x]).indexOf x = l.length := by
  induction l with
  | nil => simp
  | cons a rest ih =>
    have hne : a ≠ x := fun he => h (he ▸ List.mem_cons_self _ _)
    simp only [List.cons_append, List.indexOf_cons]
    rw [show (a == x) = false from beq_false_of_ne hne]
    simp only [cond_false, List.length_cons]
    rw [ih (fun hm => h (List.mem_cons_of_mem _ hm))]

/-- `d` is the least weight of any walk from `s` to `v`, and is attained. -/
def IsMinDist (g : RailwayGraph) (s v : String) (d : ℚ) : Prop :=
  (∃ p, WalkOn g p d ∧ p.head? = some s ∧ p.getLast? = some v) ∧
  (∀ p w, WalkOn g p w → p.head? = some s → p.getLast? = some v → d ≤ w)

/-- Invariant of the Dijkstra main loop. -/
structure DijInv (g : RailwayGraph) (s e : String)
    (dist : List (String × WithTop ℚ)) (prev : List (String × String))
    (pq : List (ℚ × String)) (visited : List String) : Prop where
  eNotV : e ∉ visited
  dkeys : ∀ k, (dist.lookup k).isSome ↔ ((g.stations.lookup k).isSome ∨ k = s)
  dS : dist.lookup s = some ((0 : ℚ) : WithTop ℚ)
  visOpt : ∀ u ∈ visited, ∃ q : ℚ,
    dist.lookup u = some ((q : ℚ) : WithTop ℚ) ∧ IsMinDist g s u q
  frontier : ∀ u ∈ visited, ∀ nc ∈ dget g.adjacency_list u, ∃ dn du,
    dist.lookup nc.1 = some dn ∧ dist.lookup u = some du ∧
    dn ≤ du + (nc.2 : WithTop ℚ)
  pqGood : ∀ v, v ∉ visited → ∀ q : ℚ,
    dist.lookup v = some ((q : ℚ) : WithTop ℚ) → (q, v) ∈ pq
  pqLB : ∀ y ∈ pq, ∃ d0, dist.lookup y.2 = some d0 ∧ d0 ≤ ((y.1 : ℚ) : WithTop ℚ)
  pqCand : ∀ y ∈ pq, y.2 = s ∨ y.2 ∈ targetsOf g.adjacency_list
  attain : ∀ v (q : ℚ), dist.lookup v = some ((q : ℚ) : WithTop ℚ) →
    ∃ p, WalkOn g p q ∧ p.head? = some s ∧ p.getLast? = some v
  piS : prev.lookup s = none
  chainW : ∀ v (q : ℚ), dist.lookup v = some ((q : ℚ) : WithTop ℚ) → v ≠ s →
    ∃ u c du, prev.lookup v = some u ∧ u ∈ visited ∧
      (v, c) ∈ dget g.adjacency_list u ∧
      dist.lookup u = some ((du : ℚ) : WithTop ℚ) ∧ q = du + c
  piIdx : ∀ x u, prev.lookup x = some u → u ∈ visited ∧
    (x ∈ visited → visited.indexOf u < visited.indexOf x)

theorem withTop_le_coe_finite {a : WithTop ℚ} {b : ℚ} (h : a ≤ (b : WithTop ℚ)) :
    ∃ q : ℚ, a = ((q : ℚ) : WithTop ℚ) ∧ q ≤ b := by
  cases a with
  | top => exact absurd h (by simp)
  | coe q => exact ⟨q, rfl, WithTop.coe_le_coe.mp h⟩

/-- Any walk from inside the visited set to outside it is covered by a
pending queue entry of no greater weight. -/
theorem dij_cover {g : RailwayGraph} {s e : String}
    {dist : List (String × WithTop ℚ)} {prev : List (String × String)}
    {pq : List (ℚ × String)} {visited : List String}
    (inv : DijInv g s e dist prev pq visited) (hnn : NonnegWeights g) :
    ∀ (q : List String) (wq : ℚ), WalkOn g q wq → ∀ (u : String),
      q.head? = some u → u ∈ visited →
      (∀ x, q.getLast? = some x → x ∉ visited) →
      ∀ (wr : ℚ), (∃ r, WalkOn g r wr ∧ r.head? = some s ∧ r.getLast? = some u) →
      ∃ (y : String) (dy : ℚ), dist.lookup y = some ((dy : ℚ) : WithTop ℚ) ∧ y ∉ visited ∧
        (dy, y) ∈ pq ∧ dy ≤ wr + wq := by
  intro q wq hq
  induction hq with
  | single w =>
    intro u hu huv hlast wr _
    simp only [List.head?_cons, Option.some_inj] at hu
    subst hu
    exact absurd huv (hlast w (by simp))
  | cons hedge htail ih =>
    rename_i u' v' rest c' w'
    intro u hu huv hlast wr hr
    simp only [List.head?_cons, Option.some_inj] at hu
    subst hu
    obtain ⟨r, hrw, hrh, hrl⟩ := hr
    by_cases hv' : v' ∈ visited
    · have hlast' : ∀ x, (v' :: rest).getLast? = some x → x ∉ visited := by
        intro x hx
        exact hlast x (by rwa [List.getLast?_cons_cons])
      obtain ⟨y, dy, h1, h2, h3, h4⟩ := ih v' rfl hv' hlast' (wr + c')
        ⟨r ++ [v'], walkOn_append_edge hrw hrl hedge,
          by rw [List.head?_append_of_ne_nil _ (walkOn_ne_nil hrw)]; exact hrh,
          List.getLast?_concat _⟩
      exact ⟨y, dy, h1, h2, h3, by linarith⟩
    · obtain ⟨dn, du, hdn, hdu, hle⟩ := inv.frontier u' huv (v', c') hedge
      obtain ⟨qu, hqu, hmin⟩ := inv.visOpt u' huv
      rw [hqu] at hdu
      cases hdu
      have hqu_wr : qu ≤ wr := hmin.2 r wr hrw hrh hrl
      have hle2 : dn ≤ ((wr + c' : ℚ) : WithTop ℚ) := by
        refine le_trans hle ?_
        rw [show ((wr + c' : ℚ) : WithTop ℚ) = ((wr : ℚ) : WithTop ℚ) + (c' : ℚ) from
          WithTop.coe_add wr c']
        exact add_le_add_right (WithTop.coe_le_coe.mpr hqu_wr) _
      obtain ⟨qv, hqv, hqvle⟩ := withTop_le_coe_finite hle2
      have hw' : 0 ≤ w' := walk_nonneg hnn htail
      refine ⟨v', qv, hqv ▸ hdn, hv', inv.pqGood v' hv' qv (hqv ▸ hdn), by linarith⟩

/-- Any walk from `s` to an unvisited node is covered by a queue entry. -/
theorem dij_cover_start {g : RailwayGraph} {s e : String}
    {dist : List (String × WithTop ℚ)} {prev : List (String × String)}
    {pq : List (ℚ × String)} {visited : List String}
    (inv : DijInv g s e dist prev pq visited) (hnn : NonnegWeights g) :
    ∀ (p : List String) (w : ℚ), WalkOn g p w → p.head? = some s →
      (∀ x, p.getLast? = some x → x ∉ visited) →
      ∃ (y : String) (dy : ℚ), dist.lookup y = some ((dy : ℚ) : WithTop ℚ) ∧ y ∉ visited ∧
        (dy, y) ∈ pq ∧ dy ≤ w := by
  intro p w hp hph hlast
  by_cases hs : s ∈ visited
  · obtain ⟨y, dy, h1, h2, h3, h4⟩ := dij_cover inv hnn p w hp s hph hs hlast 0
      ⟨[s], WalkOn.single s, rfl, rfl⟩
    exact ⟨y, dy, h1, h2, h3, by linarith⟩
  · exact ⟨s, 0, inv.dS, hs, inv.pqGood s hs 0 inv.dS, walk_nonneg hnn hp⟩

/-- A freshly popped node carries its own distance, which is the least
weight of any walk from `s` to it. -/
theorem dij_popmin {g : RailwayGraph} {s e : String}
    {dist : List (String × WithTop ℚ)} {prev : List (String × String)}
    {pq : List (ℚ × String)} {visited : List String}
    (inv : DijInv g s e dist prev pq visited) (hnn : NonnegWeights g)
    {d : ℚ} {v : String} {pq' : List (ℚ × String)}
    (hpop : heappop pq = some ((d, v), pq')) (hv : v ∉ visited) :
    dist.lookup v = some ((d : ℚ) : WithTop ℚ) ∧ IsMinDist g s v d := by
  obtain ⟨hmem, hrest, hmin⟩ := heappop_spec hpop
  obtain ⟨d0, hd0, hd0le⟩ := inv.pqLB (d, v) hmem
  obtain ⟨q, hq, hqle⟩ := withTop_le_coe_finite hd0le
  have hgood : (q, v) ∈ pq := inv.pqGood v hv q (hq ▸ hd0)
  have hdq : d = q := by
    rcases hmin (q, v) hgood with h | ⟨h, _⟩
    · exact absurd h (not_lt.mpr hqle)
    · exact h
  subst hdq
  have hdv : dist.lookup v = some ((d : ℚ) : WithTop ℚ) := hq ▸ hd0
  refine ⟨hdv, inv.attain v d hdv, ?_⟩
  intro p w hp hph hpl
  have hlast : ∀ x, p.getLast? = some x → x ∉ visited := by
    intro x hx
    rw [hpl] at hx
    cases hx
    exact hv
  obtain ⟨y, dy, _, _, h3, h4⟩ := dij_cover_start inv hnn p w hp hph hlast
  rcases hmin (dy, y) h3 with h | ⟨h, _⟩
  · exact le_trans (le_of_lt h) h4
  · exact le_trans (le_of_eq h) h4

theorem upsert_lookup_cases {α : Type} (m : List (String × α)) (k : String)
    (v : α) (k' : String) :
    (upsert m k v).lookup k' = if k' = k then some v else m.lookup k' := by
  by_cases h : k' = k
  · rw [if_pos h, h]
    exact upsert_lookup_self m k v
  · rw [if_neg h]
    exact upsert_lookup_ne m k v k' h

theorem relaxNeighbors_cons_none {current : String} {d : ℚ} {n : String} {w : ℚ}
    {ns : List (String × ℚ)} {dist : List (String × WithTop ℚ)}
    {prev : List (String × String)} {pq : List (ℚ × String)}
    (h : dist.lookup n = none) :
    relaxNeighbors current d ((n, w) :: ns) dist prev pq = .error (.keyError n) := by
  rw [show relaxNeighbors current d ((n, w) :: ns) dist prev pq =
    (match dist.lookup n with
     | none => .error (.keyError n)
     | some dn0 =>
       if ((d + w : ℚ) : WithTop ℚ) < dn0 then
         relaxNeighbors current d ns (upsert dist n ((d + w : ℚ) : WithTop ℚ))
           (upsert prev n current) (pq ++ [(d + w, n)])
       else relaxNeighbors current d ns dist prev pq) from rfl, h]

theorem relaxNeighbors_cons_some {current : String} {d : ℚ} {n : String} {w : ℚ}
    {ns : List (String × ℚ)} {dist : List (String × WithTop ℚ)}
    {prev : List (String × String)} {pq : List (ℚ × String)} {dn : WithTop ℚ}
    (h : dist.lookup n = some dn) :
    relaxNeighbors current d ((n, w) :: ns) dist prev pq =
      (if ((d + w : ℚ) : WithTop ℚ) < dn then
         relaxNeighbors current d ns (upsert dist n ((d + w : ℚ) : WithTop ℚ))
           (upsert prev n current) (pq ++ [(d + w, n)])
       else relaxNeighbors current d ns dist prev pq) := by
  rw [show relaxNeighbors current d ((n, w) :: ns) dist prev pq =
    (match dist.lookup n with
     | none => .error (.keyError n)
     | some dn0 =>
       if ((d + w : ℚ) : WithTop ℚ) < dn0 then
         relaxNeighbors current d ns (upsert dist n ((d + w : ℚ) : WithTop ℚ))
           (upsert prev n current) (pq ++ [(d + w, n)])
       else relaxNeighbors current d ns dist prev pq) from rfl, h]

/-- Full characterisation of one relaxation pass. -/
theorem relaxNeighbors_spec (current : String) (d : ℚ) :
    ∀ (l : List (String × ℚ)) (dist : List (String × WithTop ℚ))
      (prev : List (String × String)) (pq : List (ℚ × String))
      {dist' : List (String × WithTop ℚ)} {prev' : List (String × String)}
      {pq' : List (ℚ × String)},
      relaxNeighbors current d l dist prev pq = .ok (dist', prev', pq') →
      ((∀ k, (dist'.lookup k).isSome ↔ (dist.lookup k).isSome) ∧
       (∀ k d0, dist.lookup k = some d0 →
         ∃ d1, dist'.lookup k = some d1 ∧ d1 ≤ d0) ∧
       (∀ k, (dist'.lookup k = dist.lookup k ∧ prev'.lookup k = prev.lookup k) ∨
         (∃ c : ℚ, (k, c) ∈ l ∧
           dist'.lookup k = some (((d + c : ℚ)) : WithTop ℚ) ∧
           prev'.lookup k = some current ∧ (d + c, k) ∈ pq' ∧
           (∀ d0, dist.lookup k = some d0 → (((d + c : ℚ)) : WithTop ℚ) < d0))) ∧
       (∀ nc ∈ l, ∃ dn, dist'.lookup nc.1 = some dn ∧
         dn ≤ (((d + nc.2 : ℚ)) : WithTop ℚ)) ∧
       (∃ pushed, pq' = pq ++ pushed ∧ ∀ y ∈ pushed,
         (∃ c : ℚ, (y.2, c) ∈ l ∧ y.1 = d + c))) := by
  intro l
  induction l with
  | nil =>
    intro dist prev pq dist' prev' pq' hrun
    simp only [relaxNeighbors, Except.ok.injEq, Prod.mk.injEq] at hrun
    obtain ⟨h1, h2, h3⟩ := hrun
    subst h1
    subst h2
    subst h3
    refine ⟨fun k => Iff.rfl, fun k d0 h => ⟨d0, h, le_refl _⟩,
      fun k => Or.inl ⟨rfl, rfl⟩, by simp, ⟨[], by simp, by simp⟩⟩
  | cons nw ns ih =>
    intro dist prev pq dist' prev' pq' hrun
    obtain ⟨n, w⟩ := nw
    cases hdn : dist.lookup n with
    | none => rw [relaxNeighbors_cons_none hdn] at hrun; simp at hrun
    | some dn =>
      rw [relaxNeighbors_cons_some hdn] at hrun
      by_cases hlt : ((d + w : ℚ) : WithTop ℚ) < dn
      · rw [if_pos hlt] at hrun
        obtain ⟨S1, S2, S3, S4, S5⟩ := ih _ _ _ hrun
        have hkey : ∀ k, ((upsert dist n ((d + w : ℚ) : WithTop ℚ)).lookup k).isSome
            ↔ (dist.lookup k).isSome := by
          intro k
          rw [upsert_lookup_cases]
          by_cases hk : k = n
          · rw [if_pos hk, hk, hdn]
            simp
          · rw [if_neg hk]
        obtain ⟨pushed, hpq, hpush⟩ := S5
        refine ⟨?_, ?_, ?_, ?_, ?_⟩
        · intro k
          rw [S1 k, hkey k]
        · intro k d0 h0
          by_cases hk : k = n
          · subst hk
            rw [hdn] at h0
            cases h0
            obtain ⟨d1, hd1, hd1le⟩ := S2 k ((d + w : ℚ) : WithTop ℚ)
              (by rw [upsert_lookup_cases, if_pos rfl])
            exact ⟨d1, hd1, le_trans hd1le (le_of_lt hlt)⟩
          · obtain ⟨d1, hd1, hd1le⟩ := S2 k d0
              (by rw [upsert_lookup_cases, if_neg hk]; exact h0)
            exact ⟨d1, hd1, hd1le⟩
        · intro k
          rcases S3 k with ⟨he1, he2⟩ | ⟨c, hcm, hc1, hc2, hc3, hc4⟩
          · rw [upsert_lookup_cases] at he1
            rw [upsert_lookup_cases] at he2
            by_cases hk : k = n
            · rw [if_pos hk] at he1 he2
              subst hk
              refine Or.inr ⟨w, List.mem_cons_self _ _, by rw [he1], by rw [he2],
                ?_, ?_⟩
              · rw [hpq]
                exact List.mem_append.mpr (Or.inl
                  (List.mem_append.mpr (Or.inr (List.mem_singleton.mpr rfl))))
              · intro d0 h0
                rw [hdn] at h0
                cases h0
                exact hlt
            · rw [if_neg hk] at he1 he2
              exact Or.inl ⟨he1, he2⟩
          · refine Or.inr ⟨c, List.mem_cons_of_mem _ hcm, hc1, hc2, hc3, ?_⟩
            intro d0 h0
            by_cases hk : k = n
            · subst hk
              rw [hdn] at h0
              cases h0
              refine lt_trans (hc4 ((d + w : ℚ) : WithTop ℚ) ?_) hlt
              rw [upsert_lookup_cases, if_pos rfl]
            · refine hc4 d0 ?_
              rw [upsert_lookup_cases, if_neg hk]
              exact h0
        · intro nc hnc
          rcases List.mem_cons.mp hnc with heq | hmem
          · subst heq
            obtain ⟨d1, hd1, hd1le⟩ := S2 n ((d + w : ℚ) : WithTop ℚ)
              (by rw [upsert_lookup_cases, if_pos rfl])
            exact ⟨d1, hd1, hd1le⟩
          · obtain ⟨dn', h1, h2⟩ := S4 nc hmem
            exact ⟨dn', h1, h2⟩
        · refine ⟨(d + w, n) :: pushed, ?_, ?_⟩
          · rw [hpq, List.append_assoc]
            rfl
          · intro y hy
            rcases List.mem_cons.mp hy with heq | hmem
            · subst heq
              exact ⟨w, List.mem_cons_self _ _, rfl⟩
            · obtain ⟨c, hc1, hc2⟩ := hpush y hmem
              exact ⟨c, List.mem_cons_of_mem _ hc1, hc2⟩
      · rw [if_neg hlt] at hrun
        obtain ⟨S1, S2, S3, S4, S5⟩ := ih _ _ _ hrun
        refine ⟨S1, S2, ?_, ?_, ?_⟩
        · intro k
          rcases S3 k with h | ⟨c, hcm, hc1, hc2, hc3, hc4⟩
          · exact Or.inl h
          · exact Or.inr ⟨c, List.mem_cons_of_mem _ hcm, hc1, hc2, hc3, hc4⟩
        · intro nc hnc
          rcases List.mem_cons.mp hnc with heq | hmem
          · subst heq
            obtain ⟨d1, hd1, hd1le⟩ := S2 n dn hdn
            exact ⟨d1, hd1, le_trans hd1le (not_lt.mp hlt)⟩
          · exact S4 nc hmem
        · obtain ⟨pushed, hpq, hpush⟩ := S5
          refine ⟨pushed, hpq, ?_⟩
          intro y hy
          obtain ⟨c, hc1, hc2⟩ := hpush y hy
          exact ⟨c, List.mem_cons_of_mem _ hc1, hc2⟩

/-- Skipping a stale entry preserves the invariant. -/
theorem dijInv_skip {g : RailwayGraph} {s e : String}
    {dist : List (String × WithTop ℚ)} {prev : List (String × String)}
    {pq pq' : List (ℚ × String)} {visited : List String} {d : ℚ} {v : String}
    (inv : DijInv g s e dist prev pq visited)
    (hpop : heappop pq = some ((d, v), pq')) (hv : v ∈ visited) :
    DijInv g s e dist prev pq' visited := by
  obtain ⟨_, hrest, _⟩ := heappop_spec hpop
  subst hrest
  refine ⟨inv.eNotV, inv.dkeys, inv.dS, inv.visOpt, inv.frontier, ?_, ?_, ?_,
    inv.attain, inv.piS, inv.chainW, inv.piIdx⟩
  · intro u hu q hq
    have hne : (q, u) ≠ (d, v) := by
      intro h
      cases h
      exact hu hv
    exact (List.mem_erase_of_ne hne).mpr (inv.pqGood u hu q hq)
  · intro y hy
    exact inv.pqLB y (List.erase_subset _ _ hy)
  · intro y hy
    exact inv.pqCand y (List.erase_subset _ _ hy)

/-- Settling a fresh node and relaxing its edges preserves the invariant. -/
theorem dijInv_step {g : RailwayGraph} {s e : String}
    {dist dist' : List (String × WithTop ℚ)} {prev prev' : List (String × String)}
    {pq pq' pq2 : List (ℚ × String)} {visited : List String}
    {d : ℚ} {current : String}
    (inv : DijInv g s e dist prev pq visited) (hnn : NonnegWeights g)
    (hpop : heappop pq = some ((d, current), pq'))
    (hfresh : current ∉ visited) (hne : current ≠ e)
    (hrelax : relaxNeighbors current d (dget g.adjacency_list current) dist prev pq'
      = .ok (dist', prev', pq2)) :
    DijInv g s e dist' prev' pq2 (visited ++ [current]) := by
  obtain ⟨hdv, hmin⟩ := dij_popmin inv hnn hpop hfresh
  obtain ⟨_, hrest, _⟩ := heappop_spec hpop
  obtain ⟨S1, S2, S3, S4, S5⟩ := relaxNeighbors_spec current d _ _ _ _ hrelax
  have hd0 : 0 ≤ d := by
    obtain ⟨p, hw, _, _⟩ := hmin.1
    exact walk_nonneg hnn hw
  have hvis_pres : ∀ u ∈ visited,
      dist'.lookup u = dist.lookup u ∧ prev'.lookup u = prev.lookup u := by
    intro u hu
    rcases S3 u with h | ⟨c, hcm, _, _, _, hc4⟩
    · exact h
    · exfalso
      obtain ⟨qu, hqu, hminu⟩ := inv.visOpt u hu
      have hqle : qu ≤ d + c := by
        obtain ⟨p, hw, hph, hpl⟩ := hmin.1
        exact hminu.2 (p ++ [u]) (d + c) (walkOn_append_edge hw hpl hcm)
          (by rw [List.head?_append_of_ne_nil _ (walkOn_ne_nil hw)]; exact hph)
          (List.getLast?_concat _)
      have := hc4 _ hqu
      rw [WithTop.coe_lt_coe] at this
      linarith
  have hcur_pres : dist'.lookup current = some ((d : ℚ) : WithTop ℚ) ∧
      prev'.lookup current = prev.lookup current := by
    rcases S3 current with h | ⟨c, hcm, _, _, _, hc4⟩
    · exact ⟨h.1.trans hdv, h.2⟩
    · exfalso
      have hc0 : 0 ≤ c := nonneg_of_edge hnn hcm
      have := hc4 _ hdv
      rw [WithTop.coe_lt_coe] at this
      linarith
  have hs_pres : dist'.lookup s = some ((0 : ℚ) : WithTop ℚ) ∧
      prev'.lookup s = prev.lookup s := by
    rcases S3 s with h | ⟨c, hcm, _, _, _, hc4⟩
    · exact ⟨h.1.trans inv.dS, h.2⟩
    · exfalso
      have hc0 : 0 ≤ c := nonneg_of_edge hnn hcm
      have := hc4 _ inv.dS
      rw [WithTop.coe_lt_coe] at this
      linarith
  refine ⟨?_, ?_, hs_pres.1, ?_, ?_, ?_, ?_, ?_, ?_, ?_, ?_, ?_⟩
  · intro hmem
    rcases List.mem_append.mp hmem with h | h
    · exact inv.eNotV h
    · exact hne (List.mem_singleton.mp h).symm
  · intro k
    rw [S1 k]
    exact inv.dkeys k
  · intro u hu
    rcases List.mem_append.mp hu with h | h
    · obtain ⟨qu, hqu, hminu⟩ := inv.visOpt u h
      exact ⟨qu, (hvis_pres u h).1.trans hqu, hminu⟩
    · rcases List.mem_singleton.mp h with rfl
      exact ⟨d, hcur_pres.1, hmin⟩
  · intro u hu nc hnc
    rcases List.mem_append.mp hu with h | h
    · obtain ⟨dn, du, hdn, hdu, hle⟩ := inv.frontier u h nc hnc
      obtain ⟨d1, hd1, hd1le⟩ := S2 nc.1 dn hdn
      exact ⟨d1, du, hd1, (hvis_pres u h).1.trans hdu, le_trans hd1le hle⟩
    · rcases List.mem_singleton.mp h with rfl
      obtain ⟨dn, hdn, hdnle⟩ := S4 nc hnc
      refine ⟨dn, ((d : ℚ) : WithTop ℚ), hdn, hcur_pres.1, ?_⟩
      rw [← WithTop.coe_add]
      exact hdnle
  · intro v hv q hq
    rcases S3 v with h | ⟨c, hcm, hc1, hc2, hc3, hc4⟩
    · have hvv : v ∉ visited := fun hm => hv (List.mem_append.mpr (Or.inl hm))
      have hvc : v ≠ current := fun hm =>
        hv (List.mem_append.mpr (Or.inr (hm ▸ List.mem_singleton.mpr rfl)))
      have hold : (q, v) ∈ pq := inv.pqGood v hvv q (h.1 ▸ hq)
      obtain ⟨pushed, hpq2, _⟩ := S5
      rw [hpq2]
      refine List.mem_append.mpr (Or.inl ?_)
      rw [hrest]
      refine (List.mem_erase_of_ne ?_).mpr hold
      intro hcontra
      exact hvc (congrArg Prod.snd hcontra)
    · rw [hc1] at hq
      have hqdc : q = d + c := by
        have h2 := Option.some.inj hq.symm
        exact_mod_cast h2
      exact hqdc ▸ hc3
  · intro y hy
    obtain ⟨pushed, hpq2, hpush⟩ := S5
    rw [hpq2] at hy
    rcases List.mem_append.mp hy with h | h
    · have hsub : y ∈ pq := by
        rw [hrest] at h
        exact List.erase_subset _ _ h
      obtain ⟨d0, hd0', hd0le⟩ := inv.pqLB y hsub
      obtain ⟨d1, hd1, hd1le⟩ := S2 y.2 d0 hd0'
      exact ⟨d1, hd1, le_trans hd1le hd0le⟩
    · obtain ⟨c, hcm, hcy⟩ := hpush y h
      obtain ⟨dn, hdn, hdnle⟩ := S4 (y.2, c) hcm
      exact ⟨dn, hdn, hcy ▸ hdnle⟩
  · intro y hy
    obtain ⟨pushed, hpq2, hpush⟩ := S5
    rw [hpq2] at hy
    rcases List.mem_append.mp hy with h | h
    · have hsub : y ∈ pq := by
        rw [hrest] at h
        exact List.erase_subset _ _ h
      exact inv.pqCand y hsub
    · obtain ⟨c, hcm, _⟩ := hpush y h
      exact Or.inr (mem_targetsOf hcm)
  · intro v q hq
    rcases S3 v with h | ⟨c, hcm, hc1, _, _, _⟩
    · exact inv.attain v q (h.1 ▸ hq)
    · rw [hc1] at hq
      have hqe : q = d + c := by
        have h2 := Option.some.inj hq.symm
        exact_mod_cast h2
      obtain ⟨p, hw, hph, hpl⟩ := hmin.1
      exact ⟨p ++ [v], hqe ▸ walkOn_append_edge hw hpl hcm,
        by rw [List.head?_append_of_ne_nil _ (walkOn_ne_nil hw)]; exact hph,
        List.getLast?_concat _⟩
  · exact hs_pres.2.trans inv.piS
  · intro v q hq hvs
    rcases S3 v with h | ⟨c, hcm, hc1, hc2, _, _⟩
    · obtain ⟨u, c, du, hprev, huvis, hedge, hdu, heq⟩ :=
        inv.chainW v q (h.1 ▸ hq) hvs
      refine ⟨u, c, du, h.2.trans hprev, List.mem_append.mpr (Or.inl huvis),
        hedge, (hvis_pres u huvis).1.trans hdu, heq⟩
    · rw [hc1] at hq
      have hqe : q = d + c := by
        have h2 := Option.some.inj hq.symm
        exact_mod_cast h2
      exact ⟨current, c, d, hc2,
        List.mem_append.mpr (Or.inr (List.mem_singleton.mpr rfl)), hcm,
        hcur_pres.1, hqe⟩
  · intro x u hxu
    rcases S3 x with h | ⟨c, hcm, hc1, hc2, _, hc4⟩
    · rw [h.2] at hxu
      obtain ⟨huvis, hidx⟩ := inv.piIdx x u hxu
      refine ⟨List.mem_append.mpr (Or.inl huvis), ?_⟩
      intro hx
      rcases List.mem_append.mp hx with h1 | h1
      · rw [List.indexOf_append_of_mem huvis, List.indexOf_append_of_mem h1]
        exact hidx h1
      · rcases List.mem_singleton.mp h1 with rfl
        rw [List.indexOf_append_of_mem huvis, indexOf_append_fresh hfresh]
        exact List.indexOf_lt_length.mpr huvis
    · rw [hc2] at hxu
      cases hxu
      refine ⟨List.mem_append.mpr (Or.inr (List.mem_singleton.mpr rfl)), ?_⟩
      intro hx
      exfalso
      rcases List.mem_append.mp hx with h1 | h1
      · obtain ⟨qx, hqx, hminx⟩ := inv.visOpt x h1
        have hqle : qx ≤ d + c := by
          obtain ⟨p, hw, hph, hpl⟩ := hmin.1
          exact hminx.2 (p ++ [x]) (d + c) (walkOn_append_edge hw hpl hcm)
            (by rw [List.head?_append_of_ne_nil _ (walkOn_ne_nil hw)]; exact hph)
            (List.getLast?_concat _)
        have := hc4 _ hqx
        rw [WithTop.coe_lt_coe] at this
        linarith
      · rcases List.mem_singleton.mp h1 with rfl
        have hc0 : 0 ≤ c := nonneg_of_edge hnn hcm
        have := hc4 _ hdv
        rw [WithTop.coe_lt_coe] at this
        linarith

theorem reconstructLoop_step_some {prev : List (String × String)} {s : String}
    {fuel : Nat} {v : String} {acc : List String} {u : String}
    (h : prev.lookup v = some u) :
    reconstructLoop prev s (fuel+1) v acc = reconstructLoop prev s fuel u (acc ++ [v]) := by
  rw [show reconstructLoop prev s (fuel+1) v acc =
    (match prev.lookup v with
     | some p => reconstructLoop prev s fuel p (acc ++ [v])
     | none => .ok (acc ++ [s]).reverse) from rfl, h]

theorem reconstructLoop_step_none {prev : List (String × String)} {s : String}
    {fuel : Nat} {v : String} {acc : List String}
    (h : prev.lookup v = none) :
    reconstructLoop prev s (fuel+1) v acc = .ok (acc ++ [s]).reverse := by
  rw [show reconstructLoop prev s (fuel+1) v acc =
    (match prev.lookup v with
     | some p => reconstructLoop prev s fuel p (acc ++ [v])
     | none => .ok (acc ++ [s]).reverse) from rfl, h]

/-- Following the predecessor map from a visited node reconstructs a walk
from `s` whose weight is the node's recorded distance. -/
theorem reconstructLoop_ok {g : RailwayGraph} {s e : String}
    {dist : List (String × WithTop ℚ)} {prev : List (String × String)}
    {pq : List (ℚ × String)} {visited : List String}
    (inv : DijInv g s e dist prev pq visited) :
    ∀ (fuel k : Nat) (v : String) (q : ℚ) (acc : List String),
      v ∈ visited → visited.indexOf v ≤ k → k + 2 ≤ fuel →
      dist.lookup v = some ((q : ℚ) : WithTop ℚ) →
      ∃ pc, reconstructLoop prev s fuel v acc = .ok ((acc ++ pc ++ [s]).reverse) ∧
        WalkOn g ((pc ++ [s]).reverse) q ∧
        ((pc ++ [s]).reverse).head? = some s ∧
        ((pc ++ [s]).reverse).getLast? = some v := by
  intro fuel
  induction fuel with
  | zero =>
    intro k v q acc _ _ hk
    omega
  | succ fuel ih =>
    intro k v q acc hv hidx hk hq
    by_cases hvs : v = s
    · rw [hvs] at hq ⊢
      have hq0 : q = 0 := by
        rw [inv.dS] at hq
        have h2 := Option.some.inj hq
        exact_mod_cast h2.symm
      refine ⟨[], ?_, ?_, rfl, rfl⟩
      · rw [reconstructLoop_step_none inv.piS]
        simp
      · subst hq0
        exact WalkOn.single s
    · obtain ⟨u, c, du, hprev, huvis, hedge, hdu, heq⟩ := inv.chainW v q hq hvs
      obtain ⟨_, hidxlt⟩ := inv.piIdx v u hprev
      have hlt : visited.indexOf u < visited.indexOf v := hidxlt hv
      obtain ⟨pc', hrun', hwalk', hh', hl'⟩ :=
        ih (k - 1) u du (acc ++ [v]) huvis (by omega) (by omega) hdu
      refine ⟨v :: pc', ?_, ?_, ?_, ?_⟩
      · rw [reconstructLoop_step_some hprev, hrun']
        congr 1
        simp
      · rw [show ((v :: pc') ++ [s]).reverse = ((pc' ++ [s]).reverse) ++ [v] by simp]
        rw [heq]
        exact walkOn_append_edge hwalk' hl' hedge
      · rw [show ((v :: pc') ++ [s]).reverse = ((pc' ++ [s]).reverse) ++ [v] by simp]
        rw [List.head?_append_of_ne_nil _ (by simp)]
        exact hh'
      · rw [show ((v :: pc') ++ [s]).reverse = ((pc' ++ [s]).reverse) ++ [v] by simp]
        exact List.getLast?_concat _

theorem dijkstraLoop_pop_none {s e : String} {fuel : Nat} {st : DijState}
    (h : heappop st.pq = none) :
    dijkstraLoop s e (fuel+1) st = .ok (([], 0), st.adjm) := by
  rw [show dijkstraLoop s e (fuel+1) st =
    (match heappop st.pq with
     | none => .ok (([], 0), st.adjm)
     | some ((d, current), pq') =>
       if current ∈ st.visited then dijkstraLoop s e fuel { st with pq := pq' }
       else
         if current = e then
           match reconstructLoop st.previous s (st.visited.length + 2) current [] with
           | .error err => .error err
           | .ok path =>
             match st.distances.lookup e with
             | none => .error (.keyError e)
             | some de => .ok ((path, de), st.adjm)
         else
           match st.distances.lookup current with
           | none => .error (.keyError current)
           | some dc =>
             if dc < (d : WithTop ℚ) then
               dijkstraLoop s e fuel
                 { st with pq := pq', visited := st.visited ++ [current] }
             else
               match relaxNeighbors current d (dget (touch st.adjm current) current)
                   st.distances st.previous pq' with
               | .error err => .error err
               | .ok (dist', prev', pq2) =>
                 dijkstraLoop s e fuel
                   ⟨dist', prev', pq2, st.visited ++ [current], touch st.adjm current⟩)
      from rfl, h]

theorem dijkstraLoop_pop_some {s e : String} {fuel : Nat} {st : DijState}
    {d : ℚ} {current : String} {pq' : List (ℚ × String)}
    (h : heappop st.pq = some ((d, current), pq')) :
    dijkstraLoop s e (fuel+1) st =
      (if current ∈ st.visited then dijkstraLoop s e fuel { st with pq := pq' }
       else
         if current = e then
           match reconstructLoop st.previous s (st.visited.length + 2) current [] with
           | .error err => .error err
           | .ok path =>
             match st.distances.lookup e with
             | none => .error (.keyError e)
             | some de => .ok ((path, de), st.adjm)
         else
           match st.distances.lookup current with
           | none => .error (.keyError current)
           | some dc =>
             if dc < (d : WithTop ℚ) then
               dijkstraLoop s e fuel
                 { st with pq := pq', visited := st.visited ++ [current] }
             else
               match relaxNeighbors current d (dget (touch st.adjm current) current)
                   st.distances st.previous pq' with
               | .error err => .error err
               | .ok (dist', prev', pq2) =>
                 dijkstraLoop s e fuel
                   ⟨dist', prev', pq2, st.visited ++ [current], touch st.adjm current⟩) := by
  rw [show dijkstraLoop s e (fuel+1) st =
    (match heappop st.pq with
     | none => .ok (([], 0), st.adjm)
     | some ((d, current), pq') =>
       if current ∈ st.visited then dijkstraLoop s e fuel { st with pq := pq' }
       else
         if current = e then
           match reconstructLoop st.previous s (st.visited.length + 2) current [] with
           | .error err => .error err
           | .ok path =>
             match st.distances.lookup e with
             | none => .error (.keyError e)
             | some de => .ok ((path, de), st.adjm)
         else
           match st.distances.lookup current with
           | none => .error (.keyError current)
           | some dc =>
             if dc < (d : WithTop ℚ) then
               dijkstraLoop s e fuel
                 { st with pq := pq', visited := st.visited ++ [current] }
             else
               match relaxNeighbors current d (dget (touch st.adjm current) current)
                   st.distances st.previous pq' with
               | .error err => .error err
               | .ok (dist', prev', pq2) =>
                 dijkstraLoop s e fuel
                   ⟨dist', prev', pq2, st.visited ++ [current], touch st.adjm current⟩)
      from rfl, h]

theorem dijkstraLoop_found {s e : String} {fuel : Nat} {st : DijState}
    {d : ℚ} {pq' : List (ℚ × String)}
    (hpop : heappop st.pq = some ((d, e), pq')) (hvc : e ∉ st.visited) :
    dijkstraLoop s e (fuel+1) st =
      (match reconstructLoop st.previous s (st.visited.length + 2) e [] with
       | .error err => .error err
       | .ok path =>
         match st.distances.lookup e with
         | none => .error (.keyError e)
         | some de => .ok ((path, de), st.adjm)) := by
  rw [dijkstraLoop_pop_some hpop, if_neg hvc, if_pos rfl]

theorem dijkstraLoop_fresh {s e : String} {fuel : Nat} {st : DijState}
    {d : ℚ} {current : String} {pq' : List (ℚ × String)}
    (hpop : heappop st.pq = some ((d, current), pq'))
    (hvc : current ∉ st.visited) (hce : current ≠ e)
    (hdc : st.distances.lookup current = some ((d : ℚ) : WithTop ℚ)) :
    dijkstraLoop s e (fuel+1) st =
      (match relaxNeighbors current d (dget (touch st.adjm current) current)
          st.distances st.previous pq' with
       | .error err => .error err
       | .ok (dist', prev', pq2) =>
         dijkstraLoop s e fuel
           ⟨dist', prev', pq2, st.visited ++ [current], touch st.adjm current⟩) := by
  rw [dijkstraLoop_pop_some hpop, if_neg hvc, if_neg hce, hdc]
  simp only [lt_self_iff_false, if_false]

/-- Partial correctness of the Dijkstra loop: an `ok` result with an empty
path means no walk joins `s` to `e`; a non-empty path is a least-weight
walk from `s` to `e` and the metric is its weight. -/
theorem dijkstraLoop_correct {g : RailwayGraph} {s e : String}
    (hnn : NonnegWeights g) (hse : s ≠ e) :
    ∀ (fuel : Nat) (st : DijState),
      DijInv g s e st.distances st.previous st.pq st.visited →
      (∀ k, dget st.adjm k = dget g.adjacency_list k) →
      ∀ {p : List String} {m : WithTop ℚ} {adjm2 : AdjMap},
      dijkstraLoop s e fuel st = .ok ((p, m), adjm2) →
      (p = [] → m = 0 ∧ ∀ pw (w : ℚ), WalkOn g pw w → pw.head? = some s →
        pw.getLast? = some e → False) ∧
      (p ≠ [] → ∃ q : ℚ, m = ((q : ℚ) : WithTop ℚ) ∧ WalkOn g p q ∧
        p.head? = some s ∧ p.getLast? = some e ∧ IsMinDist g s e q) := by
  intro fuel
  induction fuel with
  | zero =>
    intro st _ _ p m adjm2 hrun
    simp [dijkstraLoop] at hrun
  | succ fuel ih =>
    intro st inv hadj p m adjm2 hrun
    cases hpop : heappop st.pq with
    | none =>
      rw [dijkstraLoop_pop_none hpop] at hrun
      simp only [Except.ok.injEq, Prod.mk.injEq] at hrun
      obtain ⟨⟨hp, hm⟩, _⟩ := hrun
      constructor
      · intro _
        refine ⟨hm.symm, ?_⟩
        intro pw w hw hwh hwl
        have hlast : ∀ x, pw.getLast? = some x → x ∉ st.visited := by
          intro x hx
          rw [hwl] at hx
          cases hx
          exact inv.eNotV
        obtain ⟨y, dy, _, _, h3, _⟩ := dij_cover_start inv hnn pw w hw hwh hlast
        rw [heappop_none hpop] at h3
        simp at h3
      · intro hne
        exact absurd hp.symm hne
    | some x =>
      obtain ⟨⟨d, current⟩, pq'⟩ := x
      by_cases hvc : current ∈ st.visited
      · rw [dijkstraLoop_pop_some hpop, if_pos hvc] at hrun
        exact ih { st with pq := pq' } (dijInv_skip inv hpop hvc) hadj hrun
      · by_cases hce : current = e
        · rw [hce] at hpop hvc
          obtain ⟨hdv, hmine⟩ := dij_popmin inv hnn hpop hvc
          rw [dijkstraLoop_found hpop hvc] at hrun
          have hes : e ≠ s := fun h => hse h.symm
          obtain ⟨u, c, du, hprev, huvis, hedge, hdu, heq⟩ := inv.chainW e d hdv hes
          have hidxu := List.indexOf_lt_length.mpr huvis
          obtain ⟨pc, hrun2, hwalk, hh, hl⟩ := reconstructLoop_ok inv
            (st.visited.length + 1) (st.visited.length - 1) u du [e] huvis
            (by omega) (by omega) hdu
          have hstep : reconstructLoop st.previous s (st.visited.length + 2) e [] =
              reconstructLoop st.previous s (st.visited.length + 1) u ([] ++ [e]) :=
            reconstructLoop_step_some hprev
          simp only [List.nil_append] at hstep
          rw [hstep, hrun2, hdv] at hrun
          have hrun3 : (Except.ok (((([e] : List String) ++ pc ++ [s]).reverse,
              ((d : ℚ) : WithTop ℚ)), st.adjm) :
              Except PyErr ((List String × WithTop ℚ) × AdjMap)) =
              .ok ((p, m), adjm2) := hrun
          simp only [Except.ok.injEq, Prod.mk.injEq] at hrun3
          obtain ⟨⟨hp, hm⟩, _⟩ := hrun3
          have hsplit : (([e] : List String) ++ pc ++ [s]).reverse =
              ((pc ++ [s]).reverse) ++ [e] := by simp
          constructor
          · intro hpe
            rw [← hp, hsplit] at hpe
            simp at hpe
          · intro _
            refine ⟨d, hm.symm, ?_, ?_, ?_, hmine⟩
            · rw [← hp, hsplit, heq]
              exact walkOn_append_edge hwalk hl hedge
            · rw [← hp, hsplit, List.head?_append_of_ne_nil _ (by simp)]
              exact hh
            · rw [← hp, hsplit]
              exact List.getLast?_concat _
        · obtain ⟨hdv, hminc⟩ := dij_popmin inv hnn hpop hvc
          rw [dijkstraLoop_fresh hpop hvc hce hdv] at hrun
          cases hrel : relaxNeighbors current d (dget (touch st.adjm current) current)
              st.distances st.previous pq' with
          | error err =>
            rw [hrel] at hrun
            have hcon : (Except.error err :
                Except PyErr ((List String × WithTop ℚ) × AdjMap)) =
                .ok ((p, m), adjm2) := hrun
            simp at hcon
          | ok res =>
            obtain ⟨dist', prev', pq2⟩ := res
            rw [hrel] at hrun
            have hrun3 : dijkstraLoop s e fuel
                ⟨dist', prev', pq2, st.visited ++ [current], touch st.adjm current⟩ =
                .ok ((p, m), adjm2) := hrun
            have hlist : dget (touch st.adjm current) current =
                dget g.adjacency_list current := by
              rw [touch_dget]
              exact hadj current
            rw [hlist] at hrel
            exact ih _ (dijInv_step inv hnn hpop hvc hce hrel)
              (fun k => by rw [touch_dget]; exact hadj k) hrun3

theorem lookup_map_top (m : List (String × StationInfo)) (k : String) :
    (m.map (fun p => (p.1, (⊤ : WithTop ℚ)))).lookup k =
      (m.lookup k).map (fun _ => (⊤ : WithTop ℚ)) := by
  induction m with
  | nil => simp [List.lookup]
  | cons p rest ih =>
    cases p with
    | mk k0 v0 =>
      by_cases hk : k = k0
      · subst hk
        simp [List.lookup_cons]
      · simp only [List.map_cons, List.lookup_cons, beq_false_of_ne hk]
        exact ih

/-- The invariant holds at the start of the Dijkstra loop. -/
theorem dij_initial_inv (g : RailwayGraph) (s e : String) (hse : s ≠ e) :
    DijInv g s e (upsert (g.stations.map (fun p => (p.1, (⊤ : WithTop ℚ)))) s 0)
      [] [(0, s)] [] := by
  have hlook : ∀ k, (upsert (g.stations.map (fun p => (p.1, (⊤ : WithTop ℚ)))) s 0).lookup k
      = if k = s then some ((0 : ℚ) : WithTop ℚ)
        else (g.stations.lookup k).map (fun _ => (⊤ : WithTop ℚ)) := by
    intro k
    rw [upsert_lookup_cases, lookup_map_top]
    rfl
  refine ⟨by simp, ?_, ?_, by simp, by simp, ?_, ?_, ?_, ?_, by simp [List.lookup], ?_, ?_⟩
  · intro k
    rw [hlook k]
    by_cases hk : k = s
    · simp [hk]
    · simp only [if_neg hk]
      cases g.stations.lookup k <;> simp [hk]
  · rw [hlook s, if_pos rfl]
  · intro v _ q hq
    rw [hlook v] at hq
    by_cases hv : v = s
    · subst hv
      rw [if_pos rfl] at hq
      have h2 := Option.some.inj hq
      have : q = 0 := by exact_mod_cast h2.symm
      subst this
      simp
    · rw [if_neg hv] at hq
      cases g.stations.lookup v with
      | none => simp at hq
      | some _ => simp at hq
  · intro y hy
    rcases List.mem_singleton.mp hy with rfl
    refine ⟨((0 : ℚ) : WithTop ℚ), ?_, le_refl _⟩
    rw [hlook s, if_pos rfl]
  · intro y hy
    rcases List.mem_singleton.mp hy with rfl
    exact Or.inl rfl
  · intro v q hq
    rw [hlook v] at hq
    by_cases hv : v = s
    · rw [if_pos hv] at hq
      have h2 := Option.some.inj hq
      have hq0 : q = 0 := by exact_mod_cast h2.symm
      subst hq0
      exact ⟨[s], WalkOn.single s, rfl, by rw [hv]; simp⟩
    · rw [if_neg hv] at hq
      cases g.stations.lookup v with
      | none => simp at hq
      | some _ => simp at hq
  · intro v q hq hvs
    rw [hlook v, if_neg hvs] at hq
    cases g.stations.lookup v with
    | none => simp at hq
    | some _ => simp at hq
  · intro x u hxu
    simp [List.lookup] at hxu

/-- Top-level Dijkstra specification: guards, empty results, and non-empty
results with their optimality. -/
theorem dijkstra_run_spec {g : RailwayGraph} {s e : String}
    {p : List String} {m : WithTop ℚ} {g2 : RailwayGraph} (hnn : NonnegWeights g)
    (hrun : g.dijkstra_run s e = .ok ((p, m), g2)) :
    (p = [] → m = 0 ∧
      ((hasKey g.adjacency_list s = false ∨ hasKey g.stations e = false) ∨
        ∀ pw (w : ℚ), WalkOn g pw w → pw.head? = some s →
          pw.getLast? = some e → False)) ∧
    (p ≠ [] → ∃ q : ℚ, m = ((q : ℚ) : WithTop ℚ) ∧ WalkOn g p q ∧
      p.head? = some s ∧ p.getLast? = some e ∧ IsMinDist g s e q) := by
  unfold RailwayGraph.dijkstra_run at hrun
  by_cases hguard : hasKey g.adjacency_list s = false ∨ hasKey g.stations e = false
  · rw [if_pos hguard] at hrun
    simp only [Except.ok.injEq, Prod.mk.injEq] at hrun
    obtain ⟨⟨hp, hm⟩, _⟩ := hrun
    constructor
    · intro _
      exact ⟨hm.symm, Or.inl hguard⟩
    · intro hne
      exact absurd hp.symm hne
  · rw [if_neg hguard] at hrun
    by_cases hse : s = e
    · rw [if_pos hse] at hrun
      simp only [Except.ok.injEq, Prod.mk.injEq] at hrun
      obtain ⟨⟨hp, hm⟩, _⟩ := hrun
      constructor
      · intro hpe
        rw [← hp] at hpe
        simp at hpe
      · intro _
        refine ⟨0, hm.symm, ?_, ?_, ?_, ?_⟩
        · rw [← hp]
          exact WalkOn.single s
        · rw [← hp]
          rfl
        · rw [← hp, hse]
          rfl
        · exact ⟨⟨[s], WalkOn.single s, rfl, by rw [hse]; rfl⟩,
            fun pw w hw _ _ => walk_nonneg hnn hw⟩
    · rw [if_neg hse] at hrun
      have hrun2 : (match dijkstraLoop s e (dijkstraFuel g s)
            ⟨upsert (g.stations.map (fun p => (p.1, (⊤ : WithTop ℚ)))) s 0, [],
              [(0, s)], [], g.adjacency_list⟩ with
          | .ok (r, adjm) => .ok (r, { g with adjacency_list := adjm })
          | .error err => .error err) = Except.ok ((p, m), g2) := hrun
      cases hloop : dijkstraLoop s e (dijkstraFuel g s)
          ⟨upsert (g.stations.map (fun p => (p.1, (⊤ : WithTop ℚ)))) s 0, [],
            [(0, s)], [], g.adjacency_list⟩ with
      | error err => rw [hloop] at hrun2; simp at hrun2
      | ok res =>
        obtain ⟨⟨p', m'⟩, adjm'⟩ := res
        rw [hloop] at hrun2
        simp only [Except.ok.injEq, Prod.mk.injEq] at hrun2
        obtain ⟨⟨hp, hm⟩, _⟩ := hrun2
        subst hp
        subst hm
        have hres := dijkstraLoop_correct hnn hse (dijkstraFuel g s) _
          (dij_initial_inv g s e hse) (fun k => rfl) hloop
        exact ⟨fun hpe => ⟨(hres.1 hpe).1, Or.inr (hres.1 hpe).2⟩, hres.2⟩

/-! ### Dijkstra totality -/

/-- Fuel measure of the Dijkstra loop: pending queue entries plus the
adjacency degrees of the candidate nodes not yet visited. -/
def dijPhi (g : RailwayGraph) (s : String) (st : DijState) : Nat :=
  st.pq.length +
    ((((s :: targetsOf g.adjacency_list).dedup).filter
        (fun v => decide (v ∉ st.visited))).map
      (fun v => (dget g.adjacency_list v).length)).sum

theorem filter_visit_sum (f : String → Nat) :
    ∀ (l visited : List String) (c : String), l.Nodup →
      c ∈ l → c ∉ visited →
      ((l.filter (fun v => decide (v ∉ visited ++ [c]))).map f).sum + f c =
        ((l.filter (fun v => decide (v ∉ visited))).map f).sum := by
  intro l
  induction l with
  | nil =>
    intro visited c _ hc _
    simp at hc
  | cons x rest ih =>
    intro visited c hnd hc hcv
    have hndr : rest.Nodup := (List.nodup_cons.mp hnd).2
    by_cases hxc : x = c
    · subst hxc
      have hxr : x ∉ rest := (List.nodup_cons.mp hnd).1
      rw [List.filter_cons_of_neg (by simp),
          List.filter_cons_of_pos (by simpa using hcv)]
      have hcong : rest.filter (fun v => decide (v ∉ visited ++ [x])) =
          rest.filter (fun v => decide (v ∉ visited)) := by
        apply List.filter_congr
        intro v hv
        have hvx : v ≠ x := fun h => hxr (h ▸ hv)
        apply decide_eq_decide.mpr
        apply not_congr
        simp only [List.mem_append, List.mem_singleton]
        exact or_iff_left hvx
      rw [hcong]
      simp only [List.map_cons, List.sum_cons]
      omega
    · have hcr : c ∈ rest := by
        rcases List.mem_cons.mp hc with h | h
        · exact absurd h.symm hxc
        · exact h
      have hiff : (x ∈ visited ++ [c]) ↔ x ∈ visited := by
        simp only [List.mem_append, List.mem_singleton]
        exact or_iff_left hxc
      have hpred : (decide (x ∉ visited ++ [c])) = (decide (x ∉ visited)) :=
        decide_eq_decide.mpr (not_congr hiff)
      cases hx : decide (x ∉ visited) with
      | false =>
        rw [List.filter_cons_of_neg (by rw [hpred, hx]; exact Bool.false_ne_true),
            List.filter_cons_of_neg (by rw [hx]; exact Bool.false_ne_true)]
        exact ih visited c hndr hcr hcv
      | true =>
        rw [List.filter_cons_of_pos (by rw [hpred, hx]),
            List.filter_cons_of_pos (by rw [hx])]
        simp only [List.map_cons, List.sum_cons]
        have := ih visited c hndr hcr hcv
        omega

/-- When every neighbor has a distance entry, the relaxation loop cannot
fail, and it pushes at most one queue entry per neighbor. -/
theorem relaxNeighbors_total (current : String) (d : ℚ) :
    ∀ (ns : List (String × ℚ)) (dist : List (String × WithTop ℚ))
      (prev : List (String × String)) (pq : List (ℚ × String)),
      (∀ nw ∈ ns, (dist.lookup nw.1).isSome = true) →
      ∃ dist2 prev2 pq2,
        relaxNeighbors current d ns dist prev pq = .ok (dist2, prev2, pq2) ∧
        pq2.length ≤ pq.length + ns.length := by
  intro ns
  induction ns with
  | nil =>
    intro dist prev pq _
    exact ⟨dist, prev, pq, rfl, Nat.le_refl _⟩
  | cons nw rest ih =>
    intro dist prev pq hks
    obtain ⟨n, w⟩ := nw
    cases hdn : dist.lookup n with
    | none =>
      have h1 := hks (n, w) (List.mem_cons_self _ _)
      rw [hdn] at h1
      simp at h1
    | some dn =>
      rw [relaxNeighbors_cons_some hdn]
      by_cases hlt : ((d + w : ℚ) : WithTop ℚ) < dn
      · rw [if_pos hlt]
        have hks' : ∀ mw ∈ rest,
            ((upsert dist n ((d + w : ℚ) : WithTop ℚ)).lookup mw.1).isSome = true := by
          intro mw hm
          rw [upsert_lookup_cases]
          by_cases hm1 : mw.1 = n
          · rw [if_pos hm1]
            rfl
          · rw [if_neg hm1]
            exact hks mw (List.mem_cons_of_mem _ hm)
        obtain ⟨d2, p2, q2, hok, hlen⟩ := ih _ _ _ hks'
        refine ⟨d2, p2, q2, hok, ?_⟩
        simp only [List.length_append, List.length_singleton] at hlen
        simp only [List.length_cons]
        omega
      · rw [if_neg hlt]
        obtain ⟨d2, p2, q2, hok, hlen⟩ :=
          ih _ _ _ (fun mw hm => hks mw (List.mem_cons_of_mem _ hm))
        refine ⟨d2, p2, q2, hok, ?_⟩
        simp only [List.length_cons]
        omega

/-- With well-formed targets and enough fuel, the Dijkstra loop always
returns a value. -/
theorem dijkstraLoop_total {g : RailwayGraph} {s e : String}
    (hnn : NonnegWeights g) (hwf : WellFormedTargets g) (hse : s ≠ e) :
    ∀ (fuel : Nat) (st : DijState),
      DijInv g s e st.distances st.previous st.pq st.visited →
      (∀ k, dget st.adjm k = dget g.adjacency_list k) →
      dijPhi g s st < fuel →
      ∃ r, dijkstraLoop s e fuel st = .ok r := by
  intro fuel
  induction fuel with
  | zero =>
    intro st _ _ hphi
    omega
  | succ fuel ih =>
    intro st inv hadj hphi
    cases hpop : heappop st.pq with
    | none => exact ⟨_, dijkstraLoop_pop_none hpop⟩
    | some x =>
      obtain ⟨⟨d, current⟩, pq'⟩ := x
      obtain ⟨hmem, hrest, _⟩ := heappop_spec hpop
      have hpq'len : pq'.length + 1 = st.pq.length := by
        rw [hrest, List.length_erase_of_mem hmem]
        have hne : st.pq.length ≠ 0 := by
          intro h0
          rw [List.length_eq_zero] at h0
          rw [h0] at hmem
          simp at hmem
        omega
      by_cases hvc : current ∈ st.visited
      · rw [dijkstraLoop_pop_some hpop, if_pos hvc]
        apply ih { st with pq := pq' } (dijInv_skip inv hpop hvc) hadj
        have h1 : dijPhi g s { st with pq := pq' } + 1 = dijPhi g s st := by
          unfold dijPhi
          simp only
          omega
        omega
      · by_cases hce : current = e
        · rw [hce] at hpop hvc
          obtain ⟨hdv, _⟩ := dij_popmin inv hnn hpop hvc
          have hes : e ≠ s := fun h => hse h.symm
          obtain ⟨u, c, du, hprev, huvis, hedge, hdu, heq⟩ := inv.chainW e d hdv hes
          have hidxu := List.indexOf_lt_length.mpr huvis
          obtain ⟨pc, hrun2, _, _, _⟩ := reconstructLoop_ok inv
            (st.visited.length + 1) (st.visited.length - 1) u du [e] huvis
            (by omega) (by omega) hdu
          have hstep : reconstructLoop st.previous s (st.visited.length + 2) e [] =
              reconstructLoop st.previous s (st.visited.length + 1) u ([] ++ [e]) :=
            reconstructLoop_step_some hprev
          simp only [List.nil_append] at hstep
          rw [dijkstraLoop_found hpop hvc, hstep, hrun2, hdv]
          exact ⟨_, rfl⟩
        · obtain ⟨hdv, _⟩ := dij_popmin inv hnn hpop hvc
          rw [dijkstraLoop_fresh hpop hvc hce hdv]
          have hlist : dget (touch st.adjm current) current =
              dget g.adjacency_list current := by
            rw [touch_dget]
            exact hadj current
          have hks : ∀ nw ∈ dget g.adjacency_list current,
              (st.distances.lookup nw.1).isSome = true := by
            intro nw hm
            have hst : hasKey g.stations nw.1 = true := by
              obtain ⟨nv, nc⟩ := nw
              exact wellformed_of_edge hwf hm
            have hsome : (g.stations.lookup nw.1).isSome := hst
            exact (inv.dkeys nw.1).mpr (Or.inl hsome)
          obtain ⟨dist2, prev2, pq2, hok, hlen⟩ :=
            relaxNeighbors_total current d (dget g.adjacency_list current)
              st.distances st.previous pq' hks
          rw [hlist, hok]
          apply ih _ (dijInv_step inv hnn hpop hvc hce hok)
            (fun k => by rw [touch_dget]; exact hadj k)
          have hccand : current ∈ (s :: targetsOf g.adjacency_list).dedup := by
            rw [List.mem_dedup]
            rcases inv.pqCand (d, current) hmem with h | h
            · have h2 : current = s := h
              rw [h2]
              exact List.mem_cons_self _ _
            · exact List.mem_cons_of_mem _ h
          have hsum0 := filter_visit_sum (fun v => (dget g.adjacency_list v).length)
            ((s :: targetsOf g.adjacency_list).dedup) st.visited current
            (List.nodup_dedup _) hccand hvc
          have hsum : ((((s :: targetsOf g.adjacency_list).dedup).filter
              (fun v => decide (v ∉ st.visited ++ [current]))).map
                (fun v => (dget g.adjacency_list v).length)).sum +
              (dget g.adjacency_list current).length =
              ((((s :: targetsOf g.adjacency_list).dedup).filter
                (fun v => decide (v ∉ st.visited))).map
                (fun v => (dget g.adjacency_list v).length)).sum := hsum0
          have h1 : dijPhi g s ⟨dist2, prev2, pq2, st.visited ++ [current],
              touch st.adjm current⟩ = pq2.length +
              ((((s :: targetsOf g.adjacency_list).dedup).filter
                (fun v => decide (v ∉ st.visited ++ [current]))).map
                (fun v => (dget g.adjacency_list v).length)).sum := rfl
          have h2 : dijPhi g s st = st.pq.length +
              ((((s :: targetsOf g.adjacency_list).dedup).filter
                (fun v => decide (v ∉ st.visited))).map
                (fun v => (dget g.adjacency_list v).length)).sum := rfl
          rw [h1]
          rw [h2] at hphi
          omega

/-- Under non-negative weights and well-formed edge targets, `dijkstra_run`
always returns a value. -/
theorem dijkstra_run_total (g : RailwayGraph) (s e : String)
    (hnn : NonnegWeights g) (hwf : WellFormedTargets g) :
    ∃ r, g.dijkstra_run s e = .ok r := by
  unfold RailwayGraph.dijkstra_run
  by_cases hguard : hasKey g.adjacency_list s = false ∨ hasKey g.stations e = false
  · rw [if_pos hguard]
    exact ⟨_, rfl⟩
  · rw [if_neg hguard]
    by_cases hse : s = e
    · rw [if_pos hse]
      exact ⟨_, rfl⟩
    · rw [if_neg hse]
      have hphi0 : dijPhi g s
          ⟨upsert (g.stations.map (fun p => (p.1, (⊤ : WithTop ℚ)))) s 0,
            [], [(0, s)], [], g.adjacency_list⟩ < dijkstraFuel g s := by
        have hT : ∀ v ∈ (s :: targetsOf g.adjacency_list).dedup,
            (dget g.adjacency_list v).length ≤ totalAdjSize g.adjacency_list := by
          intro v _
          unfold dget totalAdjSize
          cases hl : g.adjacency_list.lookup v with
          | none => simp
          | some l =>
            simp only [Option.getD_some]
            exact List.le_sum_of_mem (List.mem_map.mpr ⟨(v, l), lookup_mem hl, rfl⟩)
        have hsum : (((s :: targetsOf g.adjacency_list).dedup).map
            (fun v => (dget g.adjacency_list v).length)).sum ≤
            ((s :: targetsOf g.adjacency_list).dedup).length *
              totalAdjSize g.adjacency_list := by
          have hle := List.sum_le_card_nsmul
            (((s :: targetsOf g.adjacency_list).dedup).map
              (fun v => (dget g.adjacency_list v).length))
            (totalAdjSize g.adjacency_list)
            (by
              intro x hx
              obtain ⟨v, hv, rfl⟩ := List.mem_map.mp hx
              exact hT v hv)
          simpa [List.length_map, smul_eq_mul] using hle
        have hfil : ((s :: targetsOf g.adjacency_list).dedup).filter
            (fun v => decide (v ∉ ([] : List String))) =
            (s :: targetsOf g.adjacency_list).dedup := by
          apply List.filter_eq_self.mpr
          intro a _
          simp
        have hphi1 : dijPhi g s
            ⟨upsert (g.stations.map (fun p => (p.1, (⊤ : WithTop ℚ)))) s 0,
              [], [(0, s)], [], g.adjacency_list⟩ =
            1 + (((s :: targetsOf g.adjacency_list).dedup).map
              (fun v => (dget g.adjacency_list v).length)).sum := by
          unfold dijPhi
          simp only [List.length_singleton]
          rw [hfil]
        rw [hphi1]
        unfold dijkstraFuel
        have hmul : (totalAdjSize g.adjacency_list + 1) *
            ((s :: targetsOf g.adjacency_list).dedup).length =
            ((s :: targetsOf g.adjacency_list).dedup).length *
              totalAdjSize g.adjacency_list +
              ((s :: targetsOf g.adjacency_list).dedup).length := by ring
        omega
      obtain ⟨r, hr⟩ := dijkstraLoop_total hnn hwf hse (dijkstraFuel g s)
        ⟨upsert (g.stations.map (fun p => (p.1, (⊤ : WithTop ℚ)))) s 0, [],
          [(0, s)], [], g.adjacency_list⟩ (dij_initial_inv g s e hse)
        (fun k => rfl) hphi0
      obtain ⟨r1, adjm⟩ := r
      show ∃ r2, (match dijkstraLoop s e (dijkstraFuel g s)
          ⟨upsert (g.stations.map (fun p => (p.1, (⊤ : WithTop ℚ)))) s 0, [],
            [(0, s)], [], g.adjacency_list⟩ with
        | .ok (r, adjm) => .ok (r, { g with adjacency_list := adjm })
        | .error err => .error err) = Except.ok r2
      rw [hr]
      exact ⟨_, rfl⟩

/-! ### A* correctness and totality -/

/-- A walk whose every vertex `u` has a recorded score at most the walk
weight accumulated up to `u` (`acc` is the weight spent before the head). -/
inductive MWalk (g : RailwayGraph) (gs : List (String × WithTop ℚ)) :
    ℚ → List String → ℚ → Prop where
  | single (acc : ℚ) (u : String) (d : WithTop ℚ) :
      gs.lookup u = some d → d ≤ ((acc : ℚ) : WithTop ℚ) → MWalk g gs acc [u] 0
  | cons {acc : ℚ} {u v : String} {rest : List String} {c w : ℚ} {d : WithTop ℚ} :
      gs.lookup u = some d → d ≤ ((acc : ℚ) : WithTop ℚ) →
      (v, c) ∈ dget g.adjacency_list u →
      MWalk g gs (acc + c) (v :: rest) w →
      MWalk g gs acc (u :: v :: rest) (c + w)

theorem mwalk_walkOn {g : RailwayGraph} {gs : List (String × WithTop ℚ)}
    {acc : ℚ} {p : List String} {w : ℚ} (h : MWalk g gs acc p w) : WalkOn g p w := by
  induction h with
  | single _ u _ _ _ => exact WalkOn.single u
  | cons _ _ he _ ih => exact WalkOn.cons he ih

theorem mwalk_mono {g : RailwayGraph} {gs gs' : List (String × WithTop ℚ)}
    (hdec : ∀ u d, gs.lookup u = some d →
      ∃ d', gs'.lookup u = some d' ∧ d' ≤ d) :
    ∀ {acc : ℚ} {p : List String} {w : ℚ},
      MWalk g gs acc p w → MWalk g gs' acc p w := by
  intro acc p w h
  induction h with
  | single acc u d hd hle =>
    obtain ⟨d', hd', hle'⟩ := hdec u d hd
    exact MWalk.single acc u d' hd' (le_trans hle' hle)
  | cons hd hle he _ ih =>
    obtain ⟨d', hd', hle'⟩ := hdec _ _ hd
    exact MWalk.cons hd' (le_trans hle' hle) he ih

theorem mwalk_mem {g : RailwayGraph} (hnn : NonnegWeights g)
    {gs : List (String × WithTop ℚ)} :
    ∀ {acc : ℚ} {p : List String} {w : ℚ}, MWalk g gs acc p w →
      ∀ x ∈ p, ∃ d, gs.lookup x = some d ∧ d ≤ ((acc + w : ℚ) : WithTop ℚ) := by
  intro acc p w h
  induction h with
  | single acc u d hd hle =>
    intro x hx
    rcases List.mem_singleton.mp hx with rfl
    exact ⟨d, hd, by simpa using hle⟩
  | cons hd hle he htail ih =>
    rename_i acc u v rest c w' d
    intro x hx
    have hw' : 0 ≤ w' := walk_nonneg hnn (mwalk_walkOn htail)
    have hc : 0 ≤ c := nonneg_of_edge hnn he
    rcases List.mem_cons.mp hx with rfl | hx
    · refine ⟨d, hd, le_trans hle ?_⟩
      exact_mod_cast by linarith
    · obtain ⟨d0, hd0, hle0⟩ := ih x hx
      refine ⟨d0, hd0, le_trans hle0 ?_⟩
      exact_mod_cast by linarith

theorem mwalk_snoc {g : RailwayGraph} {gs : List (String × WithTop ℚ)}
    {x : String} {dx : WithTop ℚ} (hx : gs.lookup x = some dx) :
    ∀ {acc : ℚ} {p : List String} {w : ℚ} {u : String} {c : ℚ},
      MWalk g gs acc p w → p.getLast? = some u → (x, c) ∈ dget g.adjacency_list u →
      dx ≤ ((acc + w + c : ℚ) : WithTop ℚ) → MWalk g gs acc (p ++ [x]) (w + c) := by
  intro acc p w u c h
  induction h with
  | single acc u' d hd hle =>
    intro hlast he hdxle
    have hu : u = u' := by
      simp only [List.getLast?_singleton, Option.some.injEq] at hlast
      exact hlast.symm
    subst hu
    have h2 : MWalk g gs acc ([u] ++ [x]) (c + 0) := by
      refine MWalk.cons hd hle he (MWalk.single (acc + c) x dx hx ?_)
      refine le_trans hdxle ?_
      exact_mod_cast by linarith
    simpa [zero_add, add_comm] using h2
  | cons hd hle he htail ih =>
    rename_i acc u0 v0 rest c0 w0 d
    intro hlast he2 hdxle
    have hlast2 : (v0 :: rest).getLast? = some u := by
      rw [← hlast]
      exact List.getLast?_cons_cons.symm
    have htail2 : MWalk g gs (acc + c0) ((v0 :: rest) ++ [x]) (w0 + c) := by
      apply ih hlast2 he2
      refine le_trans hdxle ?_
      exact_mod_cast by linarith
    have h3 : MWalk g gs acc ((u0 :: v0 :: rest) ++ [x]) (c0 + (w0 + c)) :=
      MWalk.cons hd hle he htail2
    have harith : c0 + (w0 + c) = c0 + w0 + c := by ring
    rw [harith] at h3
    exact h3

/-- A chain of predecessor-map steps: consecutive elements are linked by
lookups. -/
def isChain (cf : List (String × String)) : List String → Prop
  | [] => True
  | [_] => True
  | a :: b :: rest => cf.lookup a = some b ∧ isChain cf (b :: rest)

theorem isChain_append_left {cf : List (String × String)} :
    ∀ {l₁ l₂ : List String}, isChain cf (l₁ ++ l₂) → isChain cf l₁ := by
  intro l₁
  induction l₁ with
  | nil => intro l₂ _; trivial
  | cons a rest ih =>
    intro l₂ h
    cases rest with
    | nil => trivial
    | cons b rest' =>
      obtain ⟨hab, htail⟩ := h
      exact ⟨hab, ih htail⟩

theorem isChain_suffix {cf : List (String × String)} :
    ∀ {l₁ l₂ : List String}, isChain cf (l₁ ++ l₂) → isChain cf l₂ := by
  intro l₁
  induction l₁ with
  | nil => intro l₂ h; exact h
  | cons a rest ih =>
    intro l₂ h
    cases rest with
    | nil =>
      cases l₂ with
      | nil => trivial
      | cons b l₂' => exact h.2
    | cons b rest' => exact ih h.2

/-- The value inequality of `cfChain` composes along chains. -/
theorem chain_g_mono {g : RailwayGraph} {gs : List (String × WithTop ℚ)}
    {cf : List (String × String)} (hnn : NonnegWeights g)
    (hcf : ∀ v u, cf.lookup v = some u → ∃ (qv qu c : ℚ),
      gs.lookup v = some ((qv : ℚ) : WithTop ℚ) ∧
      gs.lookup u = some ((qu : ℚ) : WithTop ℚ) ∧
      (v, c) ∈ dget g.adjacency_list u ∧ qu + c ≤ qv) :
    ∀ (l : List String) (a b : String), isChain cf (a :: l) →
      (a :: l).getLast? = some b →
      ∀ (qa qb : ℚ), gs.lookup a = some ((qa : ℚ) : WithTop ℚ) →
        gs.lookup b = some ((qb : ℚ) : WithTop ℚ) → qb ≤ qa := by
  intro l
  induction l with
  | nil =>
    intro a b _ hlast qa qb ha hb
    simp only [List.getLast?_singleton, Option.some.injEq] at hlast
    subst hlast
    rw [ha] at hb
    have : qb = qa := by exact_mod_cast Option.some.inj hb.symm
    linarith
  | cons x rest ih =>
    intro a b hchain hlast qa qb ha hb
    obtain ⟨hax, htail⟩ := hchain
    obtain ⟨qv, qu, c, hqv, hqu, hedge, hle⟩ := hcf a x hax
    have hqva : qv = qa := by
      rw [ha] at hqv
      exact_mod_cast (Option.some.inj hqv).symm
    have hc : 0 ≤ c := nonneg_of_edge hnn hedge
    have hlast2 : (x :: rest).getLast? = some b := by
      rw [← hlast]
      exact List.getLast?_cons_cons.symm
    have := ih x b htail hlast2 qu qb hqu hb
    linarith

/-! Enumeration of simple walks: completeness of `simpleWeightsTo`. -/

theorem simpleSeqsFrom_complete {g : RailwayGraph} :
    ∀ (rest : List String) (fuel : Nat) (u : String) (avoid : List String)
      (w : ℚ), WalkOn g (u :: rest) w → (u :: rest).Nodup →
      (∀ x ∈ avoid, x ∉ rest) → rest.length ≤ fuel →
      (u :: rest) ∈ simpleSeqsFrom g.adjacency_list fuel u avoid := by
  intro rest
  induction rest with
  | nil =>
    intro fuel u avoid w _ _ _ _
    cases fuel with
    | zero => exact List.mem_singleton.mpr rfl
    | succ fuel => exact List.mem_cons_self _ _
  | cons v rest' ih =>
    intro fuel u avoid w hw hnd havoid hlen
    cases fuel with
    | zero => simp at hlen
    | succ fuel =>
      cases hw with
      | cons he htail =>
        rename_i c w'
        refine List.mem_cons_of_mem _ ?_
        rw [List.mem_flatMap]
        refine ⟨(v, c), he, ?_⟩
        have hvav : v ∉ avoid := fun hv => havoid v hv (List.mem_cons_self _ _)
        rw [if_neg (by simpa using hvav)]
        rw [List.mem_map]
        refine ⟨v :: rest', ?_, rfl⟩
        apply ih fuel v (v :: avoid) w' htail ((List.nodup_cons.mp hnd).2)
        · intro x hx
          rcases List.mem_cons.mp hx with rfl | hx
          · exact ((List.nodup_cons.mp ((List.nodup_cons.mp hnd).2)).1)
          · intro hxr
            exact havoid x hx (List.mem_cons_of_mem _ hxr)
        · simpa using Nat.le_of_succ_le_succ (by simpa using hlen)

theorem seqWeights_complete {g : RailwayGraph} :
    ∀ {p : List String} {w : ℚ}, WalkOn g p w → w ∈ seqWeights g.adjacency_list p := by
  intro p w h
  induction h with
  | single u => simp [seqWeights]
  | cons he htail ih =>
    rename_i u v rest c w'
    show _ ∈ seqWeights g.adjacency_list (u :: v :: rest)
    rw [show seqWeights g.adjacency_list (u :: v :: rest) =
      ((dget g.adjacency_list u).filter (fun e => e.1 == v)).flatMap
        (fun e => (seqWeights g.adjacency_list (v :: rest)).map
          (fun w => e.2 + w)) from rfl]
    rw [List.mem_flatMap]
    refine ⟨(v, c), ?_, ?_⟩
    · rw [List.mem_filter]
      exact ⟨he, by simp⟩
    · rw [List.mem_map]
      exact ⟨w', ih, rfl⟩

theorem mem_targetsOf_of_edge {g : RailwayGraph} {u v : String} {c : ℚ}
    (h : (v, c) ∈ dget g.adjacency_list u) : v ∈ targetsOf g.adjacency_list := by
  obtain ⟨l, hl, hm⟩ := mem_dget_mem_adj h
  unfold targetsOf
  rw [List.mem_flatten]
  refine ⟨l.map Prod.fst, ?_, ?_⟩
  · rw [List.mem_map]
    exact ⟨(u, l), hl, rfl⟩
  · rw [List.mem_map]
    exact ⟨(v, c), hm, rfl⟩

theorem walk_tail_targets {g : RailwayGraph} :
    ∀ {p : List String} {w : ℚ}, WalkOn g p w →
      ∀ x ∈ p.tail, x ∈ targetsOf g.adjacency_list := by
  intro p w h
  induction h with
  | single u => intro x hx; simp at hx
  | cons he htail ih =>
    rename_i u v rest c w'
    intro x hx
    simp only [List.tail_cons] at hx
    rcases List.mem_cons.mp hx with rfl | hx2
    · exact mem_targetsOf_of_edge he
    · exact ih x (by simpa using hx2)

/-- Every duplicate-free walk weight from `s` to `v` occurs in the
enumerated list of simple-walk weights. -/
theorem simpleWeightsTo_complete {g : RailwayGraph} {s v : String}
    {p : List String} {w : ℚ} (hw : WalkOn g p w) (hnd : p.Nodup)
    (hh : p.head? = some s) (hl : p.getLast? = some v) :
    w ∈ simpleWeightsTo g.adjacency_list s v := by
  cases p with
  | nil => simp at hh
  | cons u rest =>
    have hus : u = s := by
      simp only [List.head?_cons, Option.some.injEq] at hh
      exact hh
    subst hus
    unfold simpleWeightsTo
    rw [List.mem_dedup, List.mem_flatMap]
    refine ⟨u :: rest, ?_, seqWeights_complete hw⟩
    rw [List.mem_filter]
    constructor
    · apply simpleSeqsFrom_complete rest _ u [u] w hw hnd
      · intro x hx
        rcases List.mem_singleton.mp hx with rfl
        exact (List.nodup_cons.mp hnd).1
      · have h1 : ∀ x ∈ rest, x ∈ targetsOf g.adjacency_list := by
          intro x hx
          exact walk_tail_targets hw x (by simpa using hx)
        have h2 : rest.length ≤ (targetsOf g.adjacency_list).dedup.length := by
          have hsub : ∀ x ∈ rest, x ∈ (targetsOf g.adjacency_list).dedup := by
            intro x hx
            rw [List.mem_dedup]
            exact h1 x hx
          have hndr : rest.Nodup := (List.nodup_cons.mp hnd).2
          calc rest.length = rest.toFinset.card :=
                (List.toFinset_card_of_nodup hndr).symm
            _ ≤ (targetsOf g.adjacency_list).dedup.toFinset.card := by
                apply Finset.card_le_card
                intro x hx
                rw [List.mem_toFinset] at hx ⊢
                exact hsub x hx
            _ ≤ (targetsOf g.adjacency_list).dedup.length :=
                List.toFinset_card_le _
        omega
    · simp [hl]

/-! Counting lemmas for the A* fuel measure. -/

theorem filter_length_mono {α : Type} {p q : α → Bool} :
    ∀ (l : List α), (∀ a ∈ l, p a = true → q a = true) →
      (l.filter p).length ≤ (l.filter q).length := by
  intro l
  induction l with
  | nil => intro _; simp
  | cons a t ih =>
    intro h
    have ht := ih (fun x hx => h x (List.mem_cons_of_mem _ hx))
    cases hpa : p a with
    | false =>
      rw [List.filter_cons_of_neg (by rw [hpa]; exact Bool.false_ne_true)]
      cases hqa : q a with
      | false =>
        rw [List.filter_cons_of_neg (by rw [hqa]; exact Bool.false_ne_true)]
        exact ht
      | true =>
        rw [List.filter_cons_of_pos (by rw [hqa])]
        simp only [List.length_cons]
        omega
    | true =>
      rw [List.filter_cons_of_pos (by rw [hpa]),
          List.filter_cons_of_pos (by rw [h a (List.mem_cons_self _ _) hpa])]
      simp only [List.length_cons]
      omega

theorem filter_length_drop {α : Type} {p q : α → Bool} :
    ∀ (l : List α), (∀ a ∈ l, p a = true → q a = true) →
      ∀ x ∈ l, p x = false → q x = true →
      (l.filter p).length + 1 ≤ (l.filter q).length := by
  intro l
  induction l with
  | nil => intro _ x hx; simp at hx
  | cons a t ih =>
    intro h x hx hpx hqx
    rcases List.mem_cons.mp hx with rfl | hxt
    · rw [List.filter_cons_of_neg (by rw [hpx]; exact Bool.false_ne_true),
          List.filter_cons_of_pos (by rw [hqx])]
      simp only [List.length_cons]
      have := filter_length_mono t (fun y hy => h y (List.mem_cons_of_mem _ hy))
      omega
    · have ht := ih (fun y hy => h y (List.mem_cons_of_mem _ hy)) x hxt hpx hqx
      cases hpa : p a with
      | false =>
        rw [List.filter_cons_of_neg (by rw [hpa]; exact Bool.false_ne_true)]
        cases hqa : q a with
        | false =>
          rw [List.filter_cons_of_neg (by rw [hqa]; exact Bool.false_ne_true)]
          exact ht
        | true =>
          rw [List.filter_cons_of_pos (by rw [hqa])]
          simp only [List.length_cons]
          omega
      | true =>
        rw [List.filter_cons_of_pos (by rw [hpa]),
            List.filter_cons_of_pos (by rw [h a (List.mem_cons_self _ _) hpa])]
        simp only [List.length_cons]
        omega

theorem map_sum_congr_mem {l : List String} (f f' : String → Nat)
    (h : ∀ x ∈ l, f' x = f x) : (l.map f').sum = (l.map f).sum := by
  rw [List.map_congr_left h]

theorem map_sum_update {l : List String} (hnd : l.Nodup) {v : String}
    (hv : v ∈ l) (f f' : String → Nat) (hoff : ∀ x ∈ l, x ≠ v → f' x = f x)
    (hdrop : f' v + 1 ≤ f v) : (l.map f').sum + 1 ≤ (l.map f).sum := by
  have hperm : l.Perm (v :: l.erase v) := List.perm_cons_erase hv
  have h1 : (l.map f).sum = f v + ((l.erase v).map f).sum := by
    rw [(hperm.map f).sum_eq]
    simp
  have h2 : (l.map f').sum = f' v + ((l.erase v).map f').sum := by
    rw [(hperm.map f').sum_eq]
    simp
  have h3 : ((l.erase v).map f').sum = ((l.erase v).map f).sum := by
    apply map_sum_congr_mem
    intro x hx
    have hx2 := (hnd.mem_erase_iff).mp hx
    exact hoff x hx2.2 hx2.1
  omega

theorem argminF_spec {fs : List (String × WithTop ℚ)} :
    ∀ (xs : List String) (best : String) (bestF : WithTop ℚ) (cur : String),
      fs.lookup best = some bestF →
      argminFAux fs best bestF xs = .ok cur →
      (cur = best ∨ cur ∈ xs) ∧ ∃ fc, fs.lookup cur = some fc ∧ fc ≤ bestF ∧
        ∀ x ∈ xs, ∀ fx, fs.lookup x = some fx → fc ≤ fx := by
  intro xs
  induction xs with
  | nil =>
    intro best bestF cur hbest hrun
    simp only [argminFAux, Except.ok.injEq] at hrun
    subst hrun
    exact ⟨Or.inl rfl, bestF, hbest, le_refl _, by simp⟩
  | cons x xs ih =>
    intro best bestF cur hbest hrun
    rw [show argminFAux fs best bestF (x :: xs) =
      (match fs.lookup x with
       | none => .error (.keyError x)
       | some fx => if fx < bestF then argminFAux fs x fx xs
         else argminFAux fs best bestF xs) from rfl] at hrun
    cases hfx : fs.lookup x with
    | none =>
      rw [hfx] at hrun
      simp at hrun
    | some fx =>
      rw [hfx] at hrun
      have hrun2 : (if fx < bestF then argminFAux fs x fx xs
          else argminFAux fs best bestF xs) = Except.ok cur := hrun
      by_cases hlt : fx < bestF
      · rw [if_pos hlt] at hrun2
        obtain ⟨hmem, fc, hfc, hfcle, hmin⟩ := ih x fx cur hfx hrun2
        refine ⟨?_, fc, hfc, le_trans hfcle (le_of_lt hlt), ?_⟩
        · rcases hmem with rfl | hm
          · exact Or.inr (List.mem_cons_self _ _)
          · exact Or.inr (List.mem_cons_of_mem _ hm)
        · intro y hy fy hfy
          rcases List.mem_cons.mp hy with rfl | hy2
          · rw [hfx] at hfy
            cases Option.some.inj hfy
            exact hfcle
          · exact hmin y hy2 fy hfy
      · rw [if_neg hlt] at hrun2
        obtain ⟨hmem, fc, hfc, hfcle, hmin⟩ := ih best bestF cur hbest hrun2
        refine ⟨?_, fc, hfc, hfcle, ?_⟩
        · rcases hmem with rfl | hm
          · exact Or.inl rfl
          · exact Or.inr (List.mem_cons_of_mem _ hm)
        · intro y hy fy hfy
          rcases List.mem_cons.mp hy with rfl | hy2
          · rw [hfx] at hfy
            cases Option.some.inj hfy
            exact le_trans hfcle (not_lt.mp hlt)
          · exact hmin y hy2 fy hfy

theorem argminF_total {fs : List (String × WithTop ℚ)} :
    ∀ (xs : List String) (best : String) (bestF : WithTop ℚ),
      (∀ x ∈ xs, (fs.lookup x).isSome = true) →
      ∃ cur, argminFAux fs best bestF xs = .ok cur := by
  intro xs
  induction xs with
  | nil =>
    intro best bestF _
    exact ⟨best, rfl⟩
  | cons x xs ih =>
    intro best bestF hks
    rw [show argminFAux fs best bestF (x :: xs) =
      (match fs.lookup x with
       | none => .error (.keyError x)
       | some fx => if fx < bestF then argminFAux fs x fx xs
         else argminFAux fs best bestF xs) from rfl]
    cases hfx : fs.lookup x with
    | none =>
      have h1 := hks x (List.mem_cons_self _ _)
      rw [hfx] at h1
      simp at h1
    | some fx =>
      show ∃ cur, (if fx < bestF then argminFAux fs x fx xs
          else argminFAux fs best bestF xs) = Except.ok cur
      by_cases hlt : fx < bestF
      · rw [if_pos hlt]
        exact ih x fx (fun y hy => hks y (List.mem_cons_of_mem _ hy))
      · rw [if_neg hlt]
        exact ih best bestF (fun y hy => hks y (List.mem_cons_of_mem _ hy))

/-! Chain surgery lemmas for the predecessor map. -/

theorem isChain_join {cf : List (String × String)} :
    ∀ (l₁ : List String) {m : String} {l₂ : List String},
      isChain cf l₁ → l₁.getLast? = some m → isChain cf (m :: l₂) →
      isChain cf (l₁ ++ l₂) := by
  intro l₁
  induction l₁ with
  | nil =>
    intro m l₂ _ hlast _
    simp at hlast
  | cons a rest ih =>
    intro m l₂ hch hlast h₂
    cases rest with
    | nil =>
      simp only [List.getLast?_singleton, Option.some.injEq] at hlast
      subst hlast
      exact h₂
    | cons b rest' =>
      obtain ⟨hab, htail⟩ := hch
      have hlast2 : (b :: rest').getLast? = some m := by
        rw [← hlast]
        exact List.getLast?_cons_cons.symm
      exact ⟨hab, ih htail hlast2 h₂⟩

theorem isChain_old_of_sources {cf : List (String × String)} {n u : String} :
    ∀ (l : List String), isChain (upsert cf n u) l →
      (∀ x ∈ l.dropLast, x ≠ n) → isChain cf l := by
  intro l
  induction l with
  | nil => intro _ _; trivial
  | cons a rest ih =>
    intro hch hsrc
    cases rest with
    | nil => trivial
    | cons b rest' =>
      obtain ⟨hab, htail⟩ := hch
      have han : a ≠ n := hsrc a (by simp)
      refine ⟨?_, ih htail ?_⟩
      · rw [upsert_lookup_cases, if_neg han] at hab
        exact hab
      · intro x hx
        exact hsrc x (by
          simp only [List.dropLast_cons_of_ne_nil (List.cons_ne_nil b rest')]
          exact List.mem_cons_of_mem _ hx)

theorem first_occ {l : List String} {n : String} (h : n ∈ l) :
    ∃ R S, l = R ++ n :: S ∧ n ∉ R := by
  induction l with
  | nil => simp at h
  | cons a rest ih =>
    by_cases han : a = n
    · exact ⟨[], rest, by rw [han]; rfl, by simp⟩
    · rcases List.mem_cons.mp h with h1 | h2
      · exact absurd h1.symm han
      · obtain ⟨R, S, hRS, hnR⟩ := ih h2
        refine ⟨a :: R, S, by rw [hRS]; rfl, ?_⟩
        intro hmem
        rcases List.mem_cons.mp hmem with h3 | h4
        · exact han h3.symm
        · exact hnR h4

theorem chain_nodup {cf : List (String × String)}
    (hacy : ∀ (a : String) (l : List String), isChain cf (a :: l) → l ≠ [] →
      l.getLast? ≠ some a) :
    ∀ (l : List String) (a : String), isChain cf (a :: l) → (a :: l).Nodup := by
  intro l
  induction l with
  | nil =>
    intro a _
    simp
  | cons b rest ih =>
    intro a hch
    rw [List.nodup_cons]
    refine ⟨?_, ih b hch.2⟩
    intro hmem
    obtain ⟨R, S, hRS, _⟩ := first_occ hmem
    have hpre : isChain cf (a :: R ++ [a]) := by
      have : a :: b :: rest = (a :: R ++ [a]) ++ S := by
        rw [hRS]
        simp
      exact isChain_append_left (this ▸ hch)
    have hlast : (R ++ [a]).getLast? = some a := List.getLast?_concat _
    exact hacy a (R ++ [a]) (by simpa using hpre) (by simp) hlast

theorem chain_sources_isSome {cf : List (String × String)} :
    ∀ (l : List String), isChain cf l →
      ∀ x ∈ l.dropLast, (cf.lookup x).isSome = true := by
  intro l
  induction l with
  | nil => intro _ x hx; simp at hx
  | cons a rest ih =>
    intro hch x hx
    cases rest with
    | nil => simp at hx
    | cons b rest' =>
      obtain ⟨hab, htail⟩ := hch
      simp only [List.dropLast_cons_of_ne_nil (List.cons_ne_nil b rest')] at hx
      rcases List.mem_cons.mp hx with rfl | hx2
      · rw [hab]
        rfl
      · exact ih htail x hx2

theorem upsert_lookup_isSome {α : Type} (m : List (String × α)) (k : String)
    (v : α) (k' : String) :
    ((upsert m k v).lookup k').isSome =
      ((m.lookup k').isSome || (k' = k : Bool)) := by
  rw [upsert_lookup_cases]
  by_cases h : k' = k
  · simp [h]
  · simp [h]

/-! The A* invariant. -/

/-- `h` never exceeds the weight of any walk to the goal. -/
def Admissible (g : RailwayGraph) (h : String → WithTop ℚ) (e : String) : Prop :=
  ∀ (v : String) (p : List String) (w : ℚ), WalkOn g p w → p.head? = some v →
    p.getLast? = some e → h v ≤ ((w : ℚ) : WithTop ℚ)

/-- The heuristic is non-negative everywhere. -/
def HNonneg (h : String → WithTop ℚ) : Prop := ∀ v, 0 ≤ h v

/-- Invariant of the A* main loop. -/
structure AstarInv (g : RailwayGraph) (h : String → WithTop ℚ) (s e : String)
    (gs fs : List (String × WithTop ℚ)) (os : List String)
    (cf : List (String × String)) : Prop where
  gkeys : ∀ k, (gs.lookup k).isSome ↔ ((g.stations.lookup k).isSome ∨ k = s)
  fval : ∀ v d, gs.lookup v = some d → fs.lookup v = some (d + h v)
  gS : gs.lookup s = some ((0 : ℚ) : WithTop ℚ)
  gSound : ∀ v (q : ℚ), gs.lookup v = some ((q : ℚ) : WithTop ℚ) →
    ∃ p, p.Nodup ∧ MWalk g gs 0 p q ∧ p.head? = some s ∧ p.getLast? = some v
  openG : ∀ v ∈ os, ∃ q : ℚ, gs.lookup v = some ((q : ℚ) : WithTop ℚ)
  openNodup : os.Nodup
  eOpen : ∀ q : ℚ, gs.lookup e = some ((q : ℚ) : WithTop ℚ) → e ∈ os
  closedRelaxed : ∀ v (q : ℚ), gs.lookup v = some ((q : ℚ) : WithTop ℚ) →
    v ∉ os → ∀ nc ∈ dget g.adjacency_list v, ∃ dn,
      gs.lookup nc.1 = some dn ∧ dn ≤ ((q + nc.2 : ℚ) : WithTop ℚ)
  cfChain : ∀ v u, cf.lookup v = some u → ∃ (qv qu c : ℚ),
    gs.lookup v = some ((qv : ℚ) : WithTop ℚ) ∧
    gs.lookup u = some ((qu : ℚ) : WithTop ℚ) ∧
    (v, c) ∈ dget g.adjacency_list u ∧ qu + c ≤ qv
  cfS : cf.lookup s = none
  cfCover : ∀ v (q : ℚ), gs.lookup v = some ((q : ℚ) : WithTop ℚ) → v ≠ s →
    (cf.lookup v).isSome = true
  cfAcy : ∀ (a : String) (l : List String), isChain cf (a :: l) → l ≠ [] →
    l.getLast? ≠ some a

/-- Invariant during the relaxation of `current`'s neighbors: `current` has
been removed from the open set but its edges are not yet all relaxed. -/
structure ARInv (g : RailwayGraph) (h : String → WithTop ℚ)
    (s e current : String) (gc : ℚ) (gs fs : List (String × WithTop ℚ))
    (os : List String) (cf : List (String × String)) : Prop where
  gkeys : ∀ k, (gs.lookup k).isSome ↔ ((g.stations.lookup k).isSome ∨ k = s)
  fval : ∀ v d, gs.lookup v = some d → fs.lookup v = some (d + h v)
  gS : gs.lookup s = some ((0 : ℚ) : WithTop ℚ)
  gSound : ∀ v (q : ℚ), gs.lookup v = some ((q : ℚ) : WithTop ℚ) →
    ∃ p, p.Nodup ∧ MWalk g gs 0 p q ∧ p.head? = some s ∧ p.getLast? = some v
  openG : ∀ v ∈ os, ∃ q : ℚ, gs.lookup v = some ((q : ℚ) : WithTop ℚ)
  openNodup : os.Nodup
  eOpen : ∀ q : ℚ, gs.lookup e = some ((q : ℚ) : WithTop ℚ) → e ∈ os
  closedR : ∀ v (q : ℚ), gs.lookup v = some ((q : ℚ) : WithTop ℚ) →
    v ∉ os → v ≠ current → ∀ nc ∈ dget g.adjacency_list v, ∃ dn,
      gs.lookup nc.1 = some dn ∧ dn ≤ ((q + nc.2 : ℚ) : WithTop ℚ)
  cfChain : ∀ v u, cf.lookup v = some u → ∃ (qv qu c : ℚ),
    gs.lookup v = some ((qv : ℚ) : WithTop ℚ) ∧
    gs.lookup u = some ((qu : ℚ) : WithTop ℚ) ∧
    (v, c) ∈ dget g.adjacency_list u ∧ qu + c ≤ qv
  cfS : cf.lookup s = none
  cfCover : ∀ v (q : ℚ), gs.lookup v = some ((q : ℚ) : WithTop ℚ) → v ≠ s →
    (cf.lookup v).isSome = true
  cfAcy : ∀ (a : String) (l : List String), isChain cf (a :: l) → l ≠ [] →
    l.getLast? ≠ some a
  gcur : gs.lookup current = some ((gc : ℚ) : WithTop ℚ)
  curNotOpen : current ∉ os

/-- Candidate stations for the A* fuel measure. -/
def astarCands (g : RailwayGraph) (s : String) : List String :=
  (s :: g.stations.map Prod.fst).dedup

/-- Number of enumerated simple-walk weights strictly below the current
`g_score` of `v`. -/
def astarRank (g : RailwayGraph) (s : String)
    (gs : List (String × WithTop ℚ)) (v : String) : Nat :=
  ((simpleWeightsTo g.adjacency_list s v).filter
    (fun w => decide (((w : ℚ) : WithTop ℚ) < (gs.lookup v).getD ⊤))).length

/-- Fuel measure of the A* loop. -/
def astarPhi (g : RailwayGraph) (s : String) (st : AstarState) : Nat :=
  st.open_set.length + ((astarCands g s).map (astarRank g s st.g_score)).sum

theorem astarRelax_cons_some {h : String → WithTop ℚ} {current n : String}
    {w : ℚ} {ns : List (String × ℚ)} {gs fs : List (String × WithTop ℚ)}
    {os : List String} {cf : List (String × String)} {gcv gn : WithTop ℚ}
    (hgc : gs.lookup current = some gcv) (hgn : gs.lookup n = some gn) :
    astarRelax h current ((n, w) :: ns) gs fs os cf =
      (if gcv + (w : WithTop ℚ) < gn then
         astarRelax h current ns (upsert gs n (gcv + (w : WithTop ℚ)))
           (upsert fs n (gcv + (w : WithTop ℚ) + h n))
           (if n ∈ os then os else os ++ [n]) (upsert cf n current)
       else astarRelax h current ns gs fs os cf) := by
  rw [show astarRelax h current ((n, w) :: ns) gs fs os cf =
    (match gs.lookup current with
     | none => .error (.keyError current)
     | some gc =>
       match gs.lookup n with
       | none => .error (.keyError n)
       | some gn0 =>
         if gc + (w : WithTop ℚ) < gn0 then
           astarRelax h current ns (upsert gs n (gc + (w : WithTop ℚ)))
             (upsert fs n (gc + (w : WithTop ℚ) + h n))
             (if n ∈ os then os else os ++ [n]) (upsert cf n current)
         else astarRelax h current ns gs fs os cf) from rfl, hgc, hgn]

theorem astarRelax_cons_nocur {h : String → WithTop ℚ} {current n : String}
    {w : ℚ} {ns : List (String × ℚ)} {gs fs : List (String × WithTop ℚ)}
    {os : List String} {cf : List (String × String)}
    (hgc : gs.lookup current = none) :
    astarRelax h current ((n, w) :: ns) gs fs os cf = .error (.keyError current) := by
  rw [show astarRelax h current ((n, w) :: ns) gs fs os cf =
    (match gs.lookup current with
     | none => .error (.keyError current)
     | some gc =>
       match gs.lookup n with
       | none => .error (.keyError n)
       | some gn0 =>
         if gc + (w : WithTop ℚ) < gn0 then
           astarRelax h current ns (upsert gs n (gc + (w : WithTop ℚ)))
             (upsert fs n (gc + (w : WithTop ℚ) + h n))
             (if n ∈ os then os else os ++ [n]) (upsert cf n current)
         else astarRelax h current ns gs fs os cf) from rfl, hgc]

theorem astarRelax_cons_non {h : String → WithTop ℚ} {current n : String}
    {w : ℚ} {ns : List (String × ℚ)} {gs fs : List (String × WithTop ℚ)}
    {os : List String} {cf : List (String × String)} {gcv : WithTop ℚ}
    (hgc : gs.lookup current = some gcv) (hgn : gs.lookup n = none) :
    astarRelax h current ((n, w) :: ns) gs fs os cf = .error (.keyError n) := by
  rw [show astarRelax h current ((n, w) :: ns) gs fs os cf =
    (match gs.lookup current with
     | none => .error (.keyError current)
     | some gc =>
       match gs.lookup n with
       | none => .error (.keyError n)
       | some gn0 =>
         if gc + (w : WithTop ℚ) < gn0 then
           astarRelax h current ns (upsert gs n (gc + (w : WithTop ℚ)))
             (upsert fs n (gc + (w : WithTop ℚ) + h n))
             (if n ∈ os then os else os ++ [n]) (upsert cf n current)
         else astarRelax h current ns gs fs os cf) from rfl, hgc, hgn]

theorem astarRelax_total {h : String → WithTop ℚ} {current : String} :
    ∀ (ns : List (String × ℚ)) (gs fs : List (String × WithTop ℚ))
      (os : List String) (cf : List (String × String)),
      (gs.lookup current).isSome = true →
      (∀ nw ∈ ns, (gs.lookup nw.1).isSome = true) →
      ∃ r, astarRelax h current ns gs fs os cf = .ok r := by
  intro ns
  induction ns with
  | nil =>
    intro gs fs os cf _ _
    exact ⟨_, rfl⟩
  | cons nw rest ih =>
    intro gs fs os cf hcur hks
    obtain ⟨n, w⟩ := nw
    cases hgc : gs.lookup current with
    | none =>
      rw [hgc] at hcur
      simp at hcur
    | some gcv =>
      cases hgn : gs.lookup n with
      | none =>
        have h1 := hks (n, w) (List.mem_cons_self _ _)
        rw [hgn] at h1
        simp at h1
      | some gn =>
        rw [astarRelax_cons_some hgc hgn]
        by_cases hlt : gcv + (w : WithTop ℚ) < gn
        · rw [if_pos hlt]
          apply ih
          · rw [upsert_lookup_isSome, hgc]
            simp
          · intro mw hm
            rw [upsert_lookup_isSome]
            rcases Bool.or_eq_true _ _ |>.mpr (Or.inl (hks mw (List.mem_cons_of_mem _ hm))) with hh
            exact hh
        · rw [if_neg hlt]
          exact ih gs fs os cf hcur (fun mw hm => hks mw (List.mem_cons_of_mem _ hm))

theorem nodup_concat {l : List String} {x : String} (hnd : l.Nodup)
    (hx : x ∉ l) : (l ++ [x]).Nodup := by
  rw [List.nodup_append]
  refine ⟨hnd, List.nodup_singleton x, ?_⟩
  intro a ha hax
  rw [List.mem_singleton] at hax
  subst hax
  exact hx ha

theorem chain_last_target {cf : List (String × String)} :
    ∀ (l : List String) (a b : String), isChain cf (a :: l) → l ≠ [] →
      (a :: l).getLast? = some b → ∃ x, cf.lookup x = some b ∧ x ∈ a :: l := by
  intro l
  induction l with
  | nil => intro a b _ hne _; exact absurd rfl hne
  | cons c rest ih =>
    intro a b hch _ hlast
    cases rest with
    | nil =>
      simp only [List.getLast?_cons_cons, List.getLast?_singleton,
        Option.some.injEq] at hlast
      subst hlast
      exact ⟨a, hch.1, List.mem_cons_self _ _⟩
    | cons d rest' =>
      obtain ⟨x, hx, hmem⟩ := ih c b hch.2 (by simp)
        (by rw [← hlast]; exact List.getLast?_cons_cons.symm)
      exact ⟨x, hx, List.mem_cons_of_mem _ hmem⟩

/-- A strict relaxation never closes a predecessor cycle. -/
theorem cfAcy_step {g : RailwayGraph} {gs : List (String × WithTop ℚ)}
    {cf : List (String × String)} (hnn : NonnegWeights g)
    (hchain : ∀ v u, cf.lookup v = some u → ∃ (qv qu c : ℚ),
      gs.lookup v = some ((qv : ℚ) : WithTop ℚ) ∧
      gs.lookup u = some ((qu : ℚ) : WithTop ℚ) ∧
      (v, c) ∈ dget g.adjacency_list u ∧ qu + c ≤ qv)
    (hacy : ∀ (a : String) (l : List String), isChain cf (a :: l) → l ≠ [] →
      l.getLast? ≠ some a)
    {n current : String} {gc w : ℚ} (hncur : n ≠ current) (hw0 : 0 ≤ w)
    (hgcur : gs.lookup current = some ((gc : ℚ) : WithTop ℚ))
    {gn : WithTop ℚ} (hgn : gs.lookup n = some gn)
    (hlt : ((gc + w : ℚ) : WithTop ℚ) < gn) :
    ∀ (a : String) (l : List String), isChain (upsert cf n current) (a :: l) →
      l ≠ [] → l.getLast? ≠ some a := by
  intro a l hch hlne hlast
  by_cases hmem : n ∈ a :: l
  · obtain ⟨M, hMch, hMlast, hMne⟩ : ∃ M, isChain (upsert cf n current) (n :: M) ∧
        M.getLast? = some n ∧ M ≠ [] := by
      rcases List.mem_cons.mp hmem with heq | hmeml
      · subst heq
        exact ⟨l, hch, hlast, hlne⟩
      · obtain ⟨L1, L2, hsplit, hnL1⟩ := first_occ hmeml
        cases L2 with
        | nil =>
          have han : a = n := by
            rw [hsplit] at hlast
            rw [List.getLast?_concat] at hlast
            exact (Option.some.inj hlast).symm
          subst han
          exact ⟨l, hch, hlast, hlne⟩
        | cons z L2' =>
          have hassoc : a :: l = (a :: L1) ++ (n :: z :: L2') := by
            rw [hsplit]
            rfl
          have hsfx : isChain (upsert cf n current) (n :: z :: L2') :=
            isChain_suffix (hassoc ▸ hch)
          have hassoc2 : a :: l = ((a :: L1) ++ [n]) ++ (z :: L2') := by
            rw [hsplit]
            simp
          have hpre : isChain (upsert cf n current) ((a :: L1) ++ [n]) :=
            isChain_append_left (hassoc2 ▸ hch)
          have hlastL2 : (n :: z :: L2').getLast? = some a := by
            rw [hsplit] at hlast
            rw [← hlast]
            rw [show L1 ++ n :: z :: L2' = L1 ++ (n :: z :: L2') from rfl]
            exact (List.getLast?_append_of_ne_nil _ (by simp)).symm
          have hjoin : isChain (upsert cf n current)
              ((n :: z :: L2') ++ (L1 ++ [n])) := by
            apply isChain_join _ hsfx hlastL2
            have : a :: (L1 ++ [n]) = (a :: L1) ++ [n] := rfl
            rw [this]
            exact hpre
          refine ⟨z :: L2' ++ (L1 ++ [n]), hjoin, ?_, by simp⟩
          rw [show z :: L2' ++ (L1 ++ [n]) = (z :: L2') ++ (L1 ++ [n]) from rfl]
          rw [List.getLast?_append_of_ne_nil _ (by simp)]
          exact List.getLast?_concat _
    cases M with
    | nil => exact hMne rfl
    | cons m0 M' =>
      have hstep : (upsert cf n current).lookup n = some m0 := hMch.1
      rw [upsert_lookup_self] at hstep
      have hm0 : m0 = current := (Option.some.inj hstep).symm
      subst m0
      have hnM : n ∈ current :: M' := List.mem_of_getLast?_eq_some hMlast
      obtain ⟨R, S, hRS, hnR⟩ := first_occ hnM
      cases R with
      | nil =>
        have : current = n := by
          have := hRS
          simp only [List.nil_append] at this
          exact (List.cons.injEq _ _ _ _ ▸ this).1 ▸ rfl
        exact hncur this.symm
      | cons r0 R' =>
        have hr0 : r0 = current := by
          have h1 : current :: M' = r0 :: (R' ++ n :: S) := by
            rw [hRS]
            rfl
          exact ((List.cons.injEq _ _ _ _).mp h1).1.symm
        subst r0
        have hchainM : isChain (upsert cf n current) (current :: M') := hMch.2
        have hassoc3 : current :: M' = ((current :: R') ++ [n]) ++ S := by
          rw [hRS]
          simp
        have hpre2 : isChain (upsert cf n current) ((current :: R') ++ [n]) :=
          isChain_append_left (hassoc3 ▸ hchainM)
        have hold : isChain cf ((current :: R') ++ [n]) := by
          apply isChain_old_of_sources _ hpre2
          rw [List.dropLast_concat]
          intro x hx heq
          subst heq
          exact hnR hx
        have hold2 : isChain cf (current :: (R' ++ [n])) := by
          have h2 : (current :: R') ++ [n] = current :: (R' ++ [n]) := rfl
          rw [← h2]
          exact hold
        have hlast3 : (current :: (R' ++ [n])).getLast? = some n := by
          rw [show current :: (R' ++ [n]) = (current :: R') ++ [n] from rfl]
          exact List.getLast?_concat _
        obtain ⟨x, hxlook, _⟩ := chain_last_target (R' ++ [n]) current n hold2
          (by simp) hlast3
        obtain ⟨qv, qu, c, hqv, hqu, hedge2, hle2⟩ := hchain x n hxlook
        have hgnq : gn = ((qu : ℚ) : WithTop ℚ) := by
          rw [hgn] at hqu
          exact Option.some.inj hqu
        have hqugc : qu ≤ gc := chain_g_mono hnn hchain (R' ++ [n]) current n hold2
          hlast3 gc qu hgcur hqu
        rw [hgnq] at hlt
        have hfin : gc + w < qu := by exact_mod_cast hlt
        linarith
  · have hsub : ∀ x ∈ (a :: l).dropLast, x ≠ n := by
      intro x hx heq
      subst heq
      exact hmem ((List.dropLast_sublist _).subset hx)
    exact hacy a l (isChain_old_of_sources _ hch hsub) hlne hlast

/-- One strict A* relaxation step preserves the relaxation invariant,
only lowers scores, and pays for any open-set growth with a rank drop. -/
theorem astar_update_inv {g : RailwayGraph} {h : String → WithTop ℚ}
    {s e current : String} {gc : ℚ} (hnn : NonnegWeights g)
    {gs fs : List (String × WithTop ℚ)} {os : List String}
    {cf : List (String × String)}
    (inv : ARInv g h s e current gc gs fs os cf)
    {n : String} {w : ℚ} (hedge : (n, w) ∈ dget g.adjacency_list current)
    {gn : WithTop ℚ} (hgn : gs.lookup n = some gn)
    (hlt : ((gc + w : ℚ) : WithTop ℚ) < gn) :
    ARInv g h s e current gc (upsert gs n ((gc + w : ℚ) : WithTop ℚ))
      (upsert fs n (((gc + w : ℚ) : WithTop ℚ) + h n))
      (if n ∈ os then os else os ++ [n]) (upsert cf n current) ∧
    (∀ u d2, (upsert gs n ((gc + w : ℚ) : WithTop ℚ)).lookup u = some d2 →
      ∃ d1, gs.lookup u = some d1 ∧ d2 ≤ d1) ∧
    (if n ∈ os then os else os ++ [n]).length +
      ((astarCands g s).map
        (astarRank g s (upsert gs n ((gc + w : ℚ) : WithTop ℚ)))).sum ≤
      os.length + ((astarCands g s).map (astarRank g s gs)).sum := by
  have hw0 : 0 ≤ w := nonneg_of_edge hnn hedge
  obtain ⟨pc, hpcnd, hpcm, hpch, hpcl⟩ := inv.gSound current gc inv.gcur
  have hgc0 : 0 ≤ gc := walk_nonneg hnn (mwalk_walkOn hpcm)
  have hncur : n ≠ current := by
    intro heq
    subst heq
    rw [inv.gcur] at hgn
    have hg : gn = ((gc : ℚ) : WithTop ℚ) := (Option.some.inj hgn).symm
    rw [hg] at hlt
    have : gc + w < gc := by exact_mod_cast hlt
    linarith
  have hns : n ≠ s := by
    intro heq
    subst heq
    rw [inv.gS] at hgn
    have hg : gn = ((0 : ℚ) : WithTop ℚ) := (Option.some.inj hgn).symm
    rw [hg] at hlt
    have : gc + w < 0 := by exact_mod_cast hlt
    linarith
  have hlookN : (upsert gs n ((gc + w : ℚ) : WithTop ℚ)).lookup n =
      some ((gc + w : ℚ) : WithTop ℚ) := upsert_lookup_self _ _ _
  have hlookO : ∀ k, k ≠ n →
      (upsert gs n ((gc + w : ℚ) : WithTop ℚ)).lookup k = gs.lookup k :=
    fun k hk => upsert_lookup_ne _ _ _ _ hk
  have hdec : ∀ u d2, (upsert gs n ((gc + w : ℚ) : WithTop ℚ)).lookup u = some d2 →
      ∃ d1, gs.lookup u = some d1 ∧ d2 ≤ d1 := by
    intro u d2 hd2
    by_cases hu : u = n
    · subst hu
      rw [hlookN] at hd2
      refine ⟨gn, hgn, ?_⟩
      rw [← Option.some.inj hd2]
      exact le_of_lt hlt
    · rw [hlookO u hu] at hd2
      exact ⟨d2, hd2, le_refl _⟩
  have hdec' : ∀ u d, gs.lookup u = some d →
      ∃ d', (upsert gs n ((gc + w : ℚ) : WithTop ℚ)).lookup u = some d' ∧ d' ≤ d := by
    intro u d hd
    by_cases hu : u = n
    · subst hu
      rw [hgn] at hd
      refine ⟨_, hlookN, ?_⟩
      rw [← Option.some.inj hd]
      exact le_of_lt hlt
    · exact ⟨d, by rw [hlookO u hu]; exact hd, le_refl _⟩
  have hnotin : n ∉ pc := by
    intro hmem
    obtain ⟨d, hd, hdle⟩ := mwalk_mem hnn hpcm n hmem
    rw [hgn] at hd
    have hdgn : d = gn := (Option.some.inj hd).symm
    rw [hdgn] at hdle
    have h1 : gn ≤ ((gc : ℚ) : WithTop ℚ) := by
      refine le_trans hdle ?_
      exact_mod_cast by linarith
    have h2 : ((gc + w : ℚ) : WithTop ℚ) < ((gc : ℚ) : WithTop ℚ) :=
      lt_of_lt_of_le hlt h1
    have : gc + w < gc := by exact_mod_cast h2
    linarith
  have hpcne : pc ≠ [] := by
    intro hnil
    rw [hnil] at hpch
    simp at hpch
  have m1 : MWalk g (upsert gs n ((gc + w : ℚ) : WithTop ℚ)) 0 pc gc :=
    mwalk_mono hdec' hpcm
  have m2 : MWalk g (upsert gs n ((gc + w : ℚ) : WithTop ℚ)) 0 (pc ++ [n])
      (gc + w) := by
    apply mwalk_snoc hlookN m1 hpcl hedge
    have harith : (0 + gc + w : ℚ) = gc + w := by ring
    rw [harith]
  have hnd2 : (pc ++ [n]).Nodup := nodup_concat hpcnd hnotin
  have hh2 : (pc ++ [n]).head? = some s := by
    rw [List.head?_append_of_ne_nil _ hpcne]
    exact hpch
  have hl2 : (pc ++ [n]).getLast? = some n := List.getLast?_concat _
  have hwt : (gc + w) ∈ simpleWeightsTo g.adjacency_list s n :=
    simpleWeightsTo_complete (mwalk_walkOn m2) hnd2 hh2 hl2
  have ncands : n ∈ astarCands g s := by
    unfold astarCands
    rw [List.mem_dedup]
    rcases (inv.gkeys n).mp (by rw [hgn]; rfl) with hst | hns2
    · obtain ⟨si, hsi⟩ := Option.isSome_iff_exists.mp hst
      exact List.mem_cons_of_mem _
        (List.mem_map.mpr ⟨(n, si), lookup_mem hsi, rfl⟩)
    · exact absurd hns2 hns
  refine ⟨?_, hdec, ?_⟩
  · refine ⟨?_, ?_, ?_, ?_, ?_, ?_, ?_, ?_, ?_, ?_, ?_, ?_, ?_, ?_⟩
    · intro k
      by_cases hk : k = n
      · subst hk
        rw [hlookN]
        simpa using (inv.gkeys k).mp (by rw [hgn]; rfl)
      · rw [hlookO k hk]
        exact inv.gkeys k
    · intro v d hd
      by_cases hv : v = n
      · subst hv
        rw [hlookN] at hd
        rw [← Option.some.inj hd]
        exact upsert_lookup_self _ _ _
      · rw [hlookO v hv] at hd
        rw [upsert_lookup_ne _ _ _ _ hv]
        exact inv.fval v d hd
    · rw [hlookO s (fun hh => hns hh.symm)]
      exact inv.gS
    · intro v q hq
      by_cases hv : v = n
      · subst hv
        rw [hlookN] at hq
        have hqt : q = gc + w := by
          exact_mod_cast Option.some.inj hq.symm
        subst hqt
        exact ⟨pc ++ [v], hnd2, m2, hh2, hl2⟩
      · rw [hlookO v hv] at hq
        obtain ⟨p, hnd, hm, hhh, hhl⟩ := inv.gSound v q hq
        exact ⟨p, hnd, mwalk_mono hdec' hm, hhh, hhl⟩
    · intro v hv
      by_cases hvn : v = n
      · subst hvn
        exact ⟨gc + w, hlookN⟩
      · rw [hlookO v hvn]
        apply inv.openG
        by_cases hno : n ∈ os
        · rw [if_pos hno] at hv
          exact hv
        · rw [if_neg hno] at hv
          rcases List.mem_append.mp hv with h1 | h2
          · exact h1
          · exact absurd (List.mem_singleton.mp h2) hvn
    · by_cases hno : n ∈ os
      · rw [if_pos hno]
        exact inv.openNodup
      · rw [if_neg hno]
        exact nodup_concat inv.openNodup hno
    · intro q hq
      by_cases hen : e = n
      · subst hen
        by_cases hno : e ∈ os
        · rw [if_pos hno]
          exact hno
        · rw [if_neg hno]
          simp
      · rw [hlookO e hen] at hq
        have hin := inv.eOpen q hq
        by_cases hno : n ∈ os
        · rw [if_pos hno]
          exact hin
        · rw [if_neg hno]
          exact List.mem_append_left _ hin
    · intro v q hv hnos hvcur nc hnc
      have hvn : v ≠ n := by
        intro heq
        subst heq
        apply hnos
        by_cases hno : v ∈ os
        · rw [if_pos hno]
          exact hno
        · rw [if_neg hno]
          simp
      have hvold : v ∉ os := by
        intro hvo
        apply hnos
        by_cases hno : n ∈ os
        · rw [if_pos hno]
          exact hvo
        · rw [if_neg hno]
          exact List.mem_append_left _ hvo
      rw [hlookO v hvn] at hv
      obtain ⟨dn, hdn, hdnle⟩ := inv.closedR v q hv hvold hvcur nc hnc
      obtain ⟨dn', hdn', hdn'le⟩ := hdec' nc.1 dn hdn
      exact ⟨dn', hdn', le_trans hdn'le hdnle⟩
    · intro v u hvu
      by_cases hv : v = n
      · subst hv
        rw [upsert_lookup_self] at hvu
        have hu : u = current := (Option.some.inj hvu).symm
        subst hu
        refine ⟨gc + w, gc, w, hlookN, ?_, hedge, le_refl _⟩
        rw [hlookO u hncur.symm]

        exact inv.gcur
      · rw [upsert_lookup_ne _ _ _ _ hv] at hvu
        obtain ⟨qv, qu, c, hqv, hqu, hedge2, hle2⟩ := inv.cfChain v u hvu
        by_cases hu : u = n
        · subst hu
          rw [hgn] at hqu
          have hgnq : gn = ((qu : ℚ) : WithTop ℚ) := Option.some.inj hqu
          refine ⟨qv, gc + w, c, by rw [hlookO v hv]; exact hqv, hlookN, hedge2, ?_⟩
          rw [hgnq] at hlt
          have hlt2 : gc + w < qu := by exact_mod_cast hlt
          linarith
        · exact ⟨qv, qu, c, by rw [hlookO v hv]; exact hqv,
            by rw [hlookO u hu]; exact hqu, hedge2, hle2⟩
    · rw [upsert_lookup_ne _ _ _ _ (fun hh => hns hh.symm)]
      exact inv.cfS
    · intro v q hv hvs
      by_cases hvn : v = n
      · subst hvn
        rw [upsert_lookup_self]
        rfl
      · rw [hlookO v hvn] at hv
        rw [upsert_lookup_ne _ _ _ _ hvn]
        exact inv.cfCover v q hv hvs
    · exact cfAcy_step hnn inv.cfChain inv.cfAcy hncur hw0 inv.gcur hgn hlt
    · rw [hlookO current hncur.symm]
      exact inv.gcur
    · intro hmem
      by_cases hno : n ∈ os
      · rw [if_pos hno] at hmem
        exact inv.curNotOpen hmem
      · rw [if_neg hno] at hmem
        rcases List.mem_append.mp hmem with h1 | h2
        · exact inv.curNotOpen h1
        · exact hncur (List.mem_singleton.mp h2).symm
  · have hoff : ∀ x ∈ astarCands g s, x ≠ n →
        astarRank g s (upsert gs n ((gc + w : ℚ) : WithTop ℚ)) x =
          astarRank g s gs x := by
      intro x _ hx
      unfold astarRank
      rw [hlookO x hx]
    have hdropR : astarRank g s (upsert gs n ((gc + w : ℚ) : WithTop ℚ)) n + 1 ≤
        astarRank g s gs n := by
      unfold astarRank
      simp only [hlookN, hgn, Option.getD_some]
      apply filter_length_drop _ ?_ (gc + w) hwt ?_ ?_
      · intro a _ ha
        have ha2 : ((a : ℚ) : WithTop ℚ) < ((gc + w : ℚ) : WithTop ℚ) :=
          of_decide_eq_true ha
        exact decide_eq_true (lt_trans ha2 hlt)
      · simp
      · exact decide_eq_true hlt
    have hsum0 := map_sum_update (List.nodup_dedup _) ncands
      (astarRank g s gs) (astarRank g s (upsert gs n ((gc + w : ℚ) : WithTop ℚ)))
      hoff hdropR
    have hsum : ((astarCands g s).map
        (astarRank g s (upsert gs n ((gc + w : ℚ) : WithTop ℚ)))).sum + 1 ≤
        ((astarCands g s).map (astarRank g s gs)).sum := hsum0
    by_cases hno : n ∈ os
    · rw [if_pos hno]
      omega
    · rw [if_neg hno]
      rw [List.length_append, List.length_singleton]
      omega

/-- The full relaxation loop of one expansion preserves the invariant,
establishes the relaxedness of `current`, only lowers scores, and does not
increase the fuel measure. -/
theorem astarRelax_inv {g : RailwayGraph} {h : String → WithTop ℚ}
    {s e current : String} {gc : ℚ} (hnn : NonnegWeights g) :
    ∀ (ns : List (String × ℚ)) (gs fs : List (String × WithTop ℚ))
      (os : List String) (cf : List (String × String))
      {gs2 fs2 : List (String × WithTop ℚ)} {os2 : List String}
      {cf2 : List (String × String)},
      astarRelax h current ns gs fs os cf = .ok (gs2, fs2, os2, cf2) →
      (∀ nw ∈ ns, nw ∈ dget g.adjacency_list current) →
      (∀ nc ∈ dget g.adjacency_list current, nc ∈ ns ∨
        ∃ dn, gs.lookup nc.1 = some dn ∧ dn ≤ ((gc + nc.2 : ℚ) : WithTop ℚ)) →
      ARInv g h s e current gc gs fs os cf →
      AstarInv g h s e gs2 fs2 os2 cf2 ∧ current ∉ os2 ∧
      (∀ u d2, gs2.lookup u = some d2 → ∃ d1, gs.lookup u = some d1 ∧ d2 ≤ d1) ∧
      os2.length + ((astarCands g s).map (astarRank g s gs2)).sum ≤
        os.length + ((astarCands g s).map (astarRank g s gs)).sum := by
  intro ns
  induction ns with
  | nil =>
    intro gs fs os cf gs2 fs2 os2 cf2 hrel hsub hdone inv
    have hrel2 : (Except.ok (gs, fs, os, cf) :
        Except PyErr (List (String × WithTop ℚ) × List (String × WithTop ℚ) ×
          List String × List (String × String))) = .ok (gs2, fs2, os2, cf2) := hrel
    simp only [Except.ok.injEq, Prod.mk.injEq] at hrel2
    obtain ⟨h1, h2, h3, h4⟩ := hrel2
    subst h1
    subst h2
    subst h3
    subst h4
    refine ⟨⟨inv.gkeys, inv.fval, inv.gS, inv.gSound, inv.openG, inv.openNodup,
      inv.eOpen, ?_, inv.cfChain, inv.cfS, inv.cfCover, inv.cfAcy⟩,
      inv.curNotOpen, fun u d2 hd2 => ⟨d2, hd2, le_refl _⟩, le_refl _⟩
    intro v q hv hnos nc hnc
    by_cases hvc : v = current
    · subst hvc
      rcases hdone nc hnc with hin | hbound
      · exact absurd hin (List.not_mem_nil _)
      · obtain ⟨dn, hdn, hle⟩ := hbound
        have hq : q = gc := by
          rw [inv.gcur] at hv
          exact_mod_cast Option.some.inj hv.symm
        refine ⟨dn, hdn, ?_⟩
        rw [hq]
        exact hle
    · exact inv.closedR v q hv hnos hvc nc hnc
  | cons nw rest ih =>
    intro gs fs os cf gs2 fs2 os2 cf2 hrel hsub hdone inv
    obtain ⟨n, w⟩ := nw
    have hedge : (n, w) ∈ dget g.adjacency_list current :=
      hsub (n, w) (List.mem_cons_self _ _)
    have hsub' : ∀ mw ∈ rest, mw ∈ dget g.adjacency_list current :=
      fun mw hm => hsub mw (List.mem_cons_of_mem _ hm)
    cases hgn : gs.lookup n with
    | none =>
      rw [astarRelax_cons_non inv.gcur hgn] at hrel
      simp at hrel
    | some gn =>
      rw [astarRelax_cons_some inv.gcur hgn] at hrel
      by_cases hlt : ((gc : ℚ) : WithTop ℚ) + (w : WithTop ℚ) < gn
      · rw [if_pos hlt] at hrel
        rw [← WithTop.coe_add] at hrel
        have hlt2 : ((gc + w : ℚ) : WithTop ℚ) < gn := by
          rw [WithTop.coe_add]
          exact hlt
        obtain ⟨inv', hdec1, hphi1⟩ := astar_update_inv hnn inv hedge hgn hlt2
        have hdone' : ∀ nc ∈ dget g.adjacency_list current, nc ∈ rest ∨
            ∃ dn, (upsert gs n ((gc + w : ℚ) : WithTop ℚ)).lookup nc.1 = some dn ∧
              dn ≤ ((gc + nc.2 : ℚ) : WithTop ℚ) := by
          intro nc hnc
          rcases hdone nc hnc with hin | hbound
          · rcases List.mem_cons.mp hin with heq | hinrest
            · right
              refine ⟨((gc + w : ℚ) : WithTop ℚ), ?_, ?_⟩
              · rw [show nc.1 = n by rw [heq]]
                exact upsert_lookup_self _ _ _
              · rw [show nc.2 = w  by rw [heq]]
            · exact Or.inl hinrest
          · obtain ⟨dn, hdn, hle⟩ := hbound
            right
            by_cases hn1 : nc.1 = n
            · rw [hn1] at hdn
              rw [hgn] at hdn
              have hdg : dn = gn := (Option.some.inj hdn).symm
              refine ⟨((gc + w : ℚ) : WithTop ℚ), ?_, ?_⟩
              · rw [hn1]
                exact upsert_lookup_self _ _ _
              · refine le_trans (le_of_lt hlt2) ?_
                rw [hdg] at hle
                exact hle
            · exact ⟨dn, by rw [upsert_lookup_ne _ _ _ _ hn1]; exact hdn, hle⟩
        obtain ⟨invF, hcur2, hdec2, hphi2⟩ := ih _ _ _ _ hrel hsub' hdone' inv'
        refine ⟨invF, hcur2, ?_, ?_⟩
        · intro u d2 hd2
          obtain ⟨d1, hd1, hle1⟩ := hdec2 u d2 hd2
          obtain ⟨d0, hd0, hle0⟩ := hdec1 u d1 hd1
          exact ⟨d0, hd0, le_trans hle1 hle0⟩
        · omega
      · rw [if_neg hlt] at hrel
        have hdone' : ∀ nc ∈ dget g.adjacency_list current, nc ∈ rest ∨
            ∃ dn, gs.lookup nc.1 = some dn ∧
              dn ≤ ((gc + nc.2 : ℚ) : WithTop ℚ) := by
          intro nc hnc
          rcases hdone nc hnc with hin | hbound
          · rcases List.mem_cons.mp hin with heq | hinrest
            · right
              refine ⟨gn, by rw [show nc.1 = n by rw [heq]]; exact hgn, ?_⟩
              have hge : gn ≤ ((gc : ℚ) : WithTop ℚ) + (w : WithTop ℚ) :=
                not_lt.mp hlt
              rw [show nc.2 = w by rw [heq]]
              rw [WithTop.coe_add]
              exact hge
            · exact Or.inl hinrest
          · exact Or.inr hbound
        exact ih _ _ _ _ hrel hsub' hdone' inv

theorem astarLoop_eq_nil {h : String → WithTop ℚ} {s e : String} {fuel : Nat}
    {gs fs : List (String × WithTop ℚ)} {cf : List (String × String)}
    {adjm : AdjMap} :
    astarLoop h s e (fuel+1) ⟨gs, fs, [], cf, adjm⟩ = .ok (([], 0), adjm) := rfl

theorem astarLoop_eq_cons {h : String → WithTop ℚ} {s e : String} {fuel : Nat}
    {gs fs : List (String × WithTop ℚ)} {o : String} {os : List String}
    {cf : List (String × String)} {adjm : AdjMap} :
    astarLoop h s e (fuel+1) ⟨gs, fs, o :: os, cf, adjm⟩ =
      (match fs.lookup o with
       | none => .error (.keyError o)
       | some fo =>
         match argminFAux fs o fo os with
         | .error err => .error err
         | .ok current =>
           if current = e then
             match reconstructLoop cf s (cf.length + 2) current [] with
             | .error err => .error err
             | .ok path =>
               match gs.lookup e with
               | none => .error (.keyError e)
               | some ge => .ok ((path, ge), adjm)
           else
             match astarRelax h current (dget (touch adjm current) current) gs fs
                 ((o :: os).erase current) cf with
             | .error err => .error err
             | .ok (gs2, fs2, os2, cf2) =>
               astarLoop h s e fuel ⟨gs2, fs2, os2, cf2, touch adjm current⟩) := rfl

/-- Walk chase: any walk starting at a vertex whose score is below the
accumulated weight either meets an open vertex with a prefix-bounded score,
or its endpoint's score is below the whole weight. -/
theorem astar_chase {g : RailwayGraph} {gs : List (String × WithTop ℚ)}
    {os : List String} (hnn : NonnegWeights g)
    (hclosed : ∀ v (q : ℚ), gs.lookup v = some ((q : ℚ) : WithTop ℚ) →
      v ∉ os → ∀ nc ∈ dget g.adjacency_list v, ∃ dn,
        gs.lookup nc.1 = some dn ∧ dn ≤ ((q + nc.2 : ℚ) : WithTop ℚ)) :
    ∀ {P : List String} {wP : ℚ}, WalkOn g P wP → ∀ (a : String) (acc : ℚ),
      P.head? = some a →
      (∃ da, gs.lookup a = some da ∧ da ≤ ((acc : ℚ) : WithTop ℚ)) →
      (∃ (v : String) (w1 w2 : ℚ) (suffix : List String), v ∈ os ∧ wP = w1 + w2 ∧
        (∃ dv, gs.lookup v = some dv ∧ dv ≤ ((acc + w1 : ℚ) : WithTop ℚ)) ∧
        WalkOn g suffix w2 ∧ suffix.head? = some v ∧
        suffix.getLast? = P.getLast?) ∨
      (∀ b, P.getLast? = some b → ∃ db, gs.lookup b = some db ∧
        db ≤ ((acc + wP : ℚ) : WithTop ℚ)) := by
  intro P wP hw
  induction hw with
  | single u =>
    intro a acc hha hda
    have hau : a = u := by
      simp only [List.head?_cons, Option.some.injEq] at hha
      exact hha.symm
    subst hau
    obtain ⟨da, hda1, hda2⟩ := hda
    by_cases hmem : a ∈ os
    · exact Or.inl ⟨a, 0, 0, [a], hmem, by ring, ⟨da, hda1, by simpa using hda2⟩,
        WalkOn.single a, rfl, rfl⟩
    · refine Or.inr ?_
      intro b hb
      simp only [List.getLast?_singleton, Option.some.injEq] at hb
      subst hb
      exact ⟨da, hda1, by simpa using hda2⟩
  | cons he htail ih =>
    rename_i u v rest c w'
    intro a acc hha hda
    have hau : a = u := by
      simp only [List.head?_cons, Option.some.injEq] at hha
      exact hha.symm
    subst hau
    obtain ⟨da, hda1, hda2⟩ := hda
    by_cases hmem : a ∈ os
    · exact Or.inl ⟨a, 0, c + w', a :: v :: rest, hmem, by ring,
        ⟨da, hda1, by simpa using hda2⟩, WalkOn.cons he htail, rfl, rfl⟩
    · obtain ⟨qa, hqa, hqa2⟩ := withTop_le_coe_finite hda2
      rw [hqa] at hda1
      obtain ⟨dn, hdn, hdnle⟩ := hclosed a qa hda1 hmem (v, c) he
      have hdnle2 : dn ≤ ((acc + c : ℚ) : WithTop ℚ) := by
        refine le_trans hdnle ?_
        exact_mod_cast by linarith
      rcases ih v (acc + c) rfl ⟨dn, hdn, hdnle2⟩ with hleft | hright
      · obtain ⟨v', w1, w2, suffix, hmem', heq, hdv, hwsf, hhsf, hlsf⟩ := hleft
        refine Or.inl ⟨v', c + w1, w2, suffix, hmem', by rw [heq]; ring, ?_,
          hwsf, hhsf, ?_⟩
        · obtain ⟨dv, hdv1, hdv2⟩ := hdv
          refine ⟨dv, hdv1, le_trans hdv2 ?_⟩
          exact_mod_cast by linarith
        · rw [hlsf]
          exact List.getLast?_cons_cons.symm
      · refine Or.inr ?_
        intro b hb
        have hb2 : (v :: rest).getLast? = some b := by
          rw [← hb]
          exact List.getLast?_cons_cons.symm
        obtain ⟨db, hdb1, hdb2⟩ := hright b hb2
        refine ⟨db, hdb1, le_trans hdb2 ?_⟩
        exact_mod_cast by linarith

/-- Walking the predecessor map, when it returns, yields a walk from `s`
of weight at most the recorded score of the starting vertex. -/
theorem astarReconstruct_sound {g : RailwayGraph}
    {gs : List (String × WithTop ℚ)} {cf : List (String × String)} {s : String}
    (hgS : gs.lookup s = some ((0 : ℚ) : WithTop ℚ))
    (hchain : ∀ v u, cf.lookup v = some u → ∃ (qv qu c : ℚ),
      gs.lookup v = some ((qv : ℚ) : WithTop ℚ) ∧
      gs.lookup u = some ((qu : ℚ) : WithTop ℚ) ∧
      (v, c) ∈ dget g.adjacency_list u ∧ qu + c ≤ qv)
    (hcover : ∀ v (q : ℚ), gs.lookup v = some ((q : ℚ) : WithTop ℚ) → v ≠ s →
      (cf.lookup v).isSome = true) :
    ∀ (fuel : Nat) (cur : String) (q : ℚ) (acc out : List String),
      gs.lookup cur = some ((q : ℚ) : WithTop ℚ) →
      reconstructLoop cf s fuel cur acc = .ok out →
      ∃ (pc : List String) (wc : ℚ), out = (acc ++ pc ++ [s]).reverse ∧ wc ≤ q ∧
        WalkOn g ((pc ++ [s]).reverse) wc ∧
        ((pc ++ [s]).reverse).head? = some s ∧
        ((pc ++ [s]).reverse).getLast? = some cur := by
  intro fuel
  induction fuel with
  | zero =>
    intro cur q acc out _ hrun
    simp [reconstructLoop] at hrun
  | succ fuel ih =>
    intro cur q acc out hq hrun
    cases hcf : cf.lookup cur with
    | none =>
      have hcurs : cur = s := by
        by_contra hne
        have := hcover cur q hq hne
        rw [hcf] at this
        simp at this
      subst hcurs
      rw [reconstructLoop_step_none hcf] at hrun
      have hout : out = (acc ++ [cur]).reverse := (Except.ok.inj hrun).symm
      refine ⟨[], 0, by rw [hout]; simp, ?_, WalkOn.single cur, rfl, rfl⟩
      have hq0 : q = 0 := by
        rw [hgS] at hq
        exact_mod_cast (Option.some.inj hq).symm
      rw [hq0]
    | some u =>
      obtain ⟨qv, qu, c, hqv, hqu, hedge, hle⟩ := hchain cur u hcf
      have hqvq : qv = q := by
        rw [hq] at hqv
        exact_mod_cast (Option.some.inj hqv).symm
      rw [reconstructLoop_step_some hcf] at hrun
      obtain ⟨pc', wc', hout, hwle, hwalk, hhh, hhl⟩ :=
        ih u qu (acc ++ [cur]) out hqu hrun
      refine ⟨cur :: pc', wc' + c, ?_, ?_, ?_, ?_, ?_⟩
      · rw [hout]
        simp
      · linarith
      · have hsplit : ((cur :: pc') ++ [s]).reverse =
            ((pc' ++ [s]).reverse) ++ [cur] := by simp
        rw [hsplit]
        exact walkOn_append_edge hwalk hhl hedge
      · have hsplit : ((cur :: pc') ++ [s]).reverse =
            ((pc' ++ [s]).reverse) ++ [cur] := by simp
        rw [hsplit, List.head?_append_of_ne_nil _ ?_]
        · exact hhh
        · intro hnil
          rw [hnil] at hhh
          simp at hhh
      · have hsplit : ((cur :: pc') ++ [s]).reverse =
            ((pc' ++ [s]).reverse) ++ [cur] := by simp
        rw [hsplit]
        exact List.getLast?_concat _

/-- The predecessor map of an acyclic invariant state can always be walked
to completion within the model's fuel bound. -/
theorem reconstructLoop_total_of_bound {cf : List (String × String)}
    {s : String} :
    ∀ (fuel : Nat) (cur : String) (acc : List String),
      (∀ l, isChain cf (cur :: l) → l.length < fuel) →
      ∃ out, reconstructLoop cf s fuel cur acc = .ok out := by
  intro fuel
  induction fuel with
  | zero =>
    intro cur acc hbound
    have := hbound [] trivial
    omega
  | succ fuel ih =>
    intro cur acc hbound
    cases hcf : cf.lookup cur with
    | none => exact ⟨_, reconstructLoop_step_none hcf⟩
    | some u =>
      rw [reconstructLoop_step_some hcf]
      apply ih
      intro l hl
      have hchain : isChain cf (cur :: u :: l) := ⟨hcf, hl⟩
      have := hbound (u :: l) hchain
      simp only [List.length_cons] at this ⊢
      omega

/-- Acyclicity bounds every predecessor chain by the map's size. -/
theorem chain_length_bound {cf : List (String × String)}
    (hacy : ∀ (a : String) (l : List String), isChain cf (a :: l) → l ≠ [] →
      l.getLast? ≠ some a) :
    ∀ (l : List String) (cur : String), isChain cf (cur :: l) →
      l.length < cf.length + 2 := by
  intro l cur hch
  have hnd : (cur :: l).Nodup := chain_nodup hacy l cur hch
  have hsub : ∀ x ∈ (cur :: l).dropLast, x ∈ (cf.map Prod.fst).dedup := by
    intro x hx
    have hsm := chain_sources_isSome (cur :: l) hch x hx
    obtain ⟨u, hu⟩ := Option.isSome_iff_exists.mp hsm
    rw [List.mem_dedup]
    exact List.mem_map.mpr ⟨(x, u), lookup_mem hu, rfl⟩
  have hnd2 : ((cur :: l).dropLast).Nodup := (List.dropLast_sublist _).nodup hnd
  have hlen : ((cur :: l).dropLast).length ≤ (cf.map Prod.fst).dedup.length := by
    calc ((cur :: l).dropLast).length = ((cur :: l).dropLast).toFinset.card :=
          (List.toFinset_card_of_nodup hnd2).symm
      _ ≤ ((cf.map Prod.fst).dedup).toFinset.card := by
          apply Finset.card_le_card
          intro x hx
          rw [List.mem_toFinset] at hx ⊢
          exact hsub x hx
      _ ≤ ((cf.map Prod.fst).dedup).length := List.toFinset_card_le _
  have h1 : ((cur :: l).dropLast).length = l.length := by
    rw [List.length_dropLast]
    simp
  have h2 : ((cf.map Prod.fst).dedup).length ≤ cf.length := by
    calc ((cf.map Prod.fst).dedup).length ≤ (cf.map Prod.fst).length :=
          (List.dedup_sublist _).length_le
      _ = cf.length := List.length_map _ _
  omega

theorem astarLoop_found {h : String → WithTop ℚ} {s e : String} {fuel : Nat}
    {gs fs : List (String × WithTop ℚ)} {o : String} {os : List String}
    {cf : List (String × String)} {adjm : AdjMap} {fo : WithTop ℚ}
    (hfo : fs.lookup o = some fo) (hcur : argminFAux fs o fo os = Except.ok e) :
    astarLoop h s e (fuel+1) ⟨gs, fs, o :: os, cf, adjm⟩ =
      (match reconstructLoop cf s (cf.length + 2) e [] with
       | Except.error err => Except.error err
       | Except.ok path =>
         match gs.lookup e with
         | none => Except.error (PyErr.keyError e)
         | some ge => Except.ok ((path, ge), adjm)) := by
  rw [astarLoop_eq_cons, hfo]
  show (match argminFAux fs o fo os with
       | Except.error err => Except.error err
       | Except.ok current =>
         if current = e then
           match reconstructLoop cf s (cf.length + 2) current [] with
           | Except.error err => Except.error err
           | Except.ok path =>
             match gs.lookup e with
             | none => Except.error (PyErr.keyError e)
             | some ge => Except.ok ((path, ge), adjm)
         else
           match astarRelax h current (dget (touch adjm current) current) gs fs
               ((o :: os).erase current) cf with
           | Except.error err => Except.error err
           | Except.ok (gs2, fs2, os2, cf2) =>
             astarLoop h s e fuel ⟨gs2, fs2, os2, cf2, touch adjm current⟩) = _
  rw [hcur]
  show (if e = e then
         match reconstructLoop cf s (cf.length + 2) e [] with
         | Except.error err => Except.error err
         | Except.ok path =>
           match gs.lookup e with
           | none => Except.error (PyErr.keyError e)
           | some ge => Except.ok ((path, ge), adjm)
       else
         match astarRelax h e (dget (touch adjm e) e) gs fs
             ((o :: os).erase e) cf with
         | Except.error err => Except.error err
         | Except.ok (gs2, fs2, os2, cf2) =>
           astarLoop h s e fuel ⟨gs2, fs2, os2, cf2, touch adjm e⟩) = _
  rw [if_pos rfl]

theorem astarLoop_expand {h : String → WithTop ℚ} {s e : String} {fuel : Nat}
    {gs fs : List (String × WithTop ℚ)} {o current : String} {os : List String}
    {cf : List (String × String)} {adjm : AdjMap} {fo : WithTop ℚ}
    (hfo : fs.lookup o = some fo) (hcur : argminFAux fs o fo os = Except.ok current)
    (hce : current ≠ e) :
    astarLoop h s e (fuel+1) ⟨gs, fs, o :: os, cf, adjm⟩ =
      (match astarRelax h current (dget (touch adjm current) current) gs fs
          ((o :: os).erase current) cf with
       | Except.error err => Except.error err
       | Except.ok (gs2, fs2, os2, cf2) =>
         astarLoop h s e fuel ⟨gs2, fs2, os2, cf2, touch adjm current⟩) := by
  rw [astarLoop_eq_cons, hfo]
  show (match argminFAux fs o fo os with
       | Except.error err => Except.error err
       | Except.ok current =>
         if current = e then
           match reconstructLoop cf s (cf.length + 2) current [] with
           | Except.error err => Except.error err
           | Except.ok path =>
             match gs.lookup e with
             | none => Except.error (PyErr.keyError e)
             | some ge => Except.ok ((path, ge), adjm)
         else
           match astarRelax h current (dget (touch adjm current) current) gs fs
               ((o :: os).erase current) cf with
           | Except.error err => Except.error err
           | Except.ok (gs2, fs2, os2, cf2) =>
             astarLoop h s e fuel ⟨gs2, fs2, os2, cf2, touch adjm current⟩) = _
  rw [hcur]
  show (if current = e then
         match reconstructLoop cf s (cf.length + 2) current [] with
         | Except.error err => Except.error err
         | Except.ok path =>
           match gs.lookup e with
           | none => Except.error (PyErr.keyError e)
           | some ge => Except.ok ((path, ge), adjm)
       else
         match astarRelax h current (dget (touch adjm current) current) gs fs
             ((o :: os).erase current) cf with
         | Except.error err => Except.error err
         | Except.ok (gs2, fs2, os2, cf2) =>
           astarLoop h s e fuel ⟨gs2, fs2, os2, cf2, touch adjm current⟩) = _
  rw [if_neg hce]

/-- The heuristic of the goal vanishes for admissible non-negative
heuristics. -/
theorem h_goal_zero {g : RailwayGraph} {h : String → WithTop ℚ} {e : String}
    (hadm : Admissible g h e) (hh0 : HNonneg h) : h e = 0 := by
  have h1 : h e ≤ ((0 : ℚ) : WithTop ℚ) :=
    hadm e [e] 0 (WalkOn.single e) rfl rfl
  have h2 := hh0 e
  have h0 : ((0 : ℚ) : WithTop ℚ) = (0 : WithTop ℚ) := rfl
  rw [h0] at h1
  exact le_antisymm h1 h2

/-- Partial correctness of the A* main loop. -/
theorem astarLoop_correct {g : RailwayGraph} {h : String → WithTop ℚ}
    {s e : String} (hnn : NonnegWeights g) (hadm : Admissible g h e)
    (hh0 : HNonneg h) :
    ∀ (fuel : Nat) (gs fs : List (String × WithTop ℚ)) (os : List String)
      (cf : List (String × String)) (adjm : AdjMap),
      AstarInv g h s e gs fs os cf →
      (∀ k, dget adjm k = dget g.adjacency_list k) →
      ∀ {p : List String} {m : WithTop ℚ} {adjm2 : AdjMap},
      astarLoop h s e fuel ⟨gs, fs, os, cf, adjm⟩ = .ok ((p, m), adjm2) →
      (p = [] → m = 0 ∧ ∀ pw (w : ℚ), WalkOn g pw w → pw.head? = some s →
        pw.getLast? = some e → False) ∧
      (p ≠ [] → ∃ q : ℚ, m = ((q : ℚ) : WithTop ℚ) ∧ WalkOn g p q ∧
        p.head? = some s ∧ p.getLast? = some e ∧ IsMinDist g s e q) := by
  intro fuel
  induction fuel with
  | zero =>
    intro gs fs os cf adjm _ _ p m adjm2 hrun
    simp [astarLoop] at hrun
  | succ fuel ih =>
    intro gs fs os cf adjm inv hadj p m adjm2 hrun
    cases os with
    | nil =>
      rw [astarLoop_eq_nil] at hrun
      simp only [Except.ok.injEq, Prod.mk.injEq] at hrun
      obtain ⟨⟨hp, hm⟩, _⟩ := hrun
      constructor
      · intro _
        refine ⟨hm.symm, ?_⟩
        intro pw w hw hwh hwl
        rcases astar_chase hnn inv.closedRelaxed hw s 0 hwh
          ⟨((0 : ℚ) : WithTop ℚ), inv.gS, le_refl _⟩ with hleft | hright
        · obtain ⟨v, _, _, _, hv, _⟩ := hleft
          exact absurd hv (List.not_mem_nil _)
        · obtain ⟨db, hdb, hdble⟩ := hright e hwl
          obtain ⟨qe, hqe, _⟩ := withTop_le_coe_finite hdble
          rw [hqe] at hdb
          exact absurd (inv.eOpen qe hdb) (List.not_mem_nil _)
      · intro hne
        exact absurd hp.symm hne
    | cons o osr =>
      have hoq := inv.openG o (List.mem_cons_self _ _)
      obtain ⟨qo, hqo⟩ := hoq
      have hfo : fs.lookup o = some (((qo : ℚ) : WithTop ℚ) + h o) :=
        inv.fval o _ hqo
      cases hcur : argminFAux fs o (((qo : ℚ) : WithTop ℚ) + h o) osr with
      | error err =>
        rw [astarLoop_eq_cons, hfo] at hrun
        have hrun2 : (match argminFAux fs o (((qo : ℚ) : WithTop ℚ) + h o) osr with
            | .error err => (.error err :
                Except PyErr ((List String × WithTop ℚ) × AdjMap))
            | .ok current =>
              if current = e then
                match reconstructLoop cf s (cf.length + 2) current [] with
                | .error err => .error err
                | .ok path =>
                  match gs.lookup e with
                  | none => .error (.keyError e)
                  | some ge => .ok ((path, ge), adjm)
              else
                match astarRelax h current (dget (touch adjm current) current)
                    gs fs ((o :: osr).erase current) cf with
                | .error err => .error err
                | .ok (gs2, fs2, os2, cf2) =>
                  astarLoop h s e fuel ⟨gs2, fs2, os2, cf2, touch adjm current⟩)
            = .ok ((p, m), adjm2) := hrun
        rw [hcur] at hrun2
        simp at hrun2
      | ok current =>
        obtain ⟨hmemcur, fc, hfc, hfcle, hminxs⟩ :=
          argminF_spec osr o _ current hfo hcur
        have hmemcur2 : current ∈ o :: osr := by
          rcases hmemcur with rfl | hm
          · exact List.mem_cons_self _ _
          · exact List.mem_cons_of_mem _ hm
        by_cases hce : current = e
        · subst current
          rw [astarLoop_found hfo hcur] at hrun
          obtain ⟨qe, hqe⟩ := inv.openG e hmemcur2
          cases hrec : reconstructLoop cf s (cf.length + 2) e [] with
          | error err =>
            rw [hrec] at hrun
            simp at hrun
          | ok path =>
            rw [hrec] at hrun
            have hrun3 : (match gs.lookup e with
                | none => (.error (.keyError e) :
                    Except PyErr ((List String × WithTop ℚ) × AdjMap))
                | some ge => .ok ((path, ge), adjm)) = .ok ((p, m), adjm2) := hrun
            rw [hqe] at hrun3
            have hrun4 : (Except.ok ((path, ((qe : ℚ) : WithTop ℚ)), adjm) :
                Except PyErr ((List String × WithTop ℚ) × AdjMap)) =
                .ok ((p, m), adjm2) := hrun3
            simp only [Except.ok.injEq, Prod.mk.injEq] at hrun4
            obtain ⟨⟨hp, hm⟩, _⟩ := hrun4
            obtain ⟨pc, wc, hout, hwcle, hwalk, hwh, hwl⟩ :=
              astarReconstruct_sound inv.gS inv.cfChain inv.cfCover
                (cf.length + 2) e qe [] path hqe hrec
            simp only [List.nil_append] at hout
            -- minimality of qe
            have hmin : ∀ pw (w : ℚ), WalkOn g pw w → pw.head? = some s →
                pw.getLast? = some e → qe ≤ w := by
              intro pw w hw hwh2 hwl2
              rcases astar_chase hnn inv.closedRelaxed hw s 0 hwh2
                ⟨((0 : ℚ) : WithTop ℚ), inv.gS, le_refl _⟩ with hleft | hright
              · obtain ⟨v, w1, w2, suffix, hv, heqw, ⟨dv, hdv1, hdv2⟩,
                  hwsf, hhsf, hlsf⟩ := hleft
                have hfv : fs.lookup v = some (dv + h v) := inv.fval v dv hdv1
                have hfcbound : fc ≤ dv + h v := by
                  rcases List.mem_cons.mp hv with rfl | hvm
                  · rw [hfo] at hfv
                    rw [← Option.some.inj hfv]
                    exact hfcle
                  · exact hminxs v hvm _ hfv
                have hfcval : fc = ((qe : ℚ) : WithTop ℚ) + h e := by
                  have := inv.fval e _ hqe
                  rw [this] at hfc
                  exact Option.some.inj hfc.symm
                have hhe : h e = 0 := h_goal_zero hadm hh0
                have hsfx : h v ≤ ((w2 : ℚ) : WithTop ℚ) := by
                  apply hadm v suffix w2 hwsf hhsf
                  rw [hlsf]
                  exact hwl2
                have hdv2' : dv ≤ ((w1 : ℚ) : WithTop ℚ) := by
                  refine le_trans hdv2 ?_
                  exact_mod_cast by linarith
                have hchainle : ((qe : ℚ) : WithTop ℚ) ≤ ((w : ℚ) : WithTop ℚ) := by
                  calc ((qe : ℚ) : WithTop ℚ) = ((qe : ℚ) : WithTop ℚ) + h e := by
                        rw [hhe]; rw [add_zero]
                    _ = fc := hfcval.symm
                    _ ≤ dv + h v := hfcbound
                    _ ≤ ((w1 : ℚ) : WithTop ℚ) + ((w2 : ℚ) : WithTop ℚ) :=
                        add_le_add hdv2' hsfx
                    _ = ((w1 + w2 : ℚ) : WithTop ℚ) := (WithTop.coe_add _ _).symm
                    _ = ((w : ℚ) : WithTop ℚ) := by rw [← heqw]
                exact_mod_cast hchainle
              · obtain ⟨db, hdb, hdble⟩ := hright e hwl2
                rw [hqe] at hdb
                have hdbv : db = ((qe : ℚ) : WithTop ℚ) := Option.some.inj hdb.symm
                rw [hdbv] at hdble
                have : qe ≤ 0 + w := by exact_mod_cast hdble
                linarith
            have hwceq : wc = qe := by
              refine le_antisymm hwcle (hmin _ wc hwalk hwh ?_)
              rw [hwl]
            constructor
            · intro hpe
              rw [← hp, hout] at hpe
              have : (pc ++ [s]) = [] := by
                rw [← List.reverse_reverse (pc ++ [s]), hpe]
                rfl
              simp at this
            · intro _
              obtain ⟨pw, _, hmw, hmh, hml⟩ := inv.gSound e qe hqe
              refine ⟨qe, hm.symm, ?_, ?_, ?_, ⟨pw, mwalk_walkOn hmw, hmh, hml⟩,
                hmin⟩
              · rw [← hp, hout, ← hwceq]
                exact hwalk
              · rw [← hp, hout]
                exact hwh
              · rw [← hp, hout]
                rw [hwl]
        · rw [astarLoop_expand hfo hcur hce] at hrun
          rw [touch_dget, hadj current] at hrun
          cases hrel : astarRelax h current (dget g.adjacency_list current) gs fs
              ((o :: osr).erase current) cf with
          | error err =>
            rw [hrel] at hrun
            simp at hrun
          | ok res =>
            obtain ⟨gs2, fs2, os2, cf2⟩ := res
            rw [hrel] at hrun
            have hrun2 : astarLoop h s e fuel
                ⟨gs2, fs2, os2, cf2, touch adjm current⟩ = .ok ((p, m), adjm2) :=
              hrun
            obtain ⟨gcq, hgc⟩ := inv.openG current hmemcur2
            have arinv : ARInv g h s e current gcq gs fs
                ((o :: osr).erase current) cf :=
              ⟨inv.gkeys, inv.fval, inv.gS, inv.gSound,
               fun v hv => inv.openG v (List.erase_subset _ _ hv),
               inv.openNodup.erase _,
               fun q hq => (List.mem_erase_of_ne (fun heq => hce heq.symm)).mpr
                 (inv.eOpen q hq),
               fun v q hv hnos hvc nc hnc => inv.closedRelaxed v q hv
                 (fun hvo => hnos ((List.mem_erase_of_ne hvc).mpr hvo)) nc hnc,
               inv.cfChain, inv.cfS, inv.cfCover, inv.cfAcy, hgc,
               inv.openNodup.not_mem_erase⟩
            obtain ⟨invF, _, _, _⟩ := astarRelax_inv hnn _ _ _ _ _ hrel
              (fun nw hnw => hnw) (fun nc hnc => Or.inl hnc) arinv
            exact ih gs2 fs2 os2 cf2 (touch adjm current) invF
              (fun k => by rw [touch_dget]; exact hadj k) hrun2

/-- With well-formed targets and enough fuel, the A* loop always returns. -/
theorem astarLoop_total {g : RailwayGraph} {h : String → WithTop ℚ}
    {s e : String} (hnn : NonnegWeights g) (hwf : WellFormedTargets g) :
    ∀ (fuel : Nat) (gs fs : List (String × WithTop ℚ)) (os : List String)
      (cf : List (String × String)) (adjm : AdjMap),
      AstarInv g h s e gs fs os cf →
      (∀ k, dget adjm k = dget g.adjacency_list k) →
      os.length + ((astarCands g s).map (astarRank g s gs)).sum < fuel →
      ∃ r, astarLoop h s e fuel ⟨gs, fs, os, cf, adjm⟩ = .ok r := by
  intro fuel
  induction fuel with
  | zero =>
    intro gs fs os cf adjm _ _ hphi
    omega
  | succ fuel ih =>
    intro gs fs os cf adjm inv hadj hphi
    cases os with
    | nil => exact ⟨_, astarLoop_eq_nil⟩
    | cons o osr =>
      obtain ⟨qo, hqo⟩ := inv.openG o (List.mem_cons_self _ _)
      have hfo : fs.lookup o = some (((qo : ℚ) : WithTop ℚ) + h o) :=
        inv.fval o _ hqo
      have hksfs : ∀ x ∈ osr, (fs.lookup x).isSome = true := by
        intro x hx
        obtain ⟨qx, hqx⟩ := inv.openG x (List.mem_cons_of_mem _ hx)
        rw [inv.fval x _ hqx]
        rfl
      obtain ⟨current, hcur⟩ := argminF_total osr o _ hksfs
      obtain ⟨hmemcur, _⟩ := argminF_spec osr o _ current hfo hcur
      have hmemcur2 : current ∈ o :: osr := by
        rcases hmemcur with rfl | hm
        · exact List.mem_cons_self _ _
        · exact List.mem_cons_of_mem _ hm
      by_cases hce : current = e
      · subst current
        rw [astarLoop_found hfo hcur]
        obtain ⟨qe, hqe⟩ := inv.openG e hmemcur2
        obtain ⟨path, hrec⟩ := reconstructLoop_total_of_bound (cf.length + 2) e []
          (fun l hl => chain_length_bound inv.cfAcy l e hl)
        rw [hrec]
        refine ⟨((path, ((qe : ℚ) : WithTop ℚ)), adjm), ?_⟩
        show (match gs.lookup e with
          | none => (Except.error (PyErr.keyError e) :
              Except PyErr ((List String × WithTop ℚ) × AdjMap))
          | some ge => Except.ok ((path, ge), adjm)) =
            Except.ok ((path, ((qe : ℚ) : WithTop ℚ)), adjm)
        rw [hqe]
      · rw [astarLoop_expand hfo hcur hce, touch_dget, hadj current]
        obtain ⟨gcq, hgc⟩ := inv.openG current hmemcur2
        have hkscur : (gs.lookup current).isSome = true := by
          rw [hgc]
          rfl
        have hksns : ∀ nw ∈ dget g.adjacency_list current,
            (gs.lookup nw.1).isSome = true := by
          intro nw hm
          have hst : hasKey g.stations nw.1 = true := by
            obtain ⟨nv, nc⟩ := nw
            exact wellformed_of_edge hwf hm
          exact (inv.gkeys nw.1).mpr (Or.inl hst)
        obtain ⟨r0, hrel⟩ := astarRelax_total (dget g.adjacency_list current)
          gs fs ((o :: osr).erase current) cf hkscur hksns
        obtain ⟨gs2, fs2, os2, cf2⟩ := r0
        rw [hrel]
        have arinv : ARInv g h s e current gcq gs fs
            ((o :: osr).erase current) cf :=
          ⟨inv.gkeys, inv.fval, inv.gS, inv.gSound,
           fun v hv => inv.openG v (List.erase_subset _ _ hv),
           inv.openNodup.erase _,
           fun q hq => (List.mem_erase_of_ne (fun heq => hce heq.symm)).mpr
             (inv.eOpen q hq),
           fun v q hv hnos hvc nc hnc => inv.closedRelaxed v q hv
             (fun hvo => hnos ((List.mem_erase_of_ne hvc).mpr hvo)) nc hnc,
           inv.cfChain, inv.cfS, inv.cfCover, inv.cfAcy, hgc,
           inv.openNodup.not_mem_erase⟩
        obtain ⟨invF, _, _, hphi2⟩ := astarRelax_inv hnn _ _ _ _ _ hrel
          (fun nw hnw => hnw) (fun nc hnc => Or.inl hnc) arinv
        apply ih gs2 fs2 os2 cf2 (touch adjm current) invF
          (fun k => by rw [touch_dget]; exact hadj k)
        have hel : ((o :: osr).erase current).length + 1 = (o :: osr).length :=
          by
          rw [List.length_erase_of_mem hmemcur2]
          simp
        simp only [List.length_cons] at hel hphi
        omega

/-- The invariant holds at the start of the A* loop. -/
theorem astar_initial_inv (g : RailwayGraph) (h : String → WithTop ℚ)
    (s e : String) (hse : s ≠ e) :
    AstarInv g h s e
      (upsert (g.stations.map (fun p => (p.1, (⊤ : WithTop ℚ)))) s 0)
      (upsert (g.stations.map (fun p => (p.1, (⊤ : WithTop ℚ)))) s (h s))
      [s] [] := by
  have hlook : ∀ k, (upsert (g.stations.map (fun p => (p.1, (⊤ : WithTop ℚ)))) s
      0).lookup k = if k = s then some ((0 : ℚ) : WithTop ℚ)
        else (g.stations.lookup k).map (fun _ => (⊤ : WithTop ℚ)) := by
    intro k
    rw [upsert_lookup_cases, lookup_map_top]
    rfl
  have hlookf : ∀ k, (upsert (g.stations.map (fun p => (p.1, (⊤ : WithTop ℚ)))) s
      (h s)).lookup k = if k = s then some (h s)
        else (g.stations.lookup k).map (fun _ => (⊤ : WithTop ℚ)) := by
    intro k
    rw [upsert_lookup_cases, lookup_map_top]
  refine ⟨?_, ?_, ?_, ?_, ?_, List.nodup_singleton s, ?_, ?_, ?_,
    by simp [List.lookup], ?_, ?_⟩
  · intro k
    rw [hlook k]
    by_cases hk : k = s
    · simp [hk]
    · simp only [if_neg hk]
      cases g.stations.lookup k <;> simp [hk]
  · intro v d hd
    rw [hlook v] at hd
    rw [hlookf v]
    by_cases hv : v = s
    · rw [if_pos hv] at hd ⊢
      rw [← Option.some.inj hd, hv]
      rw [show ((0 : ℚ) : WithTop ℚ) + h s = h s from zero_add _]
    · rw [if_neg hv] at hd ⊢
      cases hst : g.stations.lookup v with
      | none =>
        rw [hst] at hd
        simp at hd
      | some si =>
        rw [hst] at hd
        simp only [Option.map_some'] at hd ⊢
        rw [← Option.some.inj hd]
        rw [top_add]
  · rw [hlook s, if_pos rfl]
  · intro v q hq
    rw [hlook v] at hq
    by_cases hv : v = s
    · rw [if_pos hv] at hq
      have hq0 : q = 0 := by exact_mod_cast (Option.some.inj hq).symm
      subst hq0
      refine ⟨[s], List.nodup_singleton s, ?_, rfl, by rw [hv]; simp⟩
      refine MWalk.single 0 s ((0 : ℚ) : WithTop ℚ) ?_ (le_refl _)
      rw [hlook s, if_pos rfl]
    · rw [if_neg hv] at hq
      cases g.stations.lookup v with
      | none => simp at hq
      | some _ => simp at hq
  · intro v hv
    rcases List.mem_singleton.mp hv with rfl
    refine ⟨0, ?_⟩
    rw [hlook v, if_pos rfl]
  · intro q hq
    rw [hlook e, if_neg (fun heq => hse heq.symm)] at hq
    cases g.stations.lookup e with
    | none => simp at hq
    | some _ => simp at hq
  · intro v q hv hnos nc hnc
    exfalso
    rw [hlook v] at hv
    by_cases hvs : v = s
    · exact hnos (hvs ▸ List.mem_singleton.mpr rfl)
    · rw [if_neg hvs] at hv
      cases g.stations.lookup v with
      | none => simp at hv
      | some _ => simp at hv
  · intro v u hvu
    simp [List.lookup] at hvu
  · intro v q hv hvs
    exfalso
    rw [hlook v, if_neg hvs] at hv
    cases g.stations.lookup v with
    | none => simp at hv
    | some _ => simp at hv
  · intro a l hch hlne _
    cases l with
    | nil => exact hlne rfl
    | cons b rest =>
      have := hch.1
      simp [List.lookup] at this

/-- Top-level A* specification: guards, empty results, and non-empty
results with their optimality, for any admissible non-negative heuristic. -/
theorem a_star_run_spec {g : RailwayGraph} {h : String → WithTop ℚ}
    {s e : String} {p : List String} {m : WithTop ℚ} {g2 : RailwayGraph}
    (hnn : NonnegWeights g) (hadm : Admissible g h e) (hh0 : HNonneg h)
    (hrun : g.a_star_run h s e = .ok ((p, m), g2)) :
    (p = [] → m = 0 ∧
      ((hasKey g.adjacency_list s = false ∨ hasKey g.stations e = false) ∨
        ∀ pw (w : ℚ), WalkOn g pw w → pw.head? = some s →
          pw.getLast? = some e → False)) ∧
    (p ≠ [] → ∃ q : ℚ, m = ((q : ℚ) : WithTop ℚ) ∧ WalkOn g p q ∧
      p.head? = some s ∧ p.getLast? = some e ∧ IsMinDist g s e q) := by
  unfold RailwayGraph.a_star_run at hrun
  by_cases hguard : hasKey g.adjacency_list s = false ∨ hasKey g.stations e = false
  · rw [if_pos hguard] at hrun
    simp only [Except.ok.injEq, Prod.mk.injEq] at hrun
    obtain ⟨⟨hp, hm⟩, _⟩ := hrun
    constructor
    · intro _
      exact ⟨hm.symm, Or.inl hguard⟩
    · intro hne
      exact absurd hp.symm hne
  · rw [if_neg hguard] at hrun
    by_cases hse : s = e
    · rw [if_pos hse] at hrun
      simp only [Except.ok.injEq, Prod.mk.injEq] at hrun
      obtain ⟨⟨hp, hm⟩, _⟩ := hrun
      constructor
      · intro hpe
        rw [← hp] at hpe
        simp at hpe
      · intro _
        refine ⟨0, hm.symm, ?_, ?_, ?_, ?_⟩
        · rw [← hp]
          exact WalkOn.single s
        · rw [← hp]
          rfl
        · rw [← hp, hse]
          rfl
        · exact ⟨⟨[s], WalkOn.single s, rfl, by rw [hse]; rfl⟩,
            fun pw w hw _ _ => walk_nonneg hnn hw⟩
    · rw [if_neg hse] at hrun
      have hrun2 : (match astarLoop h s e (astarFuel g s)
            ⟨upsert (g.stations.map (fun p => (p.1, (⊤ : WithTop ℚ)))) s 0,
              upsert (g.stations.map (fun p => (p.1, (⊤ : WithTop ℚ)))) s (h s),
              [s], [], g.adjacency_list⟩ with
          | .ok (r, adjm) => .ok (r, { g with adjacency_list := adjm })
          | .error err => .error err) = Except.ok ((p, m), g2) := hrun
      cases hloop : astarLoop h s e (astarFuel g s)
          ⟨upsert (g.stations.map (fun p => (p.1, (⊤ : WithTop ℚ)))) s 0,
            upsert (g.stations.map (fun p => (p.1, (⊤ : WithTop ℚ)))) s (h s),
            [s], [], g.adjacency_list⟩ with
      | error err =>
        rw [hloop] at hrun2
        simp at hrun2
      | ok res =>
        obtain ⟨⟨p', m'⟩, adjm'⟩ := res
        rw [hloop] at hrun2
        simp only [Except.ok.injEq, Prod.mk.injEq] at hrun2
        obtain ⟨⟨hp, hm⟩, _⟩ := hrun2
        subst hp
        subst hm
        have hres := astarLoop_correct hnn hadm hh0 (astarFuel g s) _ _ _ _ _
          (astar_initial_inv g h s e hse) (fun k => rfl) hloop
        exact ⟨fun hpe => ⟨(hres.1 hpe).1, Or.inr (hres.1 hpe).2⟩, hres.2⟩

/-- Under non-negative weights and well-formed edge targets, `a_star_run`
always returns a value. -/
theorem a_star_run_total (g : RailwayGraph) (h : String → WithTop ℚ)
    (s e : String) (hnn : NonnegWeights g) (hwf : WellFormedTargets g) :
    ∃ r, g.a_star_run h s e = .ok r := by
  unfold RailwayGraph.a_star_run
  by_cases hguard : hasKey g.adjacency_list s = false ∨ hasKey g.stations e = false
  · rw [if_pos hguard]
    exact ⟨_, rfl⟩
  · rw [if_neg hguard]
    by_cases hse : s = e
    · rw [if_pos hse]
      exact ⟨_, rfl⟩
    · rw [if_neg hse]
      have hphi0 : (1 : Nat) + ((astarCands g s).map (astarRank g s
          (upsert (g.stations.map (fun p => (p.1, (⊤ : WithTop ℚ)))) s 0))).sum <
          astarFuel g s := by
        have hrle : ∀ v ∈ astarCands g s, astarRank g s
            (upsert (g.stations.map (fun p => (p.1, (⊤ : WithTop ℚ)))) s 0) v ≤
            (simpleWeightsTo g.adjacency_list s v).length := by
          intro v _
          unfold astarRank
          exact List.length_filter_le _ _
        have hsum : ((astarCands g s).map (astarRank g s
            (upsert (g.stations.map (fun p => (p.1, (⊤ : WithTop ℚ)))) s 0))).sum ≤
            ((astarCands g s).map
              (fun v => (simpleWeightsTo g.adjacency_list s v).length)).sum :=
          List.sum_le_sum hrle
        have hsum2 : (((s :: g.stations.map Prod.fst).dedup).map (astarRank g s
            (upsert (g.stations.map (fun p => (p.1, (⊤ : WithTop ℚ)))) s 0))).sum ≤
            (((s :: g.stations.map Prod.fst).dedup).map
              (fun v => (simpleWeightsTo g.adjacency_list s v).length)).sum := hsum
        unfold astarFuel
        unfold astarCands
        omega
      obtain ⟨r, hr⟩ := astarLoop_total hnn hwf (astarFuel g s)
        (upsert (g.stations.map (fun p => (p.1, (⊤ : WithTop ℚ)))) s 0)
        (upsert (g.stations.map (fun p => (p.1, (⊤ : WithTop ℚ)))) s (h s))
        [s] [] g.adjacency_list (astar_initial_inv g h s e hse)
        (fun k => rfl) (by simpa using hphi0)
      obtain ⟨r1, adjm⟩ := r
      show ∃ r2, (match astarLoop h s e (astarFuel g s)
          ⟨upsert (g.stations.map (fun p => (p.1, (⊤ : WithTop ℚ)))) s 0,
            upsert (g.stations.map (fun p => (p.1, (⊤ : WithTop ℚ)))) s (h s),
            [s], [], g.adjacency_list⟩ with
        | .ok (r, adjm) => .ok (r, { g with adjacency_list := adjm })
        | .error err => .error err) = Except.ok r2
      rw [hr]
      exact ⟨_, rfl⟩

/-! ### Store mutation and query determinism -/

theorem touch_hasKey_mono {m : AdjMap} {k : String} (k' : String)
    (h : hasKey m k = true) : hasKey (touch m k') k = true := by
  unfold touch
  split
  · exact h
  · unfold hasKey at h ⊢
    rw [List.lookup_append]
    cases hl : m.lookup k with
    | some v => simp
    | none =>
      rw [hl] at h
      simp at h

theorem touch_totalAdjSize (m : AdjMap) (k : String) :
    totalAdjSize (touch m k) = totalAdjSize m := by
  unfold touch
  split
  · rfl
  · unfold totalAdjSize
    rw [List.map_append, List.sum_append]
    simp

theorem touch_targetsOf (m : AdjMap) (k : String) :
    targetsOf (touch m k) = targetsOf m := by
  unfold touch
  split
  · rfl
  · unfold targetsOf
    rw [List.map_append, List.flatten_append]
    simp

/-- The BFS loop only vivifies adjacency keys. -/
theorem bfsLoop_mutation {e : String} :
    ∀ (fuel : Nat) (queue : List (String × List String)) (visited : List String)
      (adjm : AdjMap) {r : List String × Nat} {adjm2 : AdjMap},
      bfsLoop e fuel queue visited adjm = .ok (r, adjm2) →
      (∀ k, dget adjm2 k = dget adjm k) ∧
      (∀ k, hasKey adjm k = true → hasKey adjm2 k = true) ∧
      totalAdjSize adjm2 = totalAdjSize adjm ∧
      targetsOf adjm2 = targetsOf adjm := by
  intro fuel
  induction fuel with
  | zero =>
    intro queue visited adjm r adjm2 hrun
    simp [bfsLoop] at hrun
  | succ fuel ih =>
    intro queue visited adjm r adjm2 hrun
    cases queue with
    | nil =>
      have hrun2 : (Except.ok (([], 0), adjm) :
          Except PyErr ((List String × Nat) × AdjMap)) = .ok (r, adjm2) := hrun
      simp only [Except.ok.injEq, Prod.mk.injEq] at hrun2
      rw [← hrun2.2]
      exact ⟨fun k => rfl, fun k hk => hk, rfl, rfl⟩
    | cons cp rest =>
      obtain ⟨current, path⟩ := cp
      have hrun2 : (match bfsScan e path (dget (touch adjm current) current)
            visited [] with
          | (some found, _, _) =>
            (Except.ok ((found, found.length - 1), touch adjm current) :
              Except PyErr ((List String × Nat) × AdjMap))
          | (none, visited', fresh) =>
            bfsLoop e fuel (rest ++ fresh) visited' (touch adjm current)) =
          .ok (r, adjm2) := hrun
      cases hscan : bfsScan e path (dget (touch adjm current) current) visited []
          with
      | mk fnd vf =>
        obtain ⟨visited', fresh⟩ := vf
        rw [hscan] at hrun2
        cases fnd with
        | some found =>
          simp only [Except.ok.injEq, Prod.mk.injEq] at hrun2
          rw [← hrun2.2]
          exact ⟨fun k => touch_dget _ _ _, fun k => touch_hasKey_mono _,
            touch_totalAdjSize _ _, touch_targetsOf _ _⟩
        | none =>
          obtain ⟨h1, h2, h3, h4⟩ := ih (rest ++ fresh) visited'
            (touch adjm current) hrun2
          refine ⟨fun k => by rw [h1 k, touch_dget],
            fun k hk => h2 k (touch_hasKey_mono _ hk), ?_, ?_⟩
          · rw [h3, touch_totalAdjSize]
          · rw [h4, touch_targetsOf]

/-- The BFS loop's visible result depends on the adjacency only through
its values. -/
theorem bfsLoop_congr {e : String} :
    ∀ (fuel : Nat) (queue : List (String × List String)) (visited : List String)
      (adjmA adjmB : AdjMap), (∀ k, dget adjmA k = dget adjmB k) →
      (bfsLoop e fuel queue visited adjmA).map (fun x => x.1) =
        (bfsLoop e fuel queue visited adjmB).map (fun x => x.1) := by
  intro fuel
  induction fuel with
  | zero =>
    intro queue visited adjmA adjmB _
    rfl
  | succ fuel ih =>
    intro queue visited adjmA adjmB heq
    cases queue with
    | nil => rfl
    | cons cp rest =>
      obtain ⟨current, path⟩ := cp
      have hl : dget (touch adjmA current) current =
          dget (touch adjmB current) current := by
        rw [touch_dget, touch_dget]
        exact heq current
      show (match bfsScan e path (dget (touch adjmA current) current) visited []
          with
        | (some found, _, _) =>
          (Except.ok ((found, found.length - 1), touch adjmA current) :
            Except PyErr ((List String × Nat) × AdjMap))
        | (none, visited', fresh) =>
          bfsLoop e fuel (rest ++ fresh) visited' (touch adjmA current)).map
          (fun x : (List String × Nat) × AdjMap => x.1) =
        (match bfsScan e path (dget (touch adjmB current) current) visited []
          with
        | (some found, _, _) =>
          (Except.ok ((found, found.length - 1), touch adjmB current) :
            Except PyErr ((List String × Nat) × AdjMap))
        | (none, visited', fresh) =>
          bfsLoop e fuel (rest ++ fresh) visited' (touch adjmB current)).map
          (fun x : (List String × Nat) × AdjMap => x.1)
      rw [hl]
      cases hscan : bfsScan e path (dget (touch adjmB current) current) visited []
          with
      | mk fnd vf =>
        obtain ⟨visited', fresh⟩ := vf
        cases fnd with
        | some found => rfl
        | none =>
          exact ih (rest ++ fresh) visited' (touch adjmA current)
            (touch adjmB current)
            (fun k => by rw [touch_dget, touch_dget]; exact heq k)

/-- The Dijkstra loop only vivifies adjacency keys. -/
theorem dijkstraLoop_mutation {s e : String} :
    ∀ (fuel : Nat) (st : DijState) {r : List String × WithTop ℚ}
      {adjm2 : AdjMap},
      dijkstraLoop s e fuel st = .ok (r, adjm2) →
      (∀ k, dget adjm2 k = dget st.adjm k) ∧
      (∀ k, hasKey st.adjm k = true → hasKey adjm2 k = true) ∧
      totalAdjSize adjm2 = totalAdjSize st.adjm ∧
      targetsOf adjm2 = targetsOf st.adjm := by
  intro fuel
  induction fuel with
  | zero =>
    intro st r adjm2 hrun
    simp [dijkstraLoop] at hrun
  | succ fuel ih =>
    intro st r adjm2 hrun
    cases hpop : heappop st.pq with
    | none =>
      rw [dijkstraLoop_pop_none hpop] at hrun
      simp only [Except.ok.injEq, Prod.mk.injEq] at hrun
      rw [← hrun.2]
      exact ⟨fun k => rfl, fun k hk => hk, rfl, rfl⟩
    | some x =>
      obtain ⟨⟨d, current⟩, pq'⟩ := x
      rw [dijkstraLoop_pop_some hpop] at hrun
      by_cases hvc : current ∈ st.visited
      · rw [if_pos hvc] at hrun
        exact ih { st with pq := pq' } hrun
      · rw [if_neg hvc] at hrun
        by_cases hce : current = e
        · rw [if_pos hce] at hrun
          cases hrec : reconstructLoop st.previous s (st.visited.length + 2)
              current [] with
          | error err =>
            rw [hrec] at hrun
            simp at hrun
          | ok path =>
            rw [hrec] at hrun
            have hrun2 : (match st.distances.lookup e with
                | none => (Except.error (PyErr.keyError e) :
                    Except PyErr ((List String × WithTop ℚ) × AdjMap))
                | some de => Except.ok ((path, de), st.adjm)) =
                .ok (r, adjm2) := hrun
            cases hde : st.distances.lookup e with
            | none =>
              rw [hde] at hrun2
              simp at hrun2
            | some de =>
              rw [hde] at hrun2
              simp only [Except.ok.injEq, Prod.mk.injEq] at hrun2
              rw [← hrun2.2]
              exact ⟨fun k => rfl, fun k hk => hk, rfl, rfl⟩
        · rw [if_neg hce] at hrun
          cases hdc : st.distances.lookup current with
          | none =>
            rw [hdc] at hrun
            simp at hrun
          | some dc =>
            rw [hdc] at hrun
            have hrun2 : (if dc < ((d : ℚ) : WithTop ℚ) then
                dijkstraLoop s e fuel
                  { st with pq := pq', visited := st.visited ++ [current] }
              else
                match relaxNeighbors current d
                    (dget (touch st.adjm current) current) st.distances
                    st.previous pq' with
                | .error err => .error err
                | .ok (dist', prev', pq'') =>
                  dijkstraLoop s e fuel
                    ⟨dist', prev', pq'', st.visited ++ [current],
                      touch st.adjm current⟩) = .ok (r, adjm2) := hrun
            by_cases hstale : dc < ((d : ℚ) : WithTop ℚ)
            · rw [if_pos hstale] at hrun2
              exact ih { st with pq := pq', visited := st.visited ++ [current] }
                hrun2
            · rw [if_neg hstale] at hrun2
              cases hrel : relaxNeighbors current d
                  (dget (touch st.adjm current) current) st.distances
                  st.previous pq' with
              | error err =>
                rw [hrel] at hrun2
                simp at hrun2
              | ok res =>
                obtain ⟨dist', prev', pq''⟩ := res
                rw [hrel] at hrun2
                obtain ⟨h1, h2, h3, h4⟩ := ih ⟨dist', prev', pq'',
                  st.visited ++ [current], touch st.adjm current⟩ hrun2
                refine ⟨fun k => by rw [h1 k]; exact touch_dget _ _ _,
                  fun k hk => h2 k (touch_hasKey_mono _ hk), ?_, ?_⟩
                · rw [h3]
                  exact touch_totalAdjSize _ _
                · rw [h4]
                  exact touch_targetsOf _ _

theorem dijkstraLoop_lookup_non {s e : String} {fuel : Nat} {st : DijState}
    {d : ℚ} {current : String} {pq' : List (ℚ × String)}
    (hpop : heappop st.pq = some ((d, current), pq'))
    (hvc : current ∉ st.visited) (hce : current ≠ e)
    (hdc : st.distances.lookup current = none) :
    dijkstraLoop s e (fuel+1) st = .error (.keyError current) := by
  rw [dijkstraLoop_pop_some hpop, if_neg hvc, if_neg hce, hdc]

theorem dijkstraLoop_lookup_some {s e : String} {fuel : Nat} {st : DijState}
    {d : ℚ} {current : String} {pq' : List (ℚ × String)} {dc : WithTop ℚ}
    (hpop : heappop st.pq = some ((d, current), pq'))
    (hvc : current ∉ st.visited) (hce : current ≠ e)
    (hdc : st.distances.lookup current = some dc) :
    dijkstraLoop s e (fuel+1) st =
      (if dc < ((d : ℚ) : WithTop ℚ) then
        dijkstraLoop s e fuel
          { st with pq := pq', visited := st.visited ++ [current] }
      else
        match relaxNeighbors current d (dget (touch st.adjm current) current)
            st.distances st.previous pq' with
        | .error err => .error err
        | .ok (dist', prev', pq'') =>
          dijkstraLoop s e fuel
            ⟨dist', prev', pq'', st.visited ++ [current],
              touch st.adjm current⟩) := by
  rw [dijkstraLoop_pop_some hpop, if_neg hvc, if_neg hce, hdc]

/-- The Dijkstra loop's visible result depends on the adjacency only through
its values. -/
theorem dijkstraLoop_congr {s e : String} :
    ∀ (fuel : Nat) (dist : List (String × WithTop ℚ))
      (prev : List (String × String)) (pq : List (ℚ × String))
      (visited : List String) (adjmA adjmB : AdjMap),
      (∀ k, dget adjmA k = dget adjmB k) →
      (dijkstraLoop s e fuel ⟨dist, prev, pq, visited, adjmA⟩).map
        (fun x => x.1) =
      (dijkstraLoop s e fuel ⟨dist, prev, pq, visited, adjmB⟩).map
        (fun x => x.1) := by
  intro fuel
  induction fuel with
  | zero =>
    intro dist prev pq visited adjmA adjmB _
    rfl
  | succ fuel ih =>
    intro dist prev pq visited adjmA adjmB heq
    cases hpop : heappop pq with
    | none =>
      rw [@dijkstraLoop_pop_none s e fuel ⟨dist, prev, pq, visited, adjmA⟩ hpop,
          @dijkstraLoop_pop_none s e fuel ⟨dist, prev, pq, visited, adjmB⟩ hpop]
      rfl
    | some x =>
      obtain ⟨⟨d, current⟩, pq'⟩ := x
      by_cases hvc : current ∈ visited
      · rw [@dijkstraLoop_pop_some s e fuel ⟨dist, prev, pq, visited, adjmA⟩ d current pq' hpop,
            @dijkstraLoop_pop_some s e fuel ⟨dist, prev, pq, visited, adjmB⟩ d current pq' hpop,
            if_pos hvc, if_pos hvc]
        exact ih dist prev pq' visited adjmA adjmB heq
      · by_cases hce : current = e
        · rw [@dijkstraLoop_pop_some s e fuel ⟨dist, prev, pq, visited, adjmA⟩ d current pq' hpop,
              @dijkstraLoop_pop_some s e fuel ⟨dist, prev, pq, visited, adjmB⟩ d current pq' hpop,
              if_neg hvc, if_neg hvc, if_pos hce, if_pos hce]
          cases reconstructLoop prev s (visited.length + 2) current [] with
          | error err => rfl
          | ok path =>
            cases dist.lookup e with
            | none => rfl
            | some de => rfl
        · cases hdc : dist.lookup current with
          | none =>
            rw [@dijkstraLoop_lookup_non s e fuel ⟨dist, prev, pq, visited, adjmA⟩
                  d current pq' hpop hvc hce hdc,
                @dijkstraLoop_lookup_non s e fuel ⟨dist, prev, pq, visited, adjmB⟩
                  d current pq' hpop hvc hce hdc]
          | some dc =>
            rw [@dijkstraLoop_lookup_some s e fuel ⟨dist, prev, pq, visited, adjmA⟩
                  d current pq' dc hpop hvc hce hdc,
                @dijkstraLoop_lookup_some s e fuel ⟨dist, prev, pq, visited, adjmB⟩
                  d current pq' dc hpop hvc hce hdc]
            by_cases hstale : dc < ((d : ℚ) : WithTop ℚ)
            · rw [if_pos hstale, if_pos hstale]
              exact ih dist prev pq' (visited ++ [current]) adjmA adjmB heq
            · rw [if_neg hstale, if_neg hstale]
              have hl : dget (touch adjmA current) current =
                  dget (touch adjmB current) current := by
                rw [touch_dget, touch_dget]
                exact heq current
              rw [hl]
              cases relaxNeighbors current d (dget (touch adjmB current) current)
                  dist prev pq' with
              | error err => rfl
              | ok res =>
                obtain ⟨dist', prev', pq''⟩ := res
                exact ih dist' prev' pq'' (visited ++ [current])
                  (touch adjmA current) (touch adjmB current)
                  (fun k => by rw [touch_dget, touch_dget]; exact heq k)

/-- The A* loop only vivifies adjacency keys. -/
theorem astarLoop_mutation {h : String → WithTop ℚ} {s e : String} :
    ∀ (fuel : Nat) (gs fs : List (String × WithTop ℚ)) (os : List String)
      (cf : List (String × String)) (adjm : AdjMap)
      {r : List String × WithTop ℚ} {adjm2 : AdjMap},
      astarLoop h s e fuel ⟨gs, fs, os, cf, adjm⟩ = .ok (r, adjm2) →
      (∀ k, dget adjm2 k = dget adjm k) ∧
      (∀ k, hasKey adjm k = true → hasKey adjm2 k = true) ∧
      totalAdjSize adjm2 = totalAdjSize adjm ∧
      targetsOf adjm2 = targetsOf adjm := by
  intro fuel
  induction fuel with
  | zero =>
    intro gs fs os cf adjm r adjm2 hrun
    simp [astarLoop] at hrun
  | succ fuel ih =>
    intro gs fs os cf adjm r adjm2 hrun
    cases os with
    | nil =>
      rw [astarLoop_eq_nil] at hrun
      simp only [Except.ok.injEq, Prod.mk.injEq] at hrun
      rw [← hrun.2]
      exact ⟨fun k => rfl, fun k hk => hk, rfl, rfl⟩
    | cons o osr =>
      rw [astarLoop_eq_cons] at hrun
      cases hfo : fs.lookup o with
      | none =>
        rw [hfo] at hrun
        simp at hrun
      | some fo =>
        rw [hfo] at hrun
        have hrun2 : (match argminFAux fs o fo osr with
            | .error err => (.error err :
                Except PyErr ((List String × WithTop ℚ) × AdjMap))
            | .ok current =>
              if current = e then
                match reconstructLoop cf s (cf.length + 2) current [] with
                | .error err => .error err
                | .ok path =>
                  match gs.lookup e with
                  | none => .error (.keyError e)
                  | some ge => .ok ((path, ge), adjm)
              else
                match astarRelax h current (dget (touch adjm current) current)
                    gs fs ((o :: osr).erase current) cf with
                | .error err => .error err
                | .ok (gs2, fs2, os2, cf2) =>
                  astarLoop h s e fuel ⟨gs2, fs2, os2, cf2, touch adjm current⟩)
            = .ok (r, adjm2) := hrun
        cases hcur : argminFAux fs o fo osr with
        | error err =>
          rw [hcur] at hrun2
          simp at hrun2
        | ok current =>
          rw [hcur] at hrun2
          have hrun3 : (if current = e then
              match reconstructLoop cf s (cf.length + 2) current [] with
              | .error err => (.error err :
                  Except PyErr ((List String × WithTop ℚ) × AdjMap))
              | .ok path =>
                match gs.lookup e with
                | none => .error (.keyError e)
                | some ge => .ok ((path, ge), adjm)
            else
              match astarRelax h current (dget (touch adjm current) current)
                  gs fs ((o :: osr).erase current) cf with
              | .error err => .error err
              | .ok (gs2, fs2, os2, cf2) =>
                astarLoop h s e fuel ⟨gs2, fs2, os2, cf2, touch adjm current⟩)
              = .ok (r, adjm2) := hrun2
          by_cases hce : current = e
          · rw [if_pos hce] at hrun3
            cases hrec : reconstructLoop cf s (cf.length + 2) current [] with
            | error err =>
              rw [hrec] at hrun3
              simp at hrun3
            | ok path =>
              rw [hrec] at hrun3
              have hrun4 : (match gs.lookup e with
                  | none => (Except.error (PyErr.keyError e) :
                      Except PyErr ((List String × WithTop ℚ) × AdjMap))
                  | some ge => Except.ok ((path, ge), adjm)) =
                  .ok (r, adjm2) := hrun3
              cases hge : gs.lookup e with
              | none =>
                rw [hge] at hrun4
                simp at hrun4
              | some ge =>
                rw [hge] at hrun4
                simp only [Except.ok.injEq, Prod.mk.injEq] at hrun4
                rw [← hrun4.2]
                exact ⟨fun k => rfl, fun k hk => hk, rfl, rfl⟩
          · rw [if_neg hce] at hrun3
            cases hrel : astarRelax h current (dget (touch adjm current) current)
                gs fs ((o :: osr).erase current) cf with
            | error err =>
              rw [hrel] at hrun3
              simp at hrun3
            | ok res =>
              obtain ⟨gs2, fs2, os2, cf2⟩ := res
              rw [hrel] at hrun3
              obtain ⟨h1, h2, h3, h4⟩ := ih gs2 fs2 os2 cf2
                (touch adjm current) hrun3
              refine ⟨fun k => by rw [h1 k]; exact touch_dget _ _ _,
                fun k hk => h2 k (touch_hasKey_mono _ hk), ?_, ?_⟩
              · rw [h3]
                exact touch_totalAdjSize _ _
              · rw [h4]
                exact touch_targetsOf _ _

/-- The A* loop's visible result depends on the adjacency only through its
values. -/
theorem astarLoop_congr {h : String → WithTop ℚ} {s e : String} :
    ∀ (fuel : Nat) (gs fs : List (String × WithTop ℚ)) (os : List String)
      (cf : List (String × String)) (adjmA adjmB : AdjMap),
      (∀ k, dget adjmA k = dget adjmB k) →
      (astarLoop h s e fuel ⟨gs, fs, os, cf, adjmA⟩).map (fun x => x.1) =
        (astarLoop h s e fuel ⟨gs, fs, os, cf, adjmB⟩).map (fun x => x.1) := by
  intro fuel
  induction fuel with
  | zero =>
    intro gs fs os cf adjmA adjmB _
    rfl
  | succ fuel ih =>
    intro gs fs os cf adjmA adjmB heq
    cases os with
    | nil => rfl
    | cons o osr =>
      cases hfo : fs.lookup o with
      | none =>
        rw [astarLoop_eq_cons, astarLoop_eq_cons, hfo]
      | some fo =>
        cases hcur : argminFAux fs o fo osr with
        | error err =>
          rw [astarLoop_eq_cons, astarLoop_eq_cons, hfo]
          show ((match argminFAux fs o fo osr with
            | .error err => (.error err :
                Except PyErr ((List String × WithTop ℚ) × AdjMap))
            | .ok current =>
              if current = e then
                match reconstructLoop cf s (cf.length + 2) current [] with
                | .error err => .error err
                | .ok path =>
                  match gs.lookup e with
                  | none => .error (.keyError e)
                  | some ge => .ok ((path, ge), adjmA)
              else
                match astarRelax h current (dget (touch adjmA current) current)
                    gs fs ((o :: osr).erase current) cf with
                | .error err => .error err
                | .ok (gs2, fs2, os2, cf2) =>
                  astarLoop h s e fuel
                    ⟨gs2, fs2, os2, cf2, touch adjmA current⟩).map
              (fun x : (List String × WithTop ℚ) × AdjMap => x.1)) =
            ((match argminFAux fs o fo osr with
            | .error err => (.error err :
                Except PyErr ((List String × WithTop ℚ) × AdjMap))
            | .ok current =>
              if current = e then
                match reconstructLoop cf s (cf.length + 2) current [] with
                | .error err => .error err
                | .ok path =>
                  match gs.lookup e with
                  | none => .error (.keyError e)
                  | some ge => .ok ((path, ge), adjmB)
              else
                match astarRelax h current (dget (touch adjmB current) current)
                    gs fs ((o :: osr).erase current) cf with
                | .error err => .error err
                | .ok (gs2, fs2, os2, cf2) =>
                  astarLoop h s e fuel
                    ⟨gs2, fs2, os2, cf2, touch adjmB current⟩).map
              (fun x : (List String × WithTop ℚ) × AdjMap => x.1))
          rw [hcur]
        | ok current =>
          by_cases hce : current = e
          · subst hce
            rw [astarLoop_found hfo hcur, astarLoop_found hfo hcur]
            cases reconstructLoop cf s (cf.length + 2) current [] with
            | error err => rfl
            | ok path =>
              cases gs.lookup current with
              | none => rfl
              | some ge => rfl
          · rw [astarLoop_expand hfo hcur hce, astarLoop_expand hfo hcur hce]
            have hl : dget (touch adjmA current) current =
                dget (touch adjmB current) current := by
              rw [touch_dget, touch_dget]
              exact heq current
            rw [hl]
            cases astarRelax h current (dget (touch adjmB current) current)
                gs fs ((o :: osr).erase current) cf with
            | error err => rfl
            | ok res =>
              obtain ⟨gs2, fs2, os2, cf2⟩ := res
              exact ih gs2 fs2 os2 cf2 (touch adjmA current)
                (touch adjmB current)
                (fun k => by rw [touch_dget, touch_dget]; exact heq k)

/-- Reference form of the itinerary: one record per known station, in path
order, steps counted over the full path, the leg distance taken from the
first matching adjacency entry of the station and absent for the final
position or when no entry matches. -/
def detailsSpec (stations : List (String × StationInfo)) (adj : AdjMap) :
    List String → Nat → List RouteDetail
  | [], _ => []
  | code :: rest, i =>
    match stations.lookup code with
    | none => detailsSpec stations adj rest (i+1)
    | some info =>
      ⟨i+1, code, info.name, info.city,
        match rest with
        | [] => none
        | nxt :: _ => firstDistTo (dget adj code) nxt⟩ ::
        detailsSpec stations adj rest (i+1)

theorem routeDetailsLoop_nil (stations : List (String × StationInfo))
    (i : Nat) (adjm : AdjMap) (acc : List RouteDetail) :
    routeDetailsLoop stations [] i adjm acc = (acc, adjm) := rfl

theorem routeDetailsLoop_skip {stations : List (String × StationInfo)}
    {code : String} (rest : List String) (i : Nat) (adjm : AdjMap)
    (acc : List RouteDetail) (hinfo : stations.lookup code = none) :
    routeDetailsLoop stations (code :: rest) i adjm acc =
      routeDetailsLoop stations rest (i+1) adjm acc := by
  cases rest with
  | nil =>
    rw [show routeDetailsLoop stations [code] i adjm acc =
      (match stations.lookup code with
       | none => routeDetailsLoop stations [] (i+1) adjm acc
       | some info =>
         (acc ++ [(⟨i+1, code, info.name, info.city, none⟩ : RouteDetail)],
           adjm)) from rfl, hinfo]
  | cons nxt rest' =>
    rw [show routeDetailsLoop stations (code :: nxt :: rest') i adjm acc =
      (match stations.lookup code with
       | none => routeDetailsLoop stations (nxt :: rest') (i+1) adjm acc
       | some info =>
         routeDetailsLoop stations (nxt :: rest') (i+1) (touch adjm code)
           (acc ++ [(⟨i+1, code, info.name, info.city,
             firstDistTo (dget (touch adjm code) code) nxt⟩ : RouteDetail)]))
      from rfl, hinfo]

theorem routeDetailsLoop_last {stations : List (String × StationInfo)}
    {code : String} {info : StationInfo} (i : Nat) (adjm : AdjMap)
    (acc : List RouteDetail) (hinfo : stations.lookup code = some info) :
    routeDetailsLoop stations [code] i adjm acc =
      (acc ++ [(⟨i+1, code, info.name, info.city, none⟩ : RouteDetail)],
        adjm) := by
  rw [show routeDetailsLoop stations [code] i adjm acc =
    (match stations.lookup code with
     | none => routeDetailsLoop stations [] (i+1) adjm acc
     | some info =>
       (acc ++ [(⟨i+1, code, info.name, info.city, none⟩ : RouteDetail)],
         adjm)) from rfl, hinfo]

theorem routeDetailsLoop_mid {stations : List (String × StationInfo)}
    {code : String} {info : StationInfo} (nxt : String) (rest' : List String)
    (i : Nat) (adjm : AdjMap) (acc : List RouteDetail)
    (hinfo : stations.lookup code = some info) :
    routeDetailsLoop stations (code :: nxt :: rest') i adjm acc =
      routeDetailsLoop stations (nxt :: rest') (i+1) (touch adjm code)
        (acc ++ [(⟨i+1, code, info.name, info.city,
          firstDistTo (dget (touch adjm code) code) nxt⟩ : RouteDetail)]) := by
  rw [show routeDetailsLoop stations (code :: nxt :: rest') i adjm acc =
    (match stations.lookup code with
     | none => routeDetailsLoop stations (nxt :: rest') (i+1) adjm acc
     | some info =>
       routeDetailsLoop stations (nxt :: rest') (i+1) (touch adjm code)
         (acc ++ [(⟨i+1, code, info.name, info.city,
           firstDistTo (dget (touch adjm code) code) nxt⟩ : RouteDetail)]))
    from rfl, hinfo]

theorem detailsSpec_skip {stations : List (String × StationInfo)}
    {code : String} (adj : AdjMap) (rest : List String) (i : Nat)
    (hinfo : stations.lookup code = none) :
    detailsSpec stations adj (code :: rest) i =
      detailsSpec stations adj rest (i+1) := by
  cases rest with
  | nil =>
    rw [show detailsSpec stations adj [code] i =
      (match stations.lookup code with
       | none => detailsSpec stations adj [] (i+1)
       | some info =>
         (⟨i+1, code, info.name, info.city, none⟩ : RouteDetail) ::
           detailsSpec stations adj [] (i+1)) from rfl, hinfo]
  | cons nxt rest' =>
    rw [show detailsSpec stations adj (code :: nxt :: rest') i =
      (match stations.lookup code with
       | none => detailsSpec stations adj (nxt :: rest') (i+1)
       | some info =>
         (⟨i+1, code, info.name, info.city,
           firstDistTo (dget adj code) nxt⟩ : RouteDetail) ::
           detailsSpec stations adj (nxt :: rest') (i+1)) from rfl, hinfo]

theorem detailsSpec_last {stations : List (String × StationInfo)}
    {code : String} {info : StationInfo} (adj : AdjMap) (i : Nat)
    (hinfo : stations.lookup code = some info) :
    detailsSpec stations adj [code] i =
      [(⟨i+1, code, info.name, info.city, none⟩ : RouteDetail)] := by
  rw [show detailsSpec stations adj [code] i =
    (match stations.lookup code with
     | none => detailsSpec stations adj [] (i+1)
     | some info =>
       (⟨i+1, code, info.name, info.city, none⟩ : RouteDetail) ::
         detailsSpec stations adj [] (i+1)) from rfl, hinfo]
  rfl

theorem detailsSpec_mid {stations : List (String × StationInfo)}
    {code : String} {info : StationInfo} (adj : AdjMap) (nxt : String)
    (rest' : List String) (i : Nat)
    (hinfo : stations.lookup code = some info) :
    detailsSpec stations adj (code :: nxt :: rest') i =
      (⟨i+1, code, info.name, info.city,
        firstDistTo (dget adj code) nxt⟩ : RouteDetail) ::
        detailsSpec stations adj (nxt :: rest') (i+1) := by
  rw [show detailsSpec stations adj (code :: nxt :: rest') i =
    (match stations.lookup code with
     | none => detailsSpec stations adj (nxt :: rest') (i+1)
     | some info =>
       (⟨i+1, code, info.name, info.city,
         firstDistTo (dget adj code) nxt⟩ : RouteDetail) ::
         detailsSpec stations adj (nxt :: rest') (i+1)) from rfl, hinfo]

theorem routeDetailsLoop_spec (stations : List (String × StationInfo))
    (adj0 : AdjMap) :
    ∀ (l : List String) (i : Nat) (adjm : AdjMap) (acc : List RouteDetail),
      (∀ k, dget adjm k = dget adj0 k) →
      (routeDetailsLoop stations l i adjm acc).1 =
          acc ++ detailsSpec stations adj0 l i ∧
      (∀ k, dget (routeDetailsLoop stations l i adjm acc).2 k = dget adj0 k) ∧
      (∀ k, hasKey adjm k = true →
        hasKey (routeDetailsLoop stations l i adjm acc).2 k = true) ∧
      totalAdjSize (routeDetailsLoop stations l i adjm acc).2 =
        totalAdjSize adjm ∧
      targetsOf (routeDetailsLoop stations l i adjm acc).2 = targetsOf adjm := by
  intro l
  induction l with
  | nil =>
    intro i adjm acc heq
    rw [routeDetailsLoop_nil]
    exact ⟨by simp [detailsSpec], heq, fun k hk => hk, rfl, rfl⟩
  | cons code rest ih =>
    intro i adjm acc heq
    cases hinfo : stations.lookup code with
    | none =>
      rw [routeDetailsLoop_skip rest i adjm acc hinfo,
          detailsSpec_skip adj0 rest i hinfo]
      exact ih (i+1) adjm acc heq
    | some info =>
      cases rest with
      | nil =>
        rw [routeDetailsLoop_last i adjm acc hinfo, detailsSpec_last adj0 i hinfo]
        exact ⟨rfl, heq, fun k hk => hk, rfl, rfl⟩
      | cons nxt rest' =>
        rw [routeDetailsLoop_mid nxt rest' i adjm acc hinfo,
            detailsSpec_mid adj0 nxt rest' i hinfo]
        have heq' : ∀ k, dget (touch adjm code) k = dget adj0 k := by
          intro k
          rw [touch_dget]
          exact heq k
        obtain ⟨h1, h2, h3, h4, h5⟩ := ih (i+1) (touch adjm code)
          (acc ++ [(⟨i+1, code, info.name, info.city,
            firstDistTo (dget (touch adjm code) code) nxt⟩ : RouteDetail)]) heq'
        refine ⟨?_, h2, fun k hk => h3 k (touch_hasKey_mono _ hk), ?_, ?_⟩
        · rw [h1, show dget (touch adjm code) code = dget adj0 code from heq' code]
          simp
        · rw [h4, touch_totalAdjSize]
        · rw [h5, touch_targetsOf]

/-- The itinerary equals its reference form. -/
theorem get_route_details_spec (g : RailwayGraph) (path : List String) :
    g.get_route_details path = detailsSpec g.stations g.adjacency_list path 0 := by
  unfold RailwayGraph.get_route_details RailwayGraph.get_route_details_run
  obtain ⟨h1, _, _, _, _⟩ := routeDetailsLoop_spec g.stations g.adjacency_list
    path 0 g.adjacency_list [] (fun k => rfl)
  cases hres : routeDetailsLoop g.stations path 0 g.adjacency_list [] with
  | mk ds adjm =>
    rw [hres] at h1
    simpa using h1

/-! Congruence of the simple-walk enumeration under equal adjacency values:
needed to equate the A* fuel of a graph before and after vivification. -/

theorem simpleSeqsFrom_congr {m1 m2 : AdjMap} (heq : ∀ k, dget m1 k = dget m2 k) :
    ∀ (fuel : Nat) (u : String) (avoid : List String),
      simpleSeqsFrom m1 fuel u avoid = simpleSeqsFrom m2 fuel u avoid := by
  intro fuel
  induction fuel with
  | zero => intro u avoid; rfl
  | succ fuel ih =>
    intro u avoid
    show [u] :: (dget m1 u).flatMap (fun e =>
        if e.1 ∈ avoid then []
        else (simpleSeqsFrom m1 fuel e.1 (e.1 :: avoid)).map (fun l => u :: l)) =
      [u] :: (dget m2 u).flatMap (fun e =>
        if e.1 ∈ avoid then []
        else (simpleSeqsFrom m2 fuel e.1 (e.1 :: avoid)).map (fun l => u :: l))
    rw [heq u]
    have hfm : ∀ (l : List (String × ℚ)), l.flatMap (fun e =>
        if e.1 ∈ avoid then []
        else (simpleSeqsFrom m1 fuel e.1 (e.1 :: avoid)).map (fun l => u :: l)) =
      l.flatMap (fun e =>
        if e.1 ∈ avoid then []
        else (simpleSeqsFrom m2 fuel e.1 (e.1 :: avoid)).map (fun l => u :: l)) := by
      intro l
      induction l with
      | nil => rfl
      | cons x t iht =>
        simp only [List.flatMap_cons]
        rw [iht, ih x.1 (x.1 :: avoid)]
    rw [hfm]

theorem seqWeights_congr {m1 m2 : AdjMap} (heq : ∀ k, dget m1 k = dget m2 k) :
    ∀ (l : List String), seqWeights m1 l = seqWeights m2 l := by
  intro l
  induction l with
  | nil => rfl
  | cons u t ih =>
    cases t with
    | nil => rfl
    | cons v rest =>
      show ((dget m1 u).filter (fun e => e.1 == v)).flatMap
          (fun e => (seqWeights m1 (v :: rest)).map (fun w => e.2 + w)) =
        ((dget m2 u).filter (fun e => e.1 == v)).flatMap
          (fun e => (seqWeights m2 (v :: rest)).map (fun w => e.2 + w))
      rw [heq u, ih]

theorem simpleWeightsTo_congr {m1 m2 : AdjMap}
    (heq : ∀ k, dget m1 k = dget m2 k) (htg : targetsOf m1 = targetsOf m2)
    (s v : String) : simpleWeightsTo m1 s v = simpleWeightsTo m2 s v := by
  unfold simpleWeightsTo
  rw [htg, simpleSeqsFrom_congr heq]
  congr 1
  apply List.flatMap_congr
  intro l _
  exact seqWeights_congr heq l

theorem except_map_ok {α β γ : Type} {f : α → β} {x : Except γ α} {y : β}
    (h : x.map f = .ok y) : ∃ a, x = .ok a ∧ f a = y := by
  cases x with
  | error err => simp [Except.map] at h
  | ok a =>
    refine ⟨a, rfl, ?_⟩
    simpa [Except.map] using h

/-- What a graph may become after a query: same stations and edge counter,
same adjacency values, keys only added. -/
def QueryEvolves (g g2 : RailwayGraph) : Prop :=
  g2.stations = g.stations ∧ g2.edges_count = g.edges_count ∧
  (∀ k, dget g2.adjacency_list k = dget g.adjacency_list k) ∧
  (∀ k, hasKey g.adjacency_list k = true → hasKey g2.adjacency_list k = true) ∧
  totalAdjSize g2.adjacency_list = totalAdjSize g.adjacency_list ∧
  targetsOf g2.adjacency_list = targetsOf g.adjacency_list

theorem queryEvolves_refl (g : RailwayGraph) : QueryEvolves g g :=
  ⟨rfl, rfl, fun k => rfl, fun k hk => hk, rfl, rfl⟩

theorem bfs_run_evolves {g : RailwayGraph} {s e : String}
    {r : List String × Nat} {g2 : RailwayGraph}
    (hrun : g.bfs_run s e = .ok (r, g2)) : QueryEvolves g g2 := by
  unfold RailwayGraph.bfs_run at hrun
  by_cases hguard : hasKey g.adjacency_list s = false ∨ hasKey g.stations e = false
  · rw [if_pos hguard] at hrun
    simp only [Except.ok.injEq, Prod.mk.injEq] at hrun
    rw [← hrun.2]
    exact queryEvolves_refl g
  · rw [if_neg hguard] at hrun
    by_cases hse : s = e
    · rw [if_pos hse] at hrun
      simp only [Except.ok.injEq, Prod.mk.injEq] at hrun
      rw [← hrun.2]
      exact queryEvolves_refl g
    · rw [if_neg hse] at hrun
      cases hloop : bfsLoop e (bfsFuel g) [(s, [s])] [s] g.adjacency_list with
      | error err =>
        rw [hloop] at hrun
        simp at hrun
      | ok res =>
        obtain ⟨r0, adjm2⟩ := res
        rw [hloop] at hrun
        have hrun2 : (Except.ok (r0, { g with adjacency_list := adjm2 }) :
            Except PyErr ((List String × Nat) × RailwayGraph)) =
            .ok (r, g2) := hrun
        simp only [Except.ok.injEq, Prod.mk.injEq] at hrun2
        rw [← hrun2.2]
        obtain ⟨h1, h2, h3, h4⟩ := bfsLoop_mutation (bfsFuel g) [(s, [s])] [s]
          g.adjacency_list hloop
        exact ⟨rfl, rfl, h1, h2, h3, h4⟩

theorem dijkstra_run_evolves {g : RailwayGraph} {s e : String}
    {r : List String × WithTop ℚ} {g2 : RailwayGraph}
    (hrun : g.dijkstra_run s e = .ok (r, g2)) : QueryEvolves g g2 := by
  unfold RailwayGraph.dijkstra_run at hrun
  by_cases hguard : hasKey g.adjacency_list s = false ∨ hasKey g.stations e = false
  · rw [if_pos hguard] at hrun
    simp only [Except.ok.injEq, Prod.mk.injEq] at hrun
    rw [← hrun.2]
    exact queryEvolves_refl g
  · rw [if_neg hguard] at hrun
    by_cases hse : s = e
    · rw [if_pos hse] at hrun
      simp only [Except.ok.injEq, Prod.mk.injEq] at hrun
      rw [← hrun.2]
      exact queryEvolves_refl g
    · rw [if_neg hse] at hrun
      have hrun2 : (match dijkstraLoop s e (dijkstraFuel g s)
            ⟨upsert (g.stations.map (fun p => (p.1, (⊤ : WithTop ℚ)))) s 0, [],
              [(0, s)], [], g.adjacency_list⟩ with
          | .ok (r, adjm) => .ok (r, { g with adjacency_list := adjm })
          | .error err => .error err) = Except.ok (r, g2) := hrun
      cases hloop : dijkstraLoop s e (dijkstraFuel g s)
          ⟨upsert (g.stations.map (fun p => (p.1, (⊤ : WithTop ℚ)))) s 0, [],
            [(0, s)], [], g.adjacency_list⟩ with
      | error err =>
        rw [hloop] at hrun2
        simp at hrun2
      | ok res =>
        obtain ⟨r0, adjm2⟩ := res
        rw [hloop] at hrun2
        simp only [Except.ok.injEq, Prod.mk.injEq] at hrun2
        rw [← hrun2.2]
        obtain ⟨h1, h2, h3, h4⟩ := dijkstraLoop_mutation (dijkstraFuel g s) _ hloop
        exact ⟨rfl, rfl, h1, h2, h3, h4⟩

theorem a_star_run_evolves {g : RailwayGraph} {h : String → WithTop ℚ}
    {s e : String} {r : List String × WithTop ℚ} {g2 : RailwayGraph}
    (hrun : g.a_star_run h s e = .ok (r, g2)) : QueryEvolves g g2 := by
  unfold RailwayGraph.a_star_run at hrun
  by_cases hguard : hasKey g.adjacency_list s = false ∨ hasKey g.stations e = false
  · rw [if_pos hguard] at hrun
    simp only [Except.ok.injEq, Prod.mk.injEq] at hrun
    rw [← hrun.2]
    exact queryEvolves_refl g
  · rw [if_neg hguard] at hrun
    by_cases hse : s = e
    · rw [if_pos hse] at hrun
      simp only [Except.ok.injEq, Prod.mk.injEq] at hrun
      rw [← hrun.2]
      exact queryEvolves_refl g
    · rw [if_neg hse] at hrun
      have hrun2 : (match astarLoop h s e (astarFuel g s)
            ⟨upsert (g.stations.map (fun p => (p.1, (⊤ : WithTop ℚ)))) s 0,
              upsert (g.stations.map (fun p => (p.1, (⊤ : WithTop ℚ)))) s (h s),
              [s], [], g.adjacency_list⟩ with
          | .ok (r, adjm) => .ok (r, { g with adjacency_list := adjm })
          | .error err => .error err) = Except.ok (r, g2) := hrun
      cases hloop : astarLoop h s e (astarFuel g s)
          ⟨upsert (g.stations.map (fun p => (p.1, (⊤ : WithTop ℚ)))) s 0,
            upsert (g.stations.map (fun p => (p.1, (⊤ : WithTop ℚ)))) s (h s),
            [s], [], g.adjacency_list⟩ with
      | error err =>
        rw [hloop] at hrun2
        simp at hrun2
      | ok res =>
        obtain ⟨r0, adjm2⟩ := res
        rw [hloop] at hrun2
        simp only [Except.ok.injEq, Prod.mk.injEq] at hrun2
        rw [← hrun2.2]
        obtain ⟨h1, h2, h3, h4⟩ := astarLoop_mutation (astarFuel g s) _ _ _ _ _
          hloop
        exact ⟨rfl, rfl, h1, h2, h3, h4⟩

theorem get_route_details_run_evolves (g : RailwayGraph) (path : List String) :
    QueryEvolves g (g.get_route_details_run path).2 := by
  unfold RailwayGraph.get_route_details_run
  obtain ⟨_, h2, h3, h4, h5⟩ := routeDetailsLoop_spec g.stations
    g.adjacency_list path 0 g.adjacency_list [] (fun k => rfl)
  cases hres : routeDetailsLoop g.stations path 0 g.adjacency_list [] with
  | mk ds adjm =>
    rw [hres] at h2 h3 h4 h5
    exact ⟨rfl, rfl, h2, h3, h4, h5⟩

theorem guard_true_left {g : RailwayGraph} {s e : String}
    (hguard : ¬(hasKey g.adjacency_list s = false ∨
      hasKey g.stations e = false)) : hasKey g.adjacency_list s = true := by
  cases h : hasKey g.adjacency_list s with
  | false => exact absurd (Or.inl h) hguard
  | true => rfl

theorem guard_true_right {g : RailwayGraph} {s e : String}
    (hguard : ¬(hasKey g.adjacency_list s = false ∨
      hasKey g.stations e = false)) : hasKey g.stations e = true := by
  cases h : hasKey g.stations e with
  | false => exact absurd (Or.inr h) hguard
  | true => rfl

/-- Repeating a BFS query on the evolved store yields the same answer. -/
theorem bfs_repeat {g : RailwayGraph} {s e : String}
    {r : List String × Nat} {g2 : RailwayGraph}
    (hrun : g.bfs_run s e = .ok (r, g2)) :
    g.bfs_shortest_path s e = .ok r ∧ g2.bfs_shortest_path s e = .ok r := by
  refine ⟨by unfold RailwayGraph.bfs_shortest_path; rw [hrun]; rfl, ?_⟩
  unfold RailwayGraph.bfs_run at hrun
  by_cases hguard : hasKey g.adjacency_list s = false ∨ hasKey g.stations e = false
  · rw [if_pos hguard] at hrun
    simp only [Except.ok.injEq, Prod.mk.injEq] at hrun
    obtain ⟨hr, hg2⟩ := hrun
    rw [← hg2]
    unfold RailwayGraph.bfs_shortest_path RailwayGraph.bfs_run
    rw [if_pos hguard, ← hr]
    rfl
  · rw [if_neg hguard] at hrun
    by_cases hse : s = e
    · rw [if_pos hse] at hrun
      simp only [Except.ok.injEq, Prod.mk.injEq] at hrun
      obtain ⟨hr, hg2⟩ := hrun
      rw [← hg2]
      unfold RailwayGraph.bfs_shortest_path RailwayGraph.bfs_run
      rw [if_neg hguard, if_pos hse, ← hr]
      rfl
    · rw [if_neg hse] at hrun
      cases hloop : bfsLoop e (bfsFuel g) [(s, [s])] [s] g.adjacency_list with
      | error err =>
        rw [hloop] at hrun
        simp at hrun
      | ok res =>
        obtain ⟨r0, adjm2⟩ := res
        rw [hloop] at hrun
        have hrun2 : (Except.ok (r0, { g with adjacency_list := adjm2 }) :
            Except PyErr ((List String × Nat) × RailwayGraph)) =
            .ok (r, g2) := hrun
        simp only [Except.ok.injEq, Prod.mk.injEq] at hrun2
        obtain ⟨hr, hg2⟩ := hrun2
        obtain ⟨h1, h2, h3, h4⟩ := bfsLoop_mutation (bfsFuel g) [(s, [s])] [s]
          g.adjacency_list hloop
        rw [← hg2]
        unfold RailwayGraph.bfs_shortest_path RailwayGraph.bfs_run
        have hguard2 : ¬(hasKey adjm2 s = false ∨
            hasKey g.stations e = false) := by
          intro hor
          rcases hor with hh | hh
          · rw [h2 s (guard_true_left hguard)] at hh
            simp at hh
          · rw [guard_true_right hguard] at hh
            simp at hh
        rw [if_neg hguard2, if_neg hse]
        have hfuel : bfsFuel { g with adjacency_list := adjm2 } = bfsFuel g := by
          unfold bfsFuel
          show totalAdjSize adjm2 + 2 = totalAdjSize g.adjacency_list + 2
          rw [h3]
        rw [hfuel]
        have hcon := bfsLoop_congr (e := e) (bfsFuel g) [(s, [s])] [s] adjm2
          g.adjacency_list h1
        rw [hloop] at hcon
        obtain ⟨res2, hres2, hfst⟩ := except_map_ok hcon
        obtain ⟨r0', adjm3⟩ := res2
        rw [hres2]
        have hr0 : r0' = r0 := hfst
        rw [hr0, hr]
        rfl

/-- Repeating a Dijkstra query on the evolved store yields the same answer. -/
theorem dijkstra_repeat {g : RailwayGraph} {s e : String}
    {r : List String × WithTop ℚ} {g2 : RailwayGraph}
    (hrun : g.dijkstra_run s e = .ok (r, g2)) :
    g.dijkstra_shortest_path s e = .ok r ∧
      g2.dijkstra_shortest_path s e = .ok r := by
  refine ⟨by unfold RailwayGraph.dijkstra_shortest_path; rw [hrun]; rfl, ?_⟩
  unfold RailwayGraph.dijkstra_run at hrun
  by_cases hguard : hasKey g.adjacency_list s = false ∨ hasKey g.stations e = false
  · rw [if_pos hguard] at hrun
    simp only [Except.ok.injEq, Prod.mk.injEq] at hrun
    obtain ⟨hr, hg2⟩ := hrun
    rw [← hg2]
    unfold RailwayGraph.dijkstra_shortest_path RailwayGraph.dijkstra_run
    rw [if_pos hguard, ← hr]
    rfl
  · rw [if_neg hguard] at hrun
    by_cases hse : s = e
    · rw [if_pos hse] at hrun
      simp only [Except.ok.injEq, Prod.mk.injEq] at hrun
      obtain ⟨hr, hg2⟩ := hrun
      rw [← hg2]
      unfold RailwayGraph.dijkstra_shortest_path RailwayGraph.dijkstra_run
      rw [if_neg hguard, if_pos hse, ← hr]
      rfl
    · rw [if_neg hse] at hrun
      have hrun2 : (match dijkstraLoop s e (dijkstraFuel g s)
            ⟨upsert (g.stations.map (fun p => (p.1, (⊤ : WithTop ℚ)))) s 0, [],
              [(0, s)], [], g.adjacency_list⟩ with
          | .ok (r, adjm) => .ok (r, { g with adjacency_list := adjm })
          | .error err => .error err) = Except.ok (r, g2) := hrun
      cases hloop : dijkstraLoop s e (dijkstraFuel g s)
          ⟨upsert (g.stations.map (fun p => (p.1, (⊤ : WithTop ℚ)))) s 0, [],
            [(0, s)], [], g.adjacency_list⟩ with
      | error err =>
        rw [hloop] at hrun2
        simp at hrun2
      | ok res =>
        obtain ⟨r0, adjm2⟩ := res
        rw [hloop] at hrun2
        simp only [Except.ok.injEq, Prod.mk.injEq] at hrun2
        obtain ⟨hr, hg2⟩ := hrun2
        obtain ⟨h1, h2, h3, h4⟩ := dijkstraLoop_mutation (dijkstraFuel g s) _ hloop
        rw [← hg2]
        unfold RailwayGraph.dijkstra_shortest_path RailwayGraph.dijkstra_run
        have hguard2 : ¬(hasKey adjm2 s = false ∨
            hasKey g.stations e = false) := by
          intro hor
          rcases hor with hh | hh
          · rw [h2 s (guard_true_left hguard)] at hh
            simp at hh
          · rw [guard_true_right hguard] at hh
            simp at hh
        rw [if_neg hguard2, if_neg hse]
        have hfuel : dijkstraFuel { g with adjacency_list := adjm2 } s =
            dijkstraFuel g s := by
          unfold dijkstraFuel
          show (totalAdjSize adjm2 + 1) * ((s :: targetsOf adjm2).dedup).length + 3 = _
          rw [h3, h4]
        rw [hfuel]
        have hcon := dijkstraLoop_congr (s := s) (e := e) (dijkstraFuel g s)
          (upsert (g.stations.map (fun p => (p.1, (⊤ : WithTop ℚ)))) s 0) []
          [(0, s)] [] adjm2 g.adjacency_list h1
        rw [hloop] at hcon
        obtain ⟨res2, hres2, hfst⟩ := except_map_ok hcon
        obtain ⟨r0', adjm3⟩ := res2
        show ((match dijkstraLoop s e (dijkstraFuel g s)
            ⟨upsert (g.stations.map (fun p : String × StationInfo =>
              (p.1, (⊤ : WithTop ℚ)))) s 0, [],
              [(0, s)], [], adjm2⟩ with
          | Except.ok (r, adjm) =>
            Except.ok (r, { g with adjacency_list := adjm })
          | Except.error err => Except.error err) :
            Except PyErr ((List String × WithTop ℚ) × RailwayGraph)).map
            (fun x : (List String × WithTop ℚ) × RailwayGraph => x.1) =
          Except.ok r
        rw [hres2]
        have hr0 : r0' = r0 := hfst
        rw [hr0, hr]
        rfl

/-- Repeating an A* query on the evolved store yields the same answer. -/
theorem a_star_repeat {g : RailwayGraph} {h : String → WithTop ℚ} {s e : String}
    {r : List String × WithTop ℚ} {g2 : RailwayGraph}
    (hrun : g.a_star_run h s e = .ok (r, g2)) :
    g.a_star_shortest_path h s e = .ok r ∧
      g2.a_star_shortest_path h s e = .ok r := by
  refine ⟨by unfold RailwayGraph.a_star_shortest_path; rw [hrun]; rfl, ?_⟩
  unfold RailwayGraph.a_star_run at hrun
  by_cases hguard : hasKey g.adjacency_list s = false ∨ hasKey g.stations e = false
  · rw [if_pos hguard] at hrun
    simp only [Except.ok.injEq, Prod.mk.injEq] at hrun
    obtain ⟨hr, hg2⟩ := hrun
    rw [← hg2]
    unfold RailwayGraph.a_star_shortest_path RailwayGraph.a_star_run
    rw [if_pos hguard, ← hr]
    rfl
  · rw [if_neg hguard] at hrun
    by_cases hse : s = e
    · rw [if_pos hse] at hrun
      simp only [Except.ok.injEq, Prod.mk.injEq] at hrun
      obtain ⟨hr, hg2⟩ := hrun
      rw [← hg2]
      unfold RailwayGraph.a_star_shortest_path RailwayGraph.a_star_run
      rw [if_neg hguard, if_pos hse, ← hr]
      rfl
    · rw [if_neg hse] at hrun
      have hrun2 : (match astarLoop h s e (astarFuel g s)
            ⟨upsert (g.stations.map (fun p => (p.1, (⊤ : WithTop ℚ)))) s 0,
              upsert (g.stations.map (fun p => (p.1, (⊤ : WithTop ℚ)))) s (h s),
              [s], [], g.adjacency_list⟩ with
          | .ok (r, adjm) => .ok (r, { g with adjacency_list := adjm })
          | .error err => .error err) = Except.ok (r, g2) := hrun
      cases hloop : astarLoop h s e (astarFuel g s)
          ⟨upsert (g.stations.map (fun p => (p.1, (⊤ : WithTop ℚ)))) s 0,
            upsert (g.stations.map (fun p => (p.1, (⊤ : WithTop ℚ)))) s (h s),
            [s], [], g.adjacency_list⟩ with
      | error err =>
        rw [hloop] at hrun2
        simp at hrun2
      | ok res =>
        obtain ⟨r0, adjm2⟩ := res
        rw [hloop] at hrun2
        simp only [Except.ok.injEq, Prod.mk.injEq] at hrun2
        obtain ⟨hr, hg2⟩ := hrun2
        obtain ⟨h1, h2, h3, h4⟩ := astarLoop_mutation (astarFuel g s) _ _ _ _ _
          hloop
        rw [← hg2]
        unfold RailwayGraph.a_star_shortest_path RailwayGraph.a_star_run
        have hguard2 : ¬(hasKey adjm2 s = false ∨
            hasKey g.stations e = false) := by
          intro hor
          rcases hor with hh | hh
          · rw [h2 s (guard_true_left hguard)] at hh
            simp at hh
          · rw [guard_true_right hguard] at hh
            simp at hh
        rw [if_neg hguard2, if_neg hse]
        have hfuel : astarFuel { g with adjacency_list := adjm2 } s =
            astarFuel g s := by
          unfold astarFuel
          show 2 + (((s :: g.stations.map Prod.fst).dedup).map
            (fun v => (simpleWeightsTo adjm2 s v).length)).sum = _
          congr 1
          congr 1
          apply List.map_congr_left
          intro v _
          rw [simpleWeightsTo_congr h1 h4]
        rw [hfuel]
        have hcon := astarLoop_congr (h := h) (s := s) (e := e) (astarFuel g s)
          (upsert (g.stations.map (fun p => (p.1, (⊤ : WithTop ℚ)))) s 0)
          (upsert (g.stations.map (fun p => (p.1, (⊤ : WithTop ℚ)))) s (h s))
          [s] [] adjm2 g.adjacency_list h1
        rw [hloop] at hcon
        obtain ⟨res2, hres2, hfst⟩ := except_map_ok hcon
        obtain ⟨r0', adjm3⟩ := res2
        show ((match astarLoop h s e (astarFuel g s)
            ⟨upsert (g.stations.map (fun p : String × StationInfo =>
              (p.1, (⊤ : WithTop ℚ)))) s 0,
              upsert (g.stations.map (fun p : String × StationInfo =>
                (p.1, (⊤ : WithTop ℚ)))) s (h s),
              [s], [], adjm2⟩ with
          | Except.ok (r, adjm) =>
            Except.ok (r, { g with adjacency_list := adjm })
          | Except.error err => Except.error err) :
            Except PyErr ((List String × WithTop ℚ) × RailwayGraph)).map
            (fun x : (List String × WithTop ℚ) × RailwayGraph => x.1) =
          Except.ok r
        rw [hres2]
        have hr0 : r0' = r0 := hfst
        rw [hr0, hr]
        rfl

theorem detailsSpec_congr (stations : List (String × StationInfo))
    {adj1 adj2 : AdjMap} (heq : ∀ k, dget adj1 k = dget adj2 k) :
    ∀ (l : List String) (i : Nat),
      detailsSpec stations adj1 l i = detailsSpec stations adj2 l i := by
  intro l
  induction l with
  | nil => intro i; rfl
  | cons code rest ih =>
    intro i
    cases hinfo : stations.lookup code with
    | none =>
      rw [detailsSpec_skip adj1 rest i hinfo, detailsSpec_skip adj2 rest i hinfo]
      exact ih (i+1)
    | some info =>
      cases rest with
      | nil =>
        rw [detailsSpec_last adj1 i hinfo, detailsSpec_last adj2 i hinfo]
      | cons nxt rest' =>
        rw [detailsSpec_mid adj1 nxt rest' i hinfo,
            detailsSpec_mid adj2 nxt rest' i hinfo, heq code, ih (i+1)]

/-- Repeating an itinerary query on the evolved store yields the same
answer. -/
theorem get_route_details_repeat (g : RailwayGraph) (path : List String) :
    ((g.get_route_details_run path).2).get_route_details path =
      g.get_route_details path := by
  rw [get_route_details_spec, get_route_details_spec]
  obtain ⟨_, _, hdget, _, _, _⟩ := get_route_details_run_evolves g path
  have hst : ((g.get_route_details_run path).2).stations = g.stations :=
    (get_route_details_run_evolves g path).1
  rw [hst]
  exact detailsSpec_congr g.stations hdget path 0

theorem queryEvolves_trans {g1 g2 g3 : RailwayGraph}
    (h12 : QueryEvolves g1 g2) (h23 : QueryEvolves g2 g3) :
    QueryEvolves g1 g3 := by
  obtain ⟨a1, a2, a3, a4, a5, a6⟩ := h12
  obtain ⟨b1, b2, b3, b4, b5, b6⟩ := h23
  refine ⟨by rw [b1, a1], by rw [b2, a2], fun k => by rw [b3 k, a3 k],
    fun k hk => b4 k (a4 k hk), by rw [b5, a5], by rw [b6, a6]⟩

def wrapRun {α : Type} (g : RailwayGraph) (x : Except PyErr (α × AdjMap)) :
    Except PyErr (α × RailwayGraph) :=
  match x with
  | .ok (r, adjm) => .ok (r, { g with adjacency_list := adjm })
  | .error err => .error err

theorem wrap_map_congr {α : Type} (gA gB : RailwayGraph)
    (x y : Except PyErr (α × AdjMap))
    (h : x.map (fun z => z.1) = y.map (fun z => z.1)) :
    (wrapRun gA x).map (fun z => z.1) = (wrapRun gB y).map (fun z => z.1) := by
  cases x with
  | error err =>
    cases y with
    | error err2 =>
      have herr : err = err2 := by simpa [Except.map] using h
      rw [herr]
      rfl
    | ok res => simp [Except.map] at h
  | ok res =>
    obtain ⟨r, adjm⟩ := res
    cases y with
    | error err2 => simp [Except.map] at h
    | ok res2 =>
      obtain ⟨r2, adjm2⟩ := res2
      have hr : r = r2 := by simpa [Except.map] using h
      rw [hr]
      rfl

/-- The visible BFS answer agrees across query-evolved stores whose start
key was already present. -/
theorem bfs_run_congr {g gA : RailwayGraph} (hev : QueryEvolves g gA)
    (s e : String) (hs : hasKey g.adjacency_list s = true) :
    (gA.bfs_run s e).map (fun x => x.1) =
      (g.bfs_run s e).map (fun x => x.1) := by
  obtain ⟨hst, _, hdget, hmono, hsize, _⟩ := hev
  unfold RailwayGraph.bfs_run
  have hsA : hasKey gA.adjacency_list s = true := hmono s hs
  by_cases hge : hasKey g.stations e = false
  · rw [if_pos (Or.inr (by rw [hst]; exact hge)), if_pos (Or.inr hge)]
    rfl
  · have hgA : ¬(hasKey gA.adjacency_list s = false ∨
        hasKey gA.stations e = false) := by
      intro hor
      cases hor with
      | inl hh =>
        rw [hsA] at hh
        simp at hh
      | inr hh =>
        rw [hst] at hh
        exact hge hh
    have hgG : ¬(hasKey g.adjacency_list s = false ∨
        hasKey g.stations e = false) := by
      intro hor
      cases hor with
      | inl hh =>
        rw [hs] at hh
        simp at hh
      | inr hh => exact hge hh
    rw [if_neg hgA, if_neg hgG]
    by_cases hse : s = e
    · rw [if_pos hse, if_pos hse]
      rfl
    · rw [if_neg hse, if_neg hse]
      have hfuel : bfsFuel gA = bfsFuel g := by
        unfold bfsFuel
        rw [hsize]
      rw [hfuel]
      have hcon := bfsLoop_congr (e := e) (bfsFuel g) [(s, [s])] [s]
        gA.adjacency_list g.adjacency_list hdget
      cases hA : bfsLoop e (bfsFuel g) [(s, [s])] [s] gA.adjacency_list with
      | error err =>
        cases hG : bfsLoop e (bfsFuel g) [(s, [s])] [s] g.adjacency_list with
        | error err2 =>
          rw [hA, hG] at hcon
          have herr : err = err2 := by simpa [Except.map] using hcon
          rw [herr]
        | ok res =>
          rw [hA, hG] at hcon
          simp [Except.map] at hcon
      | ok res =>
        obtain ⟨r, adjm⟩ := res
        cases hG : bfsLoop e (bfsFuel g) [(s, [s])] [s] g.adjacency_list with
        | error err2 =>
          rw [hA, hG] at hcon
          simp [Except.map] at hcon
        | ok res2 =>
          obtain ⟨r2, adjm2⟩ := res2
          rw [hA, hG] at hcon
          have hr : r = r2 := by simpa [Except.map] using hcon
          rw [hr]
          rfl

/-- The visible Dijkstra answer agrees across query-evolved stores whose
start key was already present. -/
theorem dijkstra_run_congr {g gA : RailwayGraph} (hev : QueryEvolves g gA)
    (s e : String) (hs : hasKey g.adjacency_list s = true) :
    (gA.dijkstra_run s e).map (fun x => x.1) =
      (g.dijkstra_run s e).map (fun x => x.1) := by
  obtain ⟨hst, _, hdget, hmono, hsize, htg⟩ := hev
  unfold RailwayGraph.dijkstra_run
  have hsA : hasKey gA.adjacency_list s = true := hmono s hs
  by_cases hge : hasKey g.stations e = false
  · rw [if_pos (Or.inr (by rw [hst]; exact hge)), if_pos (Or.inr hge)]
    rfl
  · have hgA : ¬(hasKey gA.adjacency_list s = false ∨
        hasKey gA.stations e = false) := by
      intro hor
      cases hor with
      | inl hh =>
        rw [hsA] at hh
        simp at hh
      | inr hh =>
        rw [hst] at hh
        exact hge hh
    have hgG : ¬(hasKey g.adjacency_list s = false ∨
        hasKey g.stations e = false) := by
      intro hor
      cases hor with
      | inl hh =>
        rw [hs] at hh
        simp at hh
      | inr hh => exact hge hh
    rw [if_neg hgA, if_neg hgG]
    by_cases hse : s = e
    · rw [if_pos hse, if_pos hse]
      rfl
    · rw [if_neg hse, if_neg hse]
      have hfuel : dijkstraFuel gA s = dijkstraFuel g s := by
        unfold dijkstraFuel
        rw [hsize, htg]
      rw [hfuel]
      show Except.map (fun x => x.1)
          (match dijkstraLoop s e (dijkstraFuel g s)
            ⟨upsert (gA.stations.map (fun p => (p.1, (⊤ : WithTop ℚ)))) s 0,
              [], [(0, s)], [], gA.adjacency_list⟩ with
          | Except.ok (r, adjm) =>
            Except.ok (r, { gA with adjacency_list := adjm })
          | Except.error err => Except.error err) =
        Except.map (fun x => x.1)
          (match dijkstraLoop s e (dijkstraFuel g s)
            ⟨upsert (g.stations.map (fun p => (p.1, (⊤ : WithTop ℚ)))) s 0,
              [], [(0, s)], [], g.adjacency_list⟩ with
          | Except.ok (r, adjm) =>
            Except.ok (r, { g with adjacency_list := adjm })
          | Except.error err => Except.error err)
      rw [hst]
      have hcon := dijkstraLoop_congr (s := s) (e := e) (dijkstraFuel g s)
        (upsert (g.stations.map (fun p => (p.1, (⊤ : WithTop ℚ)))) s 0) []
        [(0, s)] [] gA.adjacency_list g.adjacency_list hdget
      cases hA : dijkstraLoop s e (dijkstraFuel g s)
          ⟨upsert (g.stations.map (fun p => (p.1, (⊤ : WithTop ℚ)))) s 0,
            [], [(0, s)], [], gA.adjacency_list⟩ with
      | error err =>
        cases hG : dijkstraLoop s e (dijkstraFuel g s)
            ⟨upsert (g.stations.map (fun p => (p.1, (⊤ : WithTop ℚ)))) s 0,
              [], [(0, s)], [], g.adjacency_list⟩ with
        | error err2 =>
          rw [hA, hG] at hcon
          have herr : err = err2 := by simpa [Except.map] using hcon
          rw [herr]
        | ok res =>
          rw [hA, hG] at hcon
          simp [Except.map] at hcon
      | ok res =>
        obtain ⟨r, adjm⟩ := res
        cases hG : dijkstraLoop s e (dijkstraFuel g s)
            ⟨upsert (g.stations.map (fun p => (p.1, (⊤ : WithTop ℚ)))) s 0,
              [], [(0, s)], [], g.adjacency_list⟩ with
        | error err2 =>
          rw [hA, hG] at hcon
          simp [Except.map] at hcon
        | ok res2 =>
          obtain ⟨r2, adjm2⟩ := res2
          rw [hA, hG] at hcon
          have hr : r = r2 := by simpa [Except.map] using hcon
          rw [hr]
          rfl

/-- One search of the city resolver, as its caller sees it. -/
def pairValue (alg : String) (g : RailwayGraph)
    (pr : (String × String) × (String × String)) : List String × WithTop ℚ :=
  match runPairSearch alg g pr.1.1 pr.2.1 with
  | .ok (r, _) => r
  | .error _ => ([], 0)

theorem runPairSearch_congr {g gA : RailwayGraph} (hev : QueryEvolves g gA)
    (alg o d : String) (ho : hasKey g.adjacency_list o = true) :
    (runPairSearch alg gA o d).map (fun x => x.1) =
      (runPairSearch alg g o d).map (fun x => x.1) := by
  unfold runPairSearch
  by_cases halg : alg = "bfs"
  · rw [if_pos halg, if_pos halg]
    have hcon := bfs_run_congr hev o d ho
    cases hA : gA.bfs_run o d with
    | error err =>
      cases hG : g.bfs_run o d with
      | error err2 =>
        rw [hA, hG] at hcon
        have herr : err = err2 := by
          simpa [Except.map] using hcon
        rw [herr]
      | ok res =>
        rw [hA, hG] at hcon
        simp [Except.map] at hcon
    | ok res =>
      obtain ⟨⟨p, stops⟩, g'⟩ := res
      cases hG : g.bfs_run o d with
      | error err2 =>
        rw [hA, hG] at hcon
        simp [Except.map] at hcon
      | ok res2 =>
        obtain ⟨⟨p2, stops2⟩, g2'⟩ := res2
        rw [hA, hG] at hcon
        have hps : p = p2 ∧ stops = stops2 := by
          have := hcon
          simp only [Except.map, Except.ok.injEq, Prod.mk.injEq] at this
          exact this
        rw [hps.1, hps.2]
        rfl
  · rw [if_neg halg, if_neg halg]
    exact dijkstra_run_congr hev o d ho

theorem runPairSearch_evolves {g : RailwayGraph} {alg o d : String}
    {r : List String × WithTop ℚ} {g2 : RailwayGraph}
    (hrun : runPairSearch alg g o d = .ok (r, g2)) : QueryEvolves g g2 := by
  unfold runPairSearch at hrun
  by_cases halg : alg = "bfs"
  · rw [if_pos halg] at hrun
    cases hb : g.bfs_run o d with
    | error err =>
      rw [hb] at hrun
      simp at hrun
    | ok res =>
      obtain ⟨⟨p, stops⟩, g'⟩ := res
      rw [hb] at hrun
      have hrun2 : (Except.ok ((p, ((stops : ℚ) : WithTop ℚ)), g') :
          Except PyErr ((List String × WithTop ℚ) × RailwayGraph)) =
          .ok (r, g2) := hrun
      simp only [Except.ok.injEq, Prod.mk.injEq] at hrun2
      rw [← hrun2.2]
      exact bfs_run_evolves hb
  · rw [if_neg halg] at hrun
    exact dijkstra_run_evolves hrun

theorem runPairSearch_total {g : RailwayGraph} (alg o d : String)
    (hnn : NonnegWeights g) (hwf : WellFormedTargets g) :
    ∃ r, runPairSearch alg g o d = .ok r := by
  unfold runPairSearch
  by_cases halg : alg = "bfs"
  · rw [if_pos halg]
    obtain ⟨⟨⟨p, stops⟩, g'⟩, hb⟩ := bfs_run_total g o d
    rw [hb]
    exact ⟨_, rfl⟩
  · rw [if_neg halg]
    exact dijkstra_run_total g o d hnn hwf

/-- The selection loop of the city resolver over precomputed pair results. -/
def specFold (alg : String) :
    List ((((String × String) × (String × String))) × (List String × WithTop ℚ)) →
    Option FoundRoute → WithTop ℚ → Option FoundRoute
  | [], best, _ => best
  | ((o, dd), (path, metric)) :: rs, best, bm =>
    if path ≠ [] ∧ metric < bm then
      specFold alg rs (some ⟨o.1, o.2, dd.1, dd.2, path, metric, alg⟩) metric
    else specFold alg rs best bm

theorem specFold_cons {alg : String} (o dd : String × String)
    (path : List String) (metric : WithTop ℚ)
    (rs : List (((String × String) × (String × String)) ×
      (List String × WithTop ℚ)))
    (best : Option FoundRoute) (bm : WithTop ℚ) :
    specFold alg (((o, dd), (path, metric)) :: rs) best bm =
      (if path ≠ [] ∧ metric < bm then
        specFold alg rs (some ⟨o.1, o.2, dd.1, dd.2, path, metric, alg⟩) metric
      else specFold alg rs best bm) := rfl

theorem specFold_none {alg : String} :
    ∀ (rs : List (((String × String) × (String × String)) ×
        (List String × WithTop ℚ)))
      (best : Option FoundRoute) (bm : WithTop ℚ),
      specFold alg rs best bm = none →
      best = none ∧ ∀ y ∈ rs, y.2.1 = [] ∨ ¬(y.2.2 < bm) := by
  intro rs
  induction rs with
  | nil =>
    intro best bm h
    exact ⟨h, by simp⟩
  | cons z rs ih =>
    intro best bm h
    obtain ⟨⟨o, dd⟩, ⟨path, metric⟩⟩ := z
    rw [specFold_cons] at h
    by_cases hsel : path ≠ [] ∧ metric < bm
    · rw [if_pos hsel] at h
      exact absurd (ih _ _ h).1 (by simp)
    · rw [if_neg hsel] at h
      obtain ⟨hb, hall⟩ := ih _ _ h
      refine ⟨hb, ?_⟩
      intro y hy
      rcases List.mem_cons.mp hy with hy | hy
      · subst hy
        by_cases hp : path = []
        · exact Or.inl hp
        · refine Or.inr ?_
          intro hlt
          exact hsel ⟨hp, hlt⟩
      · exact hall y hy

theorem specFold_all_empty {alg : String} :
    ∀ (rs : List (((String × String) × (String × String)) ×
        (List String × WithTop ℚ)))
      (best : Option FoundRoute) (bm : WithTop ℚ),
      (∀ y ∈ rs, y.2.1 = []) → specFold alg rs best bm = best := by
  intro rs
  induction rs with
  | nil =>
    intro best bm _
    rfl
  | cons z rs ih =>
    intro best bm hall
    obtain ⟨⟨o, dd⟩, ⟨path, metric⟩⟩ := z
    rw [specFold_cons]
    have hp : path = [] := hall _ (List.mem_cons_self _ _)
    rw [if_neg (by
      intro hsel
      exact hsel.1 hp)]
    exact ih _ _ (fun y hy => hall y (List.mem_cons_of_mem _ hy))

/-- The selection loop keeps the first strictly-smallest non-empty result:
the winner beats every earlier non-empty pair strictly and every later
non-empty pair weakly. -/
theorem specFold_found {alg : String} {r : FoundRoute} :
    ∀ (rs : List (((String × String) × (String × String)) ×
        (List String × WithTop ℚ)))
      (best : Option FoundRoute) (bm : WithTop ℚ),
      specFold alg rs best bm = some r →
      (∃ pre x post, rs = pre ++ x :: post ∧ x.2.1 ≠ [] ∧ x.2.2 < bm ∧
        r = ⟨x.1.1.1, x.1.1.2, x.1.2.1, x.1.2.2, x.2.1, x.2.2, alg⟩ ∧
        (∀ y ∈ pre, y.2.1 = [] ∨ x.2.2 < y.2.2) ∧
        (∀ y ∈ post, y.2.1 = [] ∨ x.2.2 ≤ y.2.2)) ∨
      (best = some r ∧ ∀ y ∈ rs, y.2.1 = [] ∨ bm ≤ y.2.2) := by
  intro rs
  induction rs with
  | nil =>
    intro best bm h
    exact Or.inr ⟨h, by simp⟩
  | cons z rs ih =>
    intro best bm h
    obtain ⟨⟨o, dd⟩, ⟨path, metric⟩⟩ := z
    rw [specFold_cons] at h
    by_cases hsel : path ≠ [] ∧ metric < bm
    · rw [if_pos hsel] at h
      rcases ih _ _ h with hfound | hkept
      · obtain ⟨pre, x, post, hsplit, hne, hlt, hr, hpre, hpost⟩ := hfound
        refine Or.inl ⟨((o, dd), (path, metric)) :: pre, x, post, ?_, hne,
          lt_trans hlt hsel.2, hr, ?_, hpost⟩
        · rw [hsplit]
          rfl
        · intro y hy
          rcases List.mem_cons.mp hy with hy | hy
          · subst hy
            exact Or.inr hlt
          · exact hpre y hy
      · obtain ⟨hbest, hall⟩ := hkept
        have hrz : r = ⟨o.1, o.2, dd.1, dd.2, path, metric, alg⟩ :=
          (Option.some.inj hbest).symm
        refine Or.inl ⟨[], ((o, dd), (path, metric)), rs, rfl, hsel.1,
          hsel.2, hrz, by simp, ?_⟩
        intro y hy
        exact hall y hy
    · rw [if_neg hsel] at h
      rcases ih _ _ h with hfound | hkept
      · obtain ⟨pre, x, post, hsplit, hne, hlt, hr, hpre, hpost⟩ := hfound
        refine Or.inl ⟨((o, dd), (path, metric)) :: pre, x, post, ?_, hne,
          hlt, hr, ?_, hpost⟩
        · rw [hsplit]
          rfl
        · intro y hy
          rcases List.mem_cons.mp hy with hy | hy
          · subst hy
            by_cases hp : path = []
            · exact Or.inl hp
            · refine Or.inr (lt_of_lt_of_le hlt ?_)
              by_contra hcon
              push_neg at hcon
              exact hsel ⟨hp, hcon⟩
          · exact hpre y hy
      · obtain ⟨hbest, hall⟩ := hkept
        refine Or.inr ⟨hbest, ?_⟩
        intro y hy
        rcases List.mem_cons.mp hy with hy | hy
        · subst hy
          by_cases hp : path = []
          · exact Or.inl hp
          · refine Or.inr ?_
            by_contra hcon
            push_neg at hcon
            exact hsel ⟨hp, hcon⟩
        · exact hall y hy

/-- A non-empty pair result of the pristine store always carries a finite
metric. -/
theorem pairValue_finite {g : RailwayGraph} {alg : String}
    (hnn : NonnegWeights g) (pr : (String × String) × (String × String)) :
    (pairValue alg g pr).1 ≠ [] →
      ∃ q : ℚ, (pairValue alg g pr).2 = ((q : ℚ) : WithTop ℚ) := by
  unfold pairValue
  by_cases halg : alg = "bfs"
  · rw [show runPairSearch alg g pr.1.1 pr.2.1 =
      (match g.bfs_run pr.1.1 pr.2.1 with
        | .ok ((p, stops), g') => .ok ((p, ((stops : ℚ) : WithTop ℚ)), g')
        | .error err => .error err) from by
      unfold runPairSearch
      rw [if_pos halg]]
    cases hb : g.bfs_run pr.1.1 pr.2.1 with
    | error err =>
      intro _
      exact ⟨0, rfl⟩
    | ok res =>
      obtain ⟨⟨p, stops⟩, g'⟩ := res
      intro _
      exact ⟨(stops : ℚ), rfl⟩
  · rw [show runPairSearch alg g pr.1.1 pr.2.1 = g.dijkstra_run pr.1.1 pr.2.1
      from by
      unfold runPairSearch
      rw [if_neg halg]]
    cases hd : g.dijkstra_run pr.1.1 pr.2.1 with
    | error err =>
      intro _
      exact ⟨0, rfl⟩
    | ok res =>
      obtain ⟨⟨p, m⟩, g2⟩ := res
      intro hne
      obtain ⟨q, hq, _⟩ := (dijkstra_run_spec hnn hd).2 hne
      exact ⟨q, hq⟩

/-- `detailsSpec` makes one record per indexed station of the path. -/
theorem detailsSpec_length (stations : List (String × StationInfo))
    (adj : AdjMap) :
    ∀ (path : List String) (i : Nat),
      (detailsSpec stations adj path i).length =
        (path.filter (fun c => hasKey stations c)).length := by
  intro path
  induction path with
  | nil =>
    intro i
    rfl
  | cons code rest ih =>
    intro i
    cases hinfo : stations.lookup code with
    | none =>
      have hkey : hasKey stations code = false := by
        unfold hasKey
        rw [hinfo]
        rfl
      rw [detailsSpec_skip adj rest i hinfo, List.filter_cons]
      simp only [hkey, Bool.false_eq_true, if_false]
      exact ih (i+1)
    | some info =>
      have hkey : hasKey stations code = true := by
        unfold hasKey
        rw [hinfo]
        rfl
      cases rest with
      | nil =>
        rw [detailsSpec_last adj i hinfo]
        simp [hkey]
      | cons nxt rest2 =>
        rw [detailsSpec_mid adj nxt rest2 i hinfo, List.filter_cons]
        simp only [hkey, if_true, List.length_cons]
        rw [ih (i+1)]

/-! ### Concrete stores used by the checks -/

/-- The spec's worked example: chain A to B to C, 10 km per leg. -/
def exampleGraph : RailwayGraph :=
  (((((emptyGraph.add_station "A" "Alpha" "CiudadA" 0 0).add_station
      "B" "Beta" "CiudadB" 0 1).add_station
      "C" "Gamma" "CiudadC" 0 2).add_edge "A" "B" 10).add_edge "B" "C" 10)

/-- A single station with no recorded edges. -/
def soloGraph : RailwayGraph :=
  emptyGraph.add_station "X" "Xi" "CiudadX" 0 0

/-- Two stations and no edges. -/
def twoStations : RailwayGraph :=
  (emptyGraph.add_station "A" "Alpha" "CiudadA" 0 0).add_station
    "B" "Beta" "CiudadB" 0 1

/-- Two stations and one recorded edge whose target is not indexed. -/
def danglingGraph : RailwayGraph := twoStations.add_edge "A" "X" 5

/-- Two routes out of A; the branch through C continues into a dangling
edge. -/
def forkGraph : RailwayGraph :=
  (((((emptyGraph.add_station "A" "Alpha" "CiudadA" 0 10).add_station
      "B" "Beta" "CiudadB" 0 0).add_station
      "C" "Gamma" "CiudadC" 0 0).add_edge "A" "C" 10).add_edge
      "A" "B" 10).add_edge "C" "X" 1

/-- A non-negative heuristic towards B, admissible on `forkGraph`. -/
def forkH (v : String) : WithTop ℚ :=
  if v = "A" then ((10 : ℚ) : WithTop ℚ)
  else if v = "B" then 0
  else if v = "C" then 0
  else ⊤

/-- The everywhere-zero heuristic. -/
def hZero (_ : String) : WithTop ℚ := 0

theorem hZero_nonneg : HNonneg hZero := fun _ => le_refl 0

theorem hZero_admissible {g : RailwayGraph} (hnn : NonnegWeights g)
    (e : String) : Admissible g hZero e := by
  intro v p w hw _ _
  show (0 : WithTop ℚ) ≤ ((w : ℚ) : WithTop ℚ)
  exact_mod_cast walk_nonneg hnn hw

theorem forkGraph_adj : forkGraph.adjacency_list =
    [("A", [("C", 10), ("B", 10)]), ("C", [("X", 1)])] := by
  with_unfolding_all rfl

theorem forkH_nonneg : HNonneg forkH := by
  intro v
  unfold forkH
  split_ifs
  · exact_mod_cast (by norm_num : (0 : ℚ) ≤ 10)
  · exact le_refl 0
  · exact le_refl 0
  · exact le_top

/-- No walk on `forkGraph` that starts at C or at X ends at B. -/
theorem forkGraph_no_walk :
    ∀ {p : List String} {w : ℚ}, WalkOn forkGraph p w →
      (p.head? = some "C" ∨ p.head? = some "X") → p.getLast? ≠ some "B" := by
  intro p w hw
  induction hw with
  | single u =>
    intro hh hl
    have hu : u = "B" := by simpa using hl
    rcases hh with hh | hh
    · rw [Option.some.inj hh] at hu
      exact absurd hu (by decide)
    · rw [Option.some.inj hh] at hu
      exact absurd hu (by decide)
  | @cons u v rest c w2 hedge htail ih =>
    intro hh hl
    rw [forkGraph_adj] at hedge
    have hl2 : (v :: rest).getLast? = some "B" := by
      rw [← hl]
      exact (List.getLast?_cons_cons).symm
    rcases hh with hh | hh
    · have hu : u = "C" := Option.some.inj hh
      subst hu
      have hdg : dget [("A", [("C", (10 : ℚ)), ("B", 10)]),
          ("C", [("X", 1)])] "C" = [("X", 1)] := by decide
      rw [hdg] at hedge
      have hv : v = "X" := by
        rcases List.mem_singleton.mp hedge with heq
        exact congrArg Prod.fst heq
      exact ih (Or.inr (by simp [hv])) hl2
    · have hu : u = "X" := Option.some.inj hh
      subst hu
      have hdg : dget [("A", [("C", (10 : ℚ)), ("B", 10)]),
          ("C", [("X", 1)])] "X" = [] := by decide
      rw [hdg] at hedge
      exact absurd hedge (List.not_mem_nil _)

theorem forkH_admissible : Admissible forkGraph forkH "B" := by
  intro v p w hw hh hl
  cases hw with
  | single u =>
    have hv : v = u := (Option.some.inj hh).symm
    have hu : u = "B" := by simpa using hl
    subst hv
    subst hu
    show forkH "B" ≤ ((0 : ℚ) : WithTop ℚ)
    rw [show forkH "B" = 0 from by decide]
    exact_mod_cast le_refl (0 : ℚ)
  | cons hedge htail =>
    rename_i u v2 rest c w2
    have hv : v = u := (Option.some.inj hh).symm
    subst hv
    have hl2 : (v2 :: rest).getLast? = some "B" := by
      rw [← hl]
      exact (List.getLast?_cons_cons).symm
    rw [forkGraph_adj] at hedge
    by_cases hA : v = "A"
    · subst hA
      have hdg : dget [("A", [("C", (10 : ℚ)), ("B", 10)]),
          ("C", [("X", 1)])] "A" = [("C", 10), ("B", 10)] := by decide
      rw [hdg] at hedge
      rcases List.mem_cons.mp hedge with heq | hedge2
      · have hv2 : v2 = "C" := congrArg Prod.fst heq
        exact absurd hl2 (forkGraph_no_walk htail (Or.inl (by simp [hv2])))
      · have heq := List.mem_singleton.mp hedge2
        have hc : c = 10 := congrArg Prod.snd heq
        subst hc
        have hw2 : (0 : ℚ) ≤ w2 := walk_nonneg
          (by unfold NonnegWeights; decide) htail
        show forkH "A" ≤ (((10 + w2 : ℚ)) : WithTop ℚ)
        rw [show forkH "A" = ((10 : ℚ) : WithTop ℚ) from by decide]
        exact_mod_cast by linarith
    · by_cases hC : v = "C"
      · subst hC
        have hdg : dget [("A", [("C", (10 : ℚ)), ("B", 10)]),
            ("C", [("X", 1)])] "C" = [("X", 1)] := by decide
        rw [hdg] at hedge
        have hv2 : v2 = "X" := congrArg Prod.fst (List.mem_singleton.mp hedge)
        exact absurd hl2 (forkGraph_no_walk htail (Or.inr (by simp [hv2])))
      · have h1 : (v == "A") = false := by
          simpa using hA
        have h2 : (v == "C") = false := by
          simpa using hC
        have hdg : dget [("A", [("C", (10 : ℚ)), ("B", 10)]),
            ("C", [("X", 1)])] v = [] := by
          unfold dget
          rw [show (List.lookup v [("A", [("C", (10 : ℚ)), ("B", 10)]),
              ("C", [("X", 1)])]) = none from by
            simp [List.lookup, h1, h2]]
          rfl
        rw [hdg] at hedge
        exact absurd hedge (List.not_mem_nil _)

/-! Pairwise behaviour of the city resolver on an evolved store, without
assuming origin codes are keyed.  A search from a key the store has only
vivified (empty adjacency value) either hits a guard or explores nothing,
except for a self-pair, whose evolved answer `([o], 0)` diverges from the
pristine `([], 0)` — but only with metric `0`, which the selection loop
never prefers once a best metric `≤ 0` is locked. -/

theorem touch_keyed {m : AdjMap} {k : String} (h : hasKey m k = true) :
    touch m k = m := by
  unfold touch
  unfold hasKey at h
  rw [if_pos h]

theorem hasKey_of_mem {α : Type} {m : List (String × α)} {k : String}
    {v : α} (h : (k, v) ∈ m) : hasKey m k = true := by
  induction m with
  | nil => simp at h
  | cons p rest ih =>
    obtain ⟨k', v'⟩ := p
    rcases List.mem_cons.mp h with heq | hmem
    · have hk : k' = k := (congrArg Prod.fst heq).symm
      subst hk
      simp [hasKey, List.lookup]
    · by_cases hk : k' = k
      · subst hk
        simp [hasKey, List.lookup]
      · have hne : (k == k') = false := by
          simpa using fun hc => hk hc.symm
        simp only [hasKey, List.lookup, hne]
        exact ih hmem

theorem runPairSearch_guard {g2 : RailwayGraph} {alg o e : String}
    (h : hasKey g2.adjacency_list o = false ∨
      hasKey g2.stations e = false) :
    runPairSearch alg g2 o e = .ok (([], 0), g2) := by
  unfold runPairSearch
  by_cases halg : alg = "bfs"
  · rw [if_pos halg]
    rw [show g2.bfs_run o e = .ok (([], 0), g2) from by
      unfold RailwayGraph.bfs_run
      rw [if_pos h]]
    show Except.ok (([], (((0 : Nat) : ℚ) : WithTop ℚ)), g2) = _
    norm_num
  · rw [if_neg halg]
    unfold RailwayGraph.dijkstra_run
    rw [if_pos h]

theorem runPairSearch_self_keyed {g2 : RailwayGraph} {alg o e : String}
    (hse : o = e) (hk : hasKey g2.adjacency_list o = true)
    (hst : hasKey g2.stations o = true) :
    runPairSearch alg g2 o e = .ok (([o], 0), g2) := by
  have hng : ¬(hasKey g2.adjacency_list o = false ∨
      hasKey g2.stations e = false) := by
    intro hor
    rcases hor with hor | hor
    · rw [hk] at hor
      simp at hor
    · rw [← hse, hst] at hor
      simp at hor
  unfold runPairSearch
  by_cases halg : alg = "bfs"
  · rw [if_pos halg]
    rw [show g2.bfs_run o e = .ok (([o], 0), g2) from by
      unfold RailwayGraph.bfs_run
      rw [if_neg hng, if_pos hse]]
    show Except.ok (([o], (((0 : Nat) : ℚ) : WithTop ℚ)), g2) = _
    norm_num
  · rw [if_neg halg]
    unfold RailwayGraph.dijkstra_run
    rw [if_neg hng, if_pos hse]

theorem pairValue_keyless {g : RailwayGraph} {alg : String}
    {pr : (String × String) × (String × String)}
    (h : hasKey g.adjacency_list pr.1.1 = false) :
    pairValue alg g pr = ([], 0) := by
  unfold pairValue
  rw [runPairSearch_guard (Or.inl h)]

theorem pairValue_self_keyed {g : RailwayGraph} {alg : String}
    {pr : (String × String) × (String × String)} (hse : pr.1.1 = pr.2.1)
    (hk : hasKey g.adjacency_list pr.1.1 = true)
    (hst : hasKey g.stations pr.1.1 = true) :
    pairValue alg g pr = ([pr.1.1], 0) := by
  unfold pairValue
  rw [runPairSearch_self_keyed hse hk hst]

theorem heappop_singleton (d : ℚ) (o : String) :
    heappop [(d, o)] = some ((d, o), []) := by
  unfold heappop pqMinAux
  simp

/-- A BFS from a vivified key (present, empty adjacency value) explores
nothing and leaves the store exactly as it was. -/
theorem bfs_run_keyed_empty {g2 : RailwayGraph} {o e : String}
    (hk : hasKey g2.adjacency_list o = true)
    (hd : dget g2.adjacency_list o = [])
    (hse : o ≠ e) (hst : hasKey g2.stations e = true) :
    g2.bfs_run o e = .ok (([], 0), g2) := by
  have hng : ¬(hasKey g2.adjacency_list o = false ∨
      hasKey g2.stations e = false) := by
    intro hor
    rcases hor with hor | hor
    · rw [hk] at hor
      simp at hor
    · rw [hst] at hor
      simp at hor
  unfold RailwayGraph.bfs_run
  rw [if_neg hng, if_neg hse]
  have hloop : bfsLoop e (bfsFuel g2) [(o, [o])] [o] g2.adjacency_list =
      .ok (([], 0), g2.adjacency_list) := by
    rw [show bfsFuel g2 = totalAdjSize g2.adjacency_list + 2 from rfl]
    rw [show bfsLoop e (totalAdjSize g2.adjacency_list + 2) [(o, [o])] [o]
        g2.adjacency_list =
      (match bfsScan e [o] (dget (touch g2.adjacency_list o) o) [o] [] with
       | (some found, _, _) =>
         .ok ((found, found.length - 1), touch g2.adjacency_list o)
       | (none, visited', fresh) =>
         bfsLoop e (totalAdjSize g2.adjacency_list + 1) ([] ++ fresh)
           visited' (touch g2.adjacency_list o)) from rfl]
    rw [touch_keyed hk, hd]
    rw [show bfsScan e [o] ([] : List (String × ℚ)) [o] [] =
      (none, [o], []) from rfl]
    show bfsLoop e (totalAdjSize g2.adjacency_list + 1) [] [o]
      g2.adjacency_list = .ok (([], 0), g2.adjacency_list)
    rfl
  rw [hloop]

/-- A Dijkstra search from a vivified key explores nothing and leaves the
store exactly as it was. -/
theorem dijkstra_run_keyed_empty {g2 : RailwayGraph} {o e : String}
    (hk : hasKey g2.adjacency_list o = true)
    (hd : dget g2.adjacency_list o = [])
    (hse : o ≠ e) (hst : hasKey g2.stations e = true) :
    g2.dijkstra_run o e = .ok (([], 0), g2) := by
  have hng : ¬(hasKey g2.adjacency_list o = false ∨
      hasKey g2.stations e = false) := by
    intro hor
    rcases hor with hor | hor
    · rw [hk] at hor
      simp at hor
    · rw [hst] at hor
      simp at hor
  unfold RailwayGraph.dijkstra_run
  rw [if_neg hng, if_neg hse]
  obtain ⟨n, hn⟩ : ∃ n, dijkstraFuel g2 o = n + 2 :=
    ⟨(totalAdjSize g2.adjacency_list + 1) *
      ((o :: targetsOf g2.adjacency_list).dedup).length + 1, by
      unfold dijkstraFuel
      omega⟩
  show (match dijkstraLoop o e (dijkstraFuel g2 o)
      ⟨upsert (g2.stations.map (fun p => (p.1, (⊤ : WithTop ℚ)))) o 0,
        [], [(0, o)], [], g2.adjacency_list⟩ with
    | .ok (r, adjm) => .ok (r, { g2 with adjacency_list := adjm })
    | .error err => .error err) =
    Except.ok ((([] : List String), (0 : WithTop ℚ)), g2)
  rw [hn]
  have hloop : dijkstraLoop o e (n + 2)
      ⟨upsert (g2.stations.map (fun p => (p.1, (⊤ : WithTop ℚ)))) o 0,
        [], [(0, o)], [], g2.adjacency_list⟩ =
      .ok (([], 0), g2.adjacency_list) := by
    rw [@dijkstraLoop_lookup_some o e (n + 1)
      ⟨upsert (g2.stations.map (fun p => (p.1, (⊤ : WithTop ℚ)))) o 0,
        [], [(0, o)], [], g2.adjacency_list⟩ 0 o [] 0
      (heappop_singleton 0 o) (by simp) hse
      (upsert_lookup_self _ _ _)]
    rw [if_neg (by norm_num)]
    rw [touch_keyed hk, hd]
    rw [show relaxNeighbors o 0 ([] : List (String × ℚ))
        (upsert (g2.stations.map (fun p => (p.1, (⊤ : WithTop ℚ)))) o 0)
        [] ([] : List (ℚ × String)) =
      .ok (upsert (g2.stations.map (fun p => (p.1, (⊤ : WithTop ℚ)))) o 0,
        [], []) from rfl]
    show dijkstraLoop o e (n + 1)
      ⟨upsert (g2.stations.map (fun p => (p.1, (⊤ : WithTop ℚ)))) o 0,
        [], [], [] ++ [o], g2.adjacency_list⟩ =
      .ok (([], 0), g2.adjacency_list)
    exact @dijkstraLoop_pop_none o e n
      ⟨upsert (g2.stations.map (fun p => (p.1, (⊤ : WithTop ℚ)))) o 0,
        [], [], [] ++ [o], g2.adjacency_list⟩ rfl
  rw [hloop]

/-- A pair whose evolved search can differ from the pristine one: a
self-pair of an indexed station whose key the pristine store lacks but the
evolved store has vivified. -/
def Divergable (g gcur : RailwayGraph)
    (pr : (String × String) × (String × String)) : Prop :=
  pr.1.1 = pr.2.1 ∧ hasKey g.adjacency_list pr.1.1 = false ∧
  hasKey g.stations pr.1.1 = true ∧
  hasKey gcur.adjacency_list pr.1.1 = true

/-- A self-pair of an indexed station whose key the pristine store has:
processing it locks the best metric at 0. -/
def SelfKeyed (g : RailwayGraph)
    (pr : (String × String) × (String × String)) : Prop :=
  pr.1.1 = pr.2.1 ∧ hasKey g.adjacency_list pr.1.1 = true ∧
  hasKey g.stations pr.1.1 = true

/-- One pair search on an evolved store: a divergable pair answers
`([o], 0)` without touching the store; every other pair answers exactly
the pristine `pairValue`, and moreover leaves the store untouched when its
origin key is absent from the pristine store. -/
theorem pairStep {g gcur : RailwayGraph} {alg : String}
    (hnn : NonnegWeights g) (hwf : WellFormedTargets g)
    (hev : QueryEvolves g gcur)
    (pr : (String × String) × (String × String)) :
    (Divergable g gcur pr →
      runPairSearch alg gcur pr.1.1 pr.2.1 = .ok (([pr.1.1], 0), gcur) ∧
        pairValue alg g pr = ([], 0)) ∧
    (¬Divergable g gcur pr →
      ∃ g2, runPairSearch alg gcur pr.1.1 pr.2.1 =
          .ok (pairValue alg g pr, g2) ∧ QueryEvolves g g2 ∧
        (hasKey g.adjacency_list pr.1.1 = false → g2 = gcur)) := by
  obtain ⟨hst, hec, hdget, hmono, hsize, htg⟩ := hev
  constructor
  · intro hdiv
    obtain ⟨hself, hkl, hstn, hkc⟩ := hdiv
    refine ⟨runPairSearch_self_keyed hself hkc ?_, pairValue_keyless hkl⟩
    rw [hst]
    exact hstn
  · intro hndiv
    by_cases hkg : hasKey g.adjacency_list pr.1.1 = true
    · obtain ⟨⟨rg, g2g⟩, hokg⟩ := runPairSearch_total alg pr.1.1 pr.2.1
        hnn hwf
      have hpv : pairValue alg g pr = rg := by
        unfold pairValue
        rw [hokg]
      have hcon := runPairSearch_congr ⟨hst, hec, hdget, hmono, hsize, htg⟩
        alg pr.1.1 pr.2.1 hkg
      rw [hokg] at hcon
      obtain ⟨res2, hres2, hfst⟩ := except_map_ok hcon
      obtain ⟨r2, g2⟩ := res2
      have hr2 : r2 = rg := hfst
      subst hr2
      refine ⟨g2, by rw [hpv]; exact hres2,
        queryEvolves_trans ⟨hst, hec, hdget, hmono, hsize, htg⟩
          (runPairSearch_evolves hres2), ?_⟩
      intro hkl
      rw [hkg] at hkl
      simp at hkl
    · have hkl : hasKey g.adjacency_list pr.1.1 = false := by
        cases hx : hasKey g.adjacency_list pr.1.1 with
        | false => rfl
        | true => exact absurd hx hkg
      rw [pairValue_keyless hkl]
      by_cases hkc : hasKey gcur.adjacency_list pr.1.1 = true
      · by_cases hse : pr.1.1 = pr.2.1
        · by_cases hstn : hasKey g.stations pr.1.1 = true
          · exact absurd ⟨hse, hkl, hstn, hkc⟩ hndiv
          · refine ⟨gcur, runPairSearch_guard (Or.inr ?_),
              ⟨hst, hec, hdget, hmono, hsize, htg⟩, fun _ => rfl⟩
            rw [hst, ← hse]
            cases hx : hasKey g.stations pr.1.1 with
            | false => rfl
            | true => exact absurd hx hstn
        · by_cases hstd : hasKey g.stations pr.2.1 = true
          · have hdg : dget gcur.adjacency_list pr.1.1 = [] := by
              rw [hdget]
              unfold dget hasKey at *
              cases hx : List.lookup pr.1.1 g.adjacency_list with
              | none => rfl
              | some l =>
                rw [hx] at hkl
                simp at hkl
            have hstc : hasKey gcur.stations pr.2.1 = true := by
              rw [hst]
              exact hstd
            refine ⟨gcur, ?_, ⟨hst, hec, hdget, hmono, hsize, htg⟩,
              fun _ => rfl⟩
            unfold runPairSearch
            by_cases halg : alg = "bfs"
            · rw [if_pos halg,
                bfs_run_keyed_empty hkc hdg hse hstc]
              show Except.ok (([], (((0 : Nat) : ℚ) : WithTop ℚ)), gcur) = _
              norm_num
            · rw [if_neg halg]
              exact dijkstra_run_keyed_empty hkc hdg hse hstc
          · refine ⟨gcur, runPairSearch_guard (Or.inr ?_),
              ⟨hst, hec, hdget, hmono, hsize, htg⟩, fun _ => rfl⟩
            rw [hst]
            cases hx : hasKey g.stations pr.2.1 with
            | false => rfl
            | true => exact absurd hx hstd
      · have hkcf : hasKey gcur.adjacency_list pr.1.1 = false := by
          cases hx : hasKey gcur.adjacency_list pr.1.1 with
          | false => rfl
          | true => exact absurd hx hkc
        exact ⟨gcur, runPairSearch_guard (Or.inl hkcf),
          ⟨hst, hec, hdget, hmono, hsize, htg⟩, fun _ => rfl⟩

/-- `y` occurs strictly after `x` in `l`. -/
def before {α : Type} (l : List α) (x y : α) : Prop :=
  ∃ l1 l2, l = l1 ++ x :: l2 ∧ y ∈ l2

theorem before_head {α : Type} {x y : α} {tail : List α} (hy : y ∈ tail) :
    before (x :: tail) x y := ⟨[], tail, rfl, hy⟩

theorem before_append_left {α : Type} {ps : List α} {x y : α}
    (pre : List α) (h : before ps x y) : before (pre ++ ps) x y := by
  obtain ⟨l1, l2, hps, hy⟩ := h
  exact ⟨pre ++ l1, l2, by rw [hps, List.append_assoc], hy⟩

theorem before_tail {α : Type} {z x y : α} {tail : List α}
    (h : before (z :: tail) x y) (hxz : x ≠ z) : before tail x y := by
  obtain ⟨l1, l2, hps, hy⟩ := h
  cases l1 with
  | nil =>
    exact absurd (List.cons.inj hps).1.symm hxz
  | cons a l1' =>
    obtain ⟨_, htail⟩ := List.cons.inj hps
    exact ⟨l1', l2, htail, hy⟩

theorem before_total {α : Type} {x y : α} :
    ∀ {l : List α}, x ∈ l → y ∈ l → x ≠ y → before l x y ∨ before l y x := by
  intro l
  induction l with
  | nil =>
    intro hx _ _
    simp at hx
  | cons a l' ih =>
    intro hx hy hne
    rcases List.mem_cons.mp hx with hxa | hx'
    · subst hxa
      rcases List.mem_cons.mp hy with hya | hy'
      · exact absurd hya.symm hne
      · exact Or.inl ⟨[], l', rfl, hy'⟩
    · rcases List.mem_cons.mp hy with hya | hy'
      · subst hya
        exact Or.inr ⟨[], l', rfl, hx'⟩
      · rcases ih hx' hy' hne with h | h
        · obtain ⟨l1, l2, hl, hm⟩ := h
          exact Or.inl ⟨a :: l1, l2, by rw [hl]; rfl, hm⟩
        · obtain ⟨l1, l2, hl, hm⟩ := h
          exact Or.inr ⟨a :: l1, l2, by rw [hl]; rfl, hm⟩

theorem before_asymm {α : Type} {l : List α} {x y : α} (hnd : l.Nodup)
    (h1 : before l x y) (h2 : before l y x) : False := by
  obtain ⟨l1, l2, hl, hy⟩ := h1
  obtain ⟨m1, m2, hm, hx⟩ := h2
  rw [hl] at hm hnd
  have hdisj := List.disjoint_of_nodup_append hnd
  have hxl2 : x ∉ l2 := fun hmem =>
    (List.nodup_cons.mp (List.nodup_append.mp hnd).2.1).1 hmem
  rcases List.append_eq_append_iff.mp hm with ⟨a, ha1, ha2⟩ | ⟨c, hc1, hc2⟩
  · cases a with
    | nil =>
      rw [List.nil_append] at ha2
      have hm2 : l2 = m2 := (List.cons.inj ha2).2
      rw [← hm2] at hx
      exact hxl2 hx
    | cons b a' =>
      obtain ⟨_, hl2⟩ := List.cons.inj ha2
      have hxl2' : x ∈ l2 := by
        rw [hl2]
        exact List.mem_append_right a' (List.mem_cons_of_mem _ hx)
      exact hxl2 hxl2'
  · cases c with
    | nil =>
      rw [List.nil_append] at hc2
      have hm2 : m2 = l2 := (List.cons.inj hc2).2
      rw [hm2] at hx
      exact hxl2 hx
    | cons b c' =>
      obtain ⟨hyb, _⟩ := List.cons.inj hc2
      have hyl1 : y ∈ l1 := by
        rw [hc1, hyb]
        exact List.mem_append_right m1 (List.mem_cons_self _ _)
      exact hdisj hyl1 (List.mem_cons_of_mem _ hy)

theorem before_suffix {α : Type} {pre ps : List α} {x y : α}
    (hnd : (pre ++ ps).Nodup) (h : before (pre ++ ps) x y) (hx : x ∈ ps) :
    before ps x y := by
  obtain ⟨l1, l2, hl, hy⟩ := h
  have hdisj := List.disjoint_of_nodup_append hnd
  rcases List.append_eq_append_iff.mp hl with ⟨a, ha1, ha2⟩ | ⟨c, hc1, hc2⟩
  · exact ⟨a, l2, ha2, hy⟩
  · cases c with
    | nil =>
      rw [List.nil_append] at hc2
      exact ⟨[], l2, hc2.symm, hy⟩
    | cons b c' =>
      obtain ⟨hxb, _⟩ := List.cons.inj hc2
      have hxpre : x ∈ pre := by
        rw [hc1, ← hxb]
        exact List.mem_append_right l1 (List.mem_cons_self _ _)
      exact absurd hx (hdisj hxpre)

theorem mem_cityPairs {os ds : List (String × String)}
    {o d : String × String} :
    (o, d) ∈ cityPairs os ds ↔ o ∈ os ∧ d ∈ ds := by
  unfold cityPairs
  constructor
  · intro h
    obtain ⟨o', ho', hmem⟩ := List.mem_flatMap.mp h
    obtain ⟨d', hd', heq⟩ := List.mem_map.mp hmem
    obtain ⟨ho, hd⟩ := Prod.mk.inj heq
    rw [← ho, ← hd]
    exact ⟨ho', hd'⟩
  · intro ⟨ho, hd⟩
    exact List.mem_flatMap.mpr ⟨o, ho, List.mem_map.mpr ⟨d, hd, rfl⟩⟩

theorem cityPairs_nodup {os ds : List (String × String)}
    (hos : os.Nodup) (hds : ds.Nodup) : (cityPairs os ds).Nodup := by
  induction os with
  | nil => exact List.nodup_nil
  | cons o os' ih =>
    show (ds.map (fun d => (o, d)) ++ cityPairs os' ds).Nodup
    have hon : o ∉ os' := (List.nodup_cons.mp hos).1
    refine List.Nodup.append
      (hds.map (fun d1 d2 h => (Prod.mk.inj h).2)) (ih (List.nodup_cons.mp hos).2) ?_
    intro x hx1 hx2
    obtain ⟨d1, _, hxd⟩ := List.mem_map.mp hx1
    obtain ⟨o2, d2⟩ := x
    have ho2 : o2 ∈ os' := (mem_cityPairs.mp hx2).1
    have hoo : o = o2 := (Prod.mk.inj hxd).1
    rw [hoo] at hon
    exact hon ho2

theorem before_cityPairs {os ds : List (String × String)}
    {a b : List (String × String)} {o1 o2 d1 d2 : String × String}
    (hos : os = a ++ o1 :: b) (ho2 : o2 ∈ b) (hd1 : d1 ∈ ds)
    (hd2 : d2 ∈ ds) : before (cityPairs os ds) (o1, d1) (o2, d2) := by
  obtain ⟨c1, c2, hds⟩ := List.append_of_mem hd1
  refine ⟨cityPairs a ds ++ c1.map (fun d => (o1, d)),
    c2.map (fun d => (o1, d)) ++ cityPairs b ds, ?_, ?_⟩
  · rw [hos]
    show cityPairs (a ++ o1 :: b) ds = _
    rw [show cityPairs (a ++ o1 :: b) ds =
        cityPairs a ds ++ (ds.map (fun d => (o1, d)) ++ cityPairs b ds) from by
      unfold cityPairs
      rw [List.flatMap_append, List.flatMap_cons]]
    rw [hds, List.map_append, List.map_cons]
    simp [List.append_assoc]
  · exact List.mem_append_right _
      (mem_cityPairs.mpr ⟨ho2, hd2⟩)

theorem insertByName_perm (x : String × String) :
    ∀ l : List (String × String), (insertByName x l).Perm (x :: l) := by
  intro l
  induction l with
  | nil => exact List.Perm.refl _
  | cons y ys ih =>
    unfold insertByName
    by_cases hle : y.2 ≤ x.2
    · rw [if_pos hle]
      exact ((ih.cons y).trans (List.Perm.swap x y ys))
    · rw [if_neg hle]

theorem sortByName_perm : ∀ l : List (String × String), (sortByName l).Perm l := by
  have haux : ∀ (l acc : List (String × String)),
      (l.foldl (fun acc x => insertByName x acc) acc).Perm (acc ++ l) := by
    intro l
    induction l with
    | nil =>
      intro acc
      rw [List.append_nil]
      exact List.Perm.refl _
    | cons x l' ih =>
      intro acc
      refine (ih (insertByName x acc)).trans ?_
      refine (List.Perm.append_right l' (insertByName_perm x acc)).trans ?_
      show (x :: (acc ++ l')).Perm (acc ++ x :: l')
      exact List.perm_middle.symm
  intro l
  simpa using haux l []

theorem mem_get_stations_by_city {g : RailwayGraph} {c : String}
    {p : String × String} :
    p ∈ g.get_stations_by_city c ↔
      ∃ info, (p.1, info) ∈ g.stations ∧ (info.city == c) = true ∧
        p.2 = info.name := by
  unfold RailwayGraph.get_stations_by_city
  rw [(sortByName_perm _).mem_iff]
  constructor
  · intro h
    obtain ⟨q, hq, hpq⟩ := List.mem_map.mp h
    have hfil := List.mem_filter.mp hq
    refine ⟨q.2, ?_, hfil.2, ?_⟩
    · rw [← hpq]
      exact hfil.1
    · rw [← hpq]
  · intro ⟨info, hmem, hcity, hname⟩
    refine List.mem_map.mpr ⟨(p.1, info), List.mem_filter.mpr ⟨hmem, hcity⟩, ?_⟩
    rw [← hname]

theorem get_stations_fst_nodup {g : RailwayGraph} {c : String}
    (h : (g.stations.map Prod.fst).Nodup) :
    ((g.get_stations_by_city c).map Prod.fst).Nodup := by
  unfold RailwayGraph.get_stations_by_city
  rw [((sortByName_perm _).map Prod.fst).nodup_iff]
  rw [List.map_map, show (Prod.fst ∘ fun p : String × StationInfo =>
    (p.1, p.2.name)) = Prod.fst from rfl]
  exact ((List.filter_sublist _).map Prod.fst).nodup h

theorem get_stations_nodup {g : RailwayGraph} {c : String}
    (h : (g.stations.map Prod.fst).Nodup) :
    (g.get_stations_by_city c).Nodup :=
  (get_stations_fst_nodup h).of_map _

theorem same_code_eq {α : Type} {l : List (String × α)}
    (h : (l.map Prod.fst).Nodup) {p q : String × α} (hp : p ∈ l)
    (hq : q ∈ l) (heq : p.1 = q.1) : p = q := by
  induction l with
  | nil => simp at hp
  | cons a l' ih =>
    rw [List.map_cons, List.nodup_cons] at h
    rcases List.mem_cons.mp hp with hpa | hp'
    · rcases List.mem_cons.mp hq with hqa | hq'
      · rw [hpa, hqa]
      · subst hpa
        exact absurd (heq ▸ List.mem_map_of_mem Prod.fst hq') h.1
    · rcases List.mem_cons.mp hq with hqa | hq'
      · subst hqa
        exact absurd (heq ▸ List.mem_map_of_mem Prod.fst hp') h.1
      · exact ih h.2 hp' hq'

/-- In the resolver's pair enumeration, a keyless self-pair can only exist
when both cities coincide, and then every keyed pair that precedes it is
preceded by that pair's own self-pair: station codes being unique, a shared
code forces equal cities, equal station lists, and the block order of the
Cartesian product. -/
theorem citySelf_structure {g : RailwayGraph} {oc dc : String}
    (hnodup : (g.stations.map Prod.fst).Nodup)
    (pr z : (String × String) × (String × String))
    (hpr : pr ∈ cityPairs (g.get_stations_by_city oc)
      (g.get_stations_by_city dc))
    (hz : z ∈ cityPairs (g.get_stations_by_city oc)
      (g.get_stations_by_city dc))
    (hself : pr.1.1 = pr.2.1) (hkl : hasKey g.adjacency_list pr.1.1 = false)
    (hkz : hasKey g.adjacency_list z.1.1 = true)
    (hbef : before (cityPairs (g.get_stations_by_city oc)
      (g.get_stations_by_city dc)) z pr) :
    (z.1, z.1) ∈ cityPairs (g.get_stations_by_city oc)
      (g.get_stations_by_city dc) ∧
    before (cityPairs (g.get_stations_by_city oc)
      (g.get_stations_by_city dc)) (z.1, z.1) pr ∧
    hasKey g.stations z.1.1 = true := by
  have hpr1 : pr.1 ∈ g.get_stations_by_city oc := by
    have := mem_cityPairs.mp (show (pr.1, pr.2) ∈ _ from hpr)
    exact this.1
  have hpr2 : pr.2 ∈ g.get_stations_by_city dc := by
    have := mem_cityPairs.mp (show (pr.1, pr.2) ∈ _ from hpr)
    exact this.2
  have hz1 : z.1 ∈ g.get_stations_by_city oc := by
    have := mem_cityPairs.mp (show (z.1, z.2) ∈ _ from hz)
    exact this.1
  obtain ⟨i1, hm1, hc1, _⟩ := mem_get_stations_by_city.mp hpr1
  obtain ⟨i2, hm2, hc2, _⟩ := mem_get_stations_by_city.mp hpr2
  rw [← hself] at hm2
  have hi : i1 = i2 :=
    (Prod.mk.inj (same_code_eq hnodup hm1 hm2 rfl)).2
  have hoc : i1.city = oc := by simpa using hc1
  have hdc : i1.city = dc := by
    rw [hi]
    simpa using hc2
  have hocdc : oc = dc := by rw [← hoc, hdc]
  subst hocdc
  have hosn : ((g.get_stations_by_city oc).map Prod.fst).Nodup :=
    get_stations_fst_nodup hnodup
  have hosnd : (g.get_stations_by_city oc).Nodup := get_stations_nodup hnodup
  have hpairsnd : (cityPairs (g.get_stations_by_city oc)
      (g.get_stations_by_city oc)).Nodup := cityPairs_nodup hosnd hosnd
  have hpr12 : pr.1 = pr.2 := same_code_eq hosn hpr1 hpr2 hself
  have hzcode : z.1.1 ≠ pr.1.1 := by
    intro hcode
    rw [hcode, hkl] at hkz
    simp at hkz
  have hzne : z.1 ≠ pr.1 := fun hcon => hzcode (congrArg Prod.fst hcon)
  have hstz : hasKey g.stations z.1.1 = true := by
    obtain ⟨iz, hmz, _, _⟩ := mem_get_stations_by_city.mp hz1
    exact hasKey_of_mem hmz
  refine ⟨mem_cityPairs.mpr ⟨hz1, hz1⟩, ?_, hstz⟩
  rcases before_total hz1 hpr1 hzne with hord | hord
  · obtain ⟨a, b, hos, hmem⟩ := hord
    exact @before_cityPairs (g.get_stations_by_city oc)
      (g.get_stations_by_city oc) a b z.1 pr.1 z.1 pr.2 hos hmem hz1 hpr2
  · exfalso
    obtain ⟨a, b, hos, hmem⟩ := hord
    have hbef2 : before (cityPairs (g.get_stations_by_city oc)
        (g.get_stations_by_city oc)) (pr.1, pr.2) (z.1, z.2) :=
      @before_cityPairs (g.get_stations_by_city oc)
        (g.get_stations_by_city oc) a b pr.1 z.1 pr.2 z.2 hos hmem hpr2
        (mem_cityPairs.mp (show (z.1, z.2) ∈ _ from hz)).2
    exact before_asymm hpairsnd hbef hbef2

/-- The stateful selection loop computes `specFold` over the pristine pair
results, with no assumption on origin keys: a divergable self-pair can be
reached only after some pristine-keyed self-pair earlier in the enumeration
has locked the best metric at 0, so its `([o], 0)` answer is never
selected and the pristine characterisation survives. -/
theorem bestRouteFold_specV {g : RailwayGraph} {alg : String}
    {pairs0 : List ((String × String) × (String × String))}
    (hnn : NonnegWeights g) (hwf : WellFormedTargets g)
    (hnd : pairs0.Nodup)
    (hsp : ∀ pr z, pr ∈ pairs0 → z ∈ pairs0 → pr.1.1 = pr.2.1 →
      hasKey g.adjacency_list pr.1.1 = false →
      hasKey g.adjacency_list z.1.1 = true → before pairs0 z pr →
      (z.1, z.1) ∈ pairs0 ∧ before pairs0 (z.1, z.1) pr ∧
        hasKey g.stations z.1.1 = true) :
    ∀ (ps pre : List ((String × String) × (String × String)))
      (best : Option FoundRoute) (bm : WithTop ℚ) (gcur : RailwayGraph),
      pairs0 = pre ++ ps →
      QueryEvolves g gcur →
      (bm ≤ 0 ∨
        ((∀ pr2 ∈ pairs0, SelfKeyed g pr2 → pr2 ∈ ps) ∧
         (∀ pr ∈ ps, Divergable g gcur pr →
           ∃ pr2, SelfKeyed g pr2 ∧ before ps pr2 pr))) →
      ∃ gfin, bestRouteFold alg ps best bm gcur =
          .ok (specFold alg (ps.map (fun pr => (pr, pairValue alg g pr)))
            best bm, gfin) ∧ QueryEvolves g gfin := by
  intro ps
  induction ps with
  | nil =>
    intro pre best bm gcur _ hev _
    exact ⟨gcur, rfl, hev⟩
  | cons z tail ih =>
    intro pre best bm gcur hsplit hev hinv
    obtain ⟨o, dd⟩ := z
    have hstep := @pairStep g gcur alg hnn hwf hev (o, dd)
    have hsplitT : pairs0 = (pre ++ [(o, dd)]) ++ tail := by
      rw [hsplit]
      simp
    by_cases hdiv : Divergable g gcur (o, dd)
    · obtain ⟨hrunz, hprz⟩ := hstep.1 hdiv
      have hbm : bm ≤ 0 := by
        rcases hinv with hbm | ⟨_, hI⟩
        · exact hbm
        · exfalso
          obtain ⟨pr2, hsk, hbef⟩ := hI (o, dd) (List.mem_cons_self _ _) hdiv
          obtain ⟨l1, l2, hl, hm⟩ := hbef
          cases l1 with
          | nil =>
            have hz2 : pr2 = (o, dd) := ((List.cons.inj hl).1).symm
            rw [hz2] at hsk
            have hkt := hsk.2.1
            rw [hdiv.2.1] at hkt
            simp at hkt
          | cons a l1' =>
            have hnps : ((o, dd) :: tail).Nodup := by
              rw [hsplit] at hnd
              exact (List.nodup_append.mp hnd).2.1
            obtain ⟨_, hteq⟩ := List.cons.inj hl
            have hmem : (o, dd) ∈ tail := by
              rw [hteq]
              exact List.mem_append_right _ (List.mem_cons_of_mem _ hm)
            exact (List.nodup_cons.mp hnps).1 hmem
      show ∃ gfin, (match runPairSearch alg gcur o.1 dd.1 with
        | .error err => (.error err :
            Except PyErr (Option FoundRoute × RailwayGraph))
        | .ok ((path, metric), g') =>
          if path ≠ [] ∧ metric < bm then
            bestRouteFold alg tail
              (some ⟨o.1, o.2, dd.1, dd.2, path, metric, alg⟩) metric g'
          else bestRouteFold alg tail best bm g') = _ ∧ _
      rw [hrunz]
      show ∃ gfin, (if [o.1] ≠ [] ∧ (0 : WithTop ℚ) < bm then
          bestRouteFold alg tail
            (some ⟨o.1, o.2, dd.1, dd.2, [o.1], 0, alg⟩) 0 gcur
        else bestRouteFold alg tail best bm gcur) = _ ∧ _
      rw [if_neg (fun hc => absurd hc.2 (not_lt.mpr hbm))]
      have hspec : specFold alg (((o, dd) :: tail).map
          (fun pr => (pr, pairValue alg g pr))) best bm =
          specFold alg (tail.map (fun pr => (pr, pairValue alg g pr)))
            best bm := by
        rw [List.map_cons, hprz, specFold_cons]
        rw [if_neg (by simp)]
      rw [hspec]
      exact ih (pre ++ [(o, dd)]) best bm gcur hsplitT hev (Or.inl hbm)
    · obtain ⟨g2, hrunz, hev2, hfix⟩ := hstep.2 hdiv
      obtain ⟨path, metric, hpm⟩ : ∃ path metric,
          pairValue alg g (o, dd) = (path, metric) := ⟨_, _, rfl⟩
      rw [hpm] at hrunz
      have hmaint : ∀ (hM : ∀ pr2 ∈ pairs0, SelfKeyed g pr2 →
            pr2 ∈ (o, dd) :: tail)
          (hI : ∀ pr ∈ (o, dd) :: tail, Divergable g gcur pr →
            ∃ pr2, SelfKeyed g pr2 ∧ before ((o, dd) :: tail) pr2 pr),
          ¬SelfKeyed g (o, dd) →
          ((∀ pr2 ∈ pairs0, SelfKeyed g pr2 → pr2 ∈ tail) ∧
           (∀ pr ∈ tail, Divergable g g2 pr →
             ∃ pr2, SelfKeyed g pr2 ∧ before tail pr2 pr)) := by
        intro hM hI hzsk
        constructor
        · intro pr2 hmem hsk
          rcases List.mem_cons.mp (hM pr2 hmem hsk) with hcon | hmem2
          · exact absurd (hcon ▸ hsk) hzsk
          · exact hmem2
        · intro pr hpr hdiv2
          by_cases holddiv : Divergable g gcur pr
          · obtain ⟨pr2, hsk2, hbef2⟩ := hI pr (List.mem_cons_of_mem _ hpr)
              holddiv
            have hne : pr2 ≠ (o, dd) := fun hcon => hzsk (hcon ▸ hsk2)
            exact ⟨pr2, hsk2, before_tail hbef2 hne⟩
          · have hkc : hasKey gcur.adjacency_list pr.1.1 = false := by
              cases hx : hasKey gcur.adjacency_list pr.1.1 with
              | false => rfl
              | true =>
                exact absurd ⟨hdiv2.1, hdiv2.2.1, hdiv2.2.2.1, hx⟩ holddiv
            have hko : hasKey g.adjacency_list o.1 = true := by
              cases hx : hasKey g.adjacency_list o.1 with
              | true => rfl
              | false =>
                rw [hfix hx] at hdiv2
                rw [hdiv2.2.2.2] at hkc
                simp at hkc
            have hzmem : (o, dd) ∈ pairs0 := by
              rw [hsplit]
              exact List.mem_append_right _ (List.mem_cons_self _ _)
            have hprmem : pr ∈ pairs0 := by
              rw [hsplit]
              exact List.mem_append_right _ (List.mem_cons_of_mem _ hpr)
            have hbef0 : before pairs0 (o, dd) pr := by
              rw [hsplit]
              exact before_append_left pre (before_head hpr)
            obtain ⟨hmemself, hbefself, hstself⟩ := hsp pr (o, dd) hprmem
              hzmem hdiv2.1 hdiv2.2.1 hko hbef0
            have hskself : SelfKeyed g (o, o) := ⟨rfl, hko, hstself⟩
            have hneq : (o, o) ≠ (o, dd) := by
              intro hcon
              have hdo : o = dd := (Prod.mk.inj hcon).2
              exact hzsk ⟨by rw [← hdo], hko, by rw [← hdo]; exact hstself⟩
            have hintail : (o, o) ∈ tail := by
              rcases List.mem_cons.mp (hM (o, o) hmemself hskself) with
                hcon | hmem
              · exact absurd hcon hneq
              · exact hmem
            have hndps : (pre ++ ((o, dd) :: tail)).Nodup := by
              rw [← hsplit]
              exact hnd
            have hbps : before (pre ++ ((o, dd) :: tail)) (o, o) pr := by
              rw [← hsplit]
              exact hbefself
            exact ⟨(o, o), hskself,
              before_tail (before_suffix hndps hbps
                (List.mem_cons_of_mem _ hintail)) hneq⟩
      show ∃ gfin, (match runPairSearch alg gcur o.1 dd.1 with
        | .error err => (.error err :
            Except PyErr (Option FoundRoute × RailwayGraph))
        | .ok ((path, metric), g') =>
          if path ≠ [] ∧ metric < bm then
            bestRouteFold alg tail
              (some ⟨o.1, o.2, dd.1, dd.2, path, metric, alg⟩) metric g'
          else bestRouteFold alg tail best bm g') = _ ∧ _
      rw [hrunz]
      show ∃ gfin, (if path ≠ [] ∧ metric < bm then
          bestRouteFold alg tail
            (some ⟨o.1, o.2, dd.1, dd.2, path, metric, alg⟩) metric g2
        else bestRouteFold alg tail best bm g2) = _ ∧ _
      have hspec : specFold alg (((o, dd) :: tail).map
          (fun pr => (pr, pairValue alg g pr))) best bm =
          (if path ≠ [] ∧ metric < bm then
            specFold alg (tail.map (fun pr => (pr, pairValue alg g pr)))
              (some ⟨o.1, o.2, dd.1, dd.2, path, metric, alg⟩) metric
          else specFold alg (tail.map (fun pr => (pr, pairValue alg g pr)))
            best bm) := by
        rw [List.map_cons, hpm]
        rfl
      rw [hspec]
      by_cases hsel : path ≠ [] ∧ metric < bm
      · rw [if_pos hsel, if_pos hsel]
        refine ih (pre ++ [(o, dd)])
          (some ⟨o.1, o.2, dd.1, dd.2, path, metric, alg⟩) metric g2
          hsplitT hev2 ?_
        rcases hinv with hbm | ⟨hM, hI⟩
        · exact Or.inl (le_trans (le_of_lt hsel.2) hbm)
        · by_cases hzsk : SelfKeyed g (o, dd)
          · have hpv0 : pairValue alg g (o, dd) = ([o.1], 0) :=
              pairValue_self_keyed hzsk.1 hzsk.2.1 hzsk.2.2
            rw [hpm] at hpv0
            have hm0 : metric = 0 := (Prod.mk.inj hpv0).2
            exact Or.inl (by rw [hm0])
          · exact Or.inr (hmaint hM hI hzsk)
      · rw [if_neg hsel, if_neg hsel]
        refine ih (pre ++ [(o, dd)]) best bm g2 hsplitT hev2 ?_
        rcases hinv with hbm | ⟨hM, hI⟩
        · exact Or.inl hbm
        · by_cases hzsk : SelfKeyed g (o, dd)
          · have hpv0 : pairValue alg g (o, dd) = ([o.1], 0) :=
              pairValue_self_keyed hzsk.1 hzsk.2.1 hzsk.2.2
            rw [hpm] at hpv0
            obtain ⟨hp1, hm0⟩ := Prod.mk.inj hpv0
            refine Or.inl ?_
            by_contra hc
            refine hsel ⟨by rw [hp1]; simp, ?_⟩
            rw [hm0]
            exact not_le.mp hc
          · exact Or.inr (hmaint hM hI hzsk)

/-- `find_best_route_between_cities_run` computes `specFold` over the
pristine pair results whenever no pair search can raise (targets indexed,
distances non-negative), with no assumption on origin keys; station codes
are unique, as keys of the Python station dict are. -/
theorem find_best_cities_run_eq {g : RailwayGraph} {oc dc alg : String}
    (hnn : NonnegWeights g) (hwf : WellFormedTargets g)
    (hnodup : (g.stations.map Prod.fst).Nodup) :
    ∃ g2, g.find_best_route_between_cities_run oc dc alg = .ok (
      (if g.get_stations_by_city oc = [] ∨ g.get_stations_by_city dc = [] then
        BestRoute.notFound "No se encontraron estaciones en una o ambas ciudades"
      else
        match specFold alg
          ((cityPairs (g.get_stations_by_city oc)
              (g.get_stations_by_city dc)).map
            (fun pr => (pr, pairValue alg g pr))) none ⊤ with
        | none => BestRoute.notFound "No se encontro ninguna ruta entre las ciudades"
        | some r => BestRoute.found r), g2) := by
  by_cases hempty : g.get_stations_by_city oc = [] ∨
      g.get_stations_by_city dc = []
  · refine ⟨g, ?_⟩
    rw [if_pos hempty]
    show (if g.get_stations_by_city oc = [] ∨ g.get_stations_by_city dc = []
      then (Except.ok (BestRoute.notFound
          "No se encontraron estaciones en una o ambas ciudades", g) :
        Except PyErr (BestRoute × RailwayGraph))
      else _) = _
    rw [if_pos hempty]
  · obtain ⟨gfin, hfold, _⟩ := bestRouteFold_specV hnn hwf
      (cityPairs_nodup (get_stations_nodup hnodup)
        (get_stations_nodup hnodup))
      (citySelf_structure hnodup)
      (cityPairs (g.get_stations_by_city oc) (g.get_stations_by_city dc))
      [] none ⊤ g rfl (queryEvolves_refl g)
      (Or.inr ⟨fun pr2 hmem _ => hmem, fun pr _ hdiv =>
        absurd hdiv.2.2.2 (by rw [hdiv.2.1]; simp)⟩)
    refine ⟨gfin, ?_⟩
    rw [if_neg hempty]
    show (if g.get_stations_by_city oc = [] ∨ g.get_stations_by_city dc = []
      then (Except.ok (BestRoute.notFound
          "No se encontraron estaciones en una o ambas ciudades", g) :
        Except PyErr (BestRoute × RailwayGraph))
      else
        match bestRouteFold alg (cityPairs (g.get_stations_by_city oc)
            (g.get_stations_by_city dc)) none ⊤ g with
        | .error err => .error err
        | .ok (none, g') =>
          .ok (.notFound "No se encontro ninguna ruta entre las ciudades", g')
        | .ok (some r, g') => .ok (.found r, g')) = _
    rw [if_neg hempty, hfold]
    cases specFold alg ((cityPairs (g.get_stations_by_city oc)
        (g.get_stations_by_city dc)).map
      (fun pr => (pr, pairValue alg g pr))) none ⊤ with
    | none => rfl
    | some r => rfl

/-! ### The claims -/

/-- C1: with non-negative edge distances, a non-empty result of
`dijkstra_shortest_path` is a directed walk from start to end whose
returned metric is the sum of its edge distances and is minimal among all
start-to-end walks (hence at most the weight of every directed path). -/
theorem claim_C1 {g : RailwayGraph} {s e : String} {p : List String}
    {m : WithTop ℚ} (hnn : NonnegWeights g)
    (hrun : g.dijkstra_shortest_path s e = .ok (p, m)) (hne : p ≠ []) :
    ∃ q : ℚ, m = ((q : ℚ) : WithTop ℚ) ∧ WalkOn g p q ∧ p.head? = some s ∧
      p.getLast? = some e ∧ IsMinDist g s e q := by
  unfold RailwayGraph.dijkstra_shortest_path at hrun
  obtain ⟨⟨⟨p2, m2⟩, g2⟩, hrun2, hfst⟩ := except_map_ok hrun
  have hp : p2 = p := congrArg Prod.fst hfst
  have hm : m2 = m := congrArg Prod.snd hfst
  rw [hp, hm] at hrun2
  exact (dijkstra_run_spec hnn hrun2).2 hne

theorem claim_C1_witness :
    ∃ q : ℚ, ((20 : ℚ) : WithTop ℚ) = ((q : ℚ) : WithTop ℚ) ∧
      WalkOn exampleGraph ["A", "B", "C"] q ∧
      (["A", "B", "C"] : List String).head? = some "A" ∧
      (["A", "B", "C"] : List String).getLast? = some "C" ∧
      IsMinDist exampleGraph "A" "C" q :=
  @claim_C1 exampleGraph "A" "C" ["A", "B", "C"] ((20 : ℚ) : WithTop ℚ)
    (by unfold NonnegWeights; decide) (by with_unfolding_all rfl) (by decide)

/-- C2: a non-empty result of `bfs_shortest_path` is a directed path from
start to end, its metric is its length minus one, and that edge count is
minimal among all directed start-to-end paths. -/
theorem claim_C2 {g : RailwayGraph} {s e : String} {p : List String} {m : Nat}
    (hrun : g.bfs_shortest_path s e = .ok (p, m)) (hne : p ≠ []) :
    PathOn g p ∧ p.head? = some s ∧ p.getLast? = some e ∧ m = p.length - 1 ∧
      ∀ r, PathOn g r → r.head? = some s → r.getLast? = some e →
        m ≤ r.length - 1 :=
  bfs_shortest_path_correct hrun hne

theorem claim_C2_witness :
    PathOn exampleGraph ["A", "B", "C"] ∧
      (["A", "B", "C"] : List String).head? = some "A" ∧
      (["A", "B", "C"] : List String).getLast? = some "C" ∧
      2 = (["A", "B", "C"] : List String).length - 1 ∧
      ∀ r, PathOn exampleGraph r → r.head? = some "A" →
        r.getLast? = some "C" → 2 ≤ r.length - 1 :=
  @claim_C2 exampleGraph "A" "C" ["A", "B", "C"] 2
    (by with_unfolding_all rfl) (by decide)

/-- C3 (amended): with non-negative edge distances and a non-negative
admissible heuristic, whenever the A* and the Dijkstra entry points BOTH
return a pair for the same start and end, the two returned metrics are
equal; A* may however raise where Dijkstra returns. -/
theorem claim_C3 {g : RailwayGraph} {h : String → WithTop ℚ} {s e : String}
    {p p2 : List String} {m m2 : WithTop ℚ} (hnn : NonnegWeights g)
    (hadm : Admissible g h e) (hh0 : HNonneg h)
    (ha : g.a_star_shortest_path h s e = .ok (p, m))
    (hd : g.dijkstra_shortest_path s e = .ok (p2, m2)) : m = m2 := by
  unfold RailwayGraph.a_star_shortest_path at ha
  unfold RailwayGraph.dijkstra_shortest_path at hd
  obtain ⟨⟨⟨pa, ma⟩, ga⟩, hruna, hfa⟩ := except_map_ok ha
  obtain ⟨⟨⟨pd, md⟩, gd⟩, hrund, hfd⟩ := except_map_ok hd
  have hpa : pa = p := congrArg Prod.fst hfa
  have hma : ma = m := congrArg Prod.snd hfa
  have hpd : pd = p2 := congrArg Prod.fst hfd
  have hmd : md = m2 := congrArg Prod.snd hfd
  rw [hpa, hma] at hruna
  rw [hpd, hmd] at hrund
  have hA := a_star_run_spec hnn hadm hh0 hruna
  have hD := dijkstra_run_spec hnn hrund
  by_cases hpe : p = []
  · by_cases hpe2 : p2 = []
    · rw [(hA.1 hpe).1, (hD.1 hpe2).1]
    · obtain ⟨q2, _, hwalk2, hh2, hl2, _⟩ := hD.2 hpe2
      rcases (hA.1 hpe).2 with hguard | hnowalk
      · have hcon : p2 = [] := by
          unfold RailwayGraph.dijkstra_run at hrund
          rw [if_pos hguard] at hrund
          simp only [Except.ok.injEq, Prod.mk.injEq] at hrund
          exact hrund.1.1.symm
        exact absurd hcon hpe2
      · exact (hnowalk p2 q2 hwalk2 hh2 hl2).elim
  · by_cases hpe2 : p2 = []
    · obtain ⟨q, _, hwalk, hhd, hld, _⟩ := hA.2 hpe
      rcases (hD.1 hpe2).2 with hguard | hnowalk
      · have hcon : p = [] := by
          unfold RailwayGraph.a_star_run at hruna
          rw [if_pos hguard] at hruna
          simp only [Except.ok.injEq, Prod.mk.injEq] at hruna
          exact hruna.1.1.symm
        exact absurd hcon hpe
      · exact (hnowalk p q hwalk hhd hld).elim
    · obtain ⟨q, hq, _, _, _, hmin⟩ := hA.2 hpe
      obtain ⟨q2, hq2, _, _, _, hmin2⟩ := hD.2 hpe2
      obtain ⟨pw2, hw2, hh2, hl2⟩ := hmin2.1
      obtain ⟨pw1, hw1, hh1, hl1⟩ := hmin.1
      have hle1 : q ≤ q2 := hmin.2 pw2 q2 hw2 hh2 hl2
      have hle2 : q2 ≤ q := hmin2.2 pw1 q hw1 hh1 hl1
      rw [hq, hq2, le_antisymm hle1 hle2]

theorem claim_C3_witness :
    exampleGraph.a_star_shortest_path hZero "A" "C" =
      .ok (["A", "B", "C"], ((20 : ℚ) : WithTop ℚ)) ∧
    exampleGraph.dijkstra_shortest_path "A" "C" =
      .ok (["A", "B", "C"], ((20 : ℚ) : WithTop ℚ)) ∧
    ((20 : ℚ) : WithTop ℚ) = ((20 : ℚ) : WithTop ℚ) :=
  ⟨by with_unfolding_all rfl, by with_unfolding_all rfl,
    @claim_C3 exampleGraph hZero "A" "C" ["A", "B", "C"] ["A", "B", "C"]
      ((20 : ℚ) : WithTop ℚ) ((20 : ℚ) : WithTop ℚ)
      (by unfold NonnegWeights; decide)
      (hZero_admissible (by unfold NonnegWeights; decide) "C") hZero_nonneg
      (by with_unfolding_all rfl) (by with_unfolding_all rfl)⟩

theorem claim_C3_counterexample :
    NonnegWeights forkGraph ∧ HNonneg forkH ∧
    Admissible forkGraph forkH "B" ∧
    forkGraph.a_star_shortest_path forkH "A" "B" = .error (.keyError "X") ∧
    forkGraph.dijkstra_shortest_path "A" "B" =
      .ok (["A", "B"], ((10 : ℚ) : WithTop ℚ)) :=
  ⟨by unfold NonnegWeights; decide, forkH_nonneg, forkH_admissible,
    by with_unfolding_all rfl, by with_unfolding_all rfl⟩

/-- C4 (amended): when X has a station entry AND an adjacency key, all
three searches on (X, X) return ([X], 0); a station with no outgoing
adjacency entry instead hits the membership guard and yields ([], 0). -/
theorem claim_C4 (g : RailwayGraph) (h : String → WithTop ℚ) (X : String)
    (hadj : hasKey g.adjacency_list X = true)
    (hst : hasKey g.stations X = true) :
    g.bfs_shortest_path X X = .ok ([X], 0) ∧
    g.dijkstra_shortest_path X X = .ok ([X], 0) ∧
    g.a_star_shortest_path h X X = .ok ([X], 0) := by
  have hng : ¬(hasKey g.adjacency_list X = false ∨
      hasKey g.stations X = false) := by
    intro hor
    rcases hor with hor | hor
    · rw [hadj] at hor
      simp at hor
    · rw [hst] at hor
      simp at hor
  refine ⟨?_, ?_, ?_⟩
  · unfold RailwayGraph.bfs_shortest_path RailwayGraph.bfs_run
    rw [if_neg hng, if_pos rfl]
    rfl
  · unfold RailwayGraph.dijkstra_shortest_path RailwayGraph.dijkstra_run
    rw [if_neg hng, if_pos rfl]
    rfl
  · unfold RailwayGraph.a_star_shortest_path RailwayGraph.a_star_run
    rw [if_neg hng, if_pos rfl]
    rfl

theorem claim_C4_witness :
    exampleGraph.bfs_shortest_path "A" "A" = .ok (["A"], 0) ∧
    exampleGraph.dijkstra_shortest_path "A" "A" = .ok (["A"], 0) ∧
    exampleGraph.a_star_shortest_path hZero "A" "A" = .ok (["A"], 0) :=
  claim_C4 exampleGraph hZero "A" (by decide) (by decide)

theorem claim_C4_counterexample :
    hasKey soloGraph.stations "X" = true ∧
    soloGraph.bfs_shortest_path "X" "X" = .ok ([], 0) ∧
    soloGraph.dijkstra_shortest_path "X" "X" = .ok ([], 0) ∧
    soloGraph.a_star_shortest_path hZero "X" "X" = .ok ([], 0) :=
  ⟨by decide, by with_unfolding_all rfl, by with_unfolding_all rfl,
    by with_unfolding_all rfl⟩

/-- C5 (amended): `bfs_shortest_path` always returns a pair, on every
store; when additionally every recorded edge target is an indexed station
and distances are non-negative, `dijkstra_shortest_path` and
`a_star_shortest_path` also always return; a dangling edge target instead
raises a KeyError in the latter two. -/
theorem claim_C5 (g : RailwayGraph) (h : String → WithTop ℚ) (s e : String) :
    (∃ r, g.bfs_shortest_path s e = .ok r) ∧
    (NonnegWeights g → WellFormedTargets g →
      (∃ r, g.dijkstra_shortest_path s e = .ok r) ∧
      (∃ r, g.a_star_shortest_path h s e = .ok r)) := by
  constructor
  · obtain ⟨rb, hb⟩ := bfs_run_total g s e
    refine ⟨rb.1, ?_⟩
    unfold RailwayGraph.bfs_shortest_path
    rw [hb]
    rfl
  · intro hnn hwf
    obtain ⟨rd, hdo⟩ := dijkstra_run_total g s e hnn hwf
    obtain ⟨ra, hao⟩ := a_star_run_total g h s e hnn hwf
    refine ⟨⟨rd.1, ?_⟩, ⟨ra.1, ?_⟩⟩
    · unfold RailwayGraph.dijkstra_shortest_path
      rw [hdo]
      rfl
    · unfold RailwayGraph.a_star_shortest_path
      rw [hao]
      rfl

theorem claim_C5_witness :
    (∃ r, danglingGraph.bfs_shortest_path "A" "B" = .ok r) ∧
    (NonnegWeights danglingGraph → WellFormedTargets danglingGraph →
      (∃ r, danglingGraph.dijkstra_shortest_path "A" "B" = .ok r) ∧
      (∃ r, danglingGraph.a_star_shortest_path hZero "A" "B" = .ok r)) :=
  claim_C5 danglingGraph hZero "A" "B"

theorem claim_C5_counterexample :
    danglingGraph.bfs_shortest_path "A" "B" = .ok ([], 0) ∧
    danglingGraph.dijkstra_shortest_path "A" "B" = .error (.keyError "X") ∧
    danglingGraph.a_star_shortest_path hZero "A" "B" =
      .error (.keyError "X") :=
  ⟨by with_unfolding_all rfl, by with_unfolding_all rfl,
    by with_unfolding_all rfl⟩

/-- C6 (amended): a query can append fresh empty adjacency keys (defaultdict
vivification), but preserves the station index, the edge counter, every
adjacency value and the total adjacency size; repeating the query, on the
original or on the evolved store, returns the same answer. -/
theorem claim_C6 (g : RailwayGraph) (h : String → WithTop ℚ) (s e : String)
    (path : List String) :
    (∀ r g2, g.bfs_run s e = .ok (r, g2) → QueryEvolves g g2 ∧
      g.bfs_shortest_path s e = .ok r ∧ g2.bfs_shortest_path s e = .ok r) ∧
    (∀ r g2, g.dijkstra_run s e = .ok (r, g2) → QueryEvolves g g2 ∧
      g.dijkstra_shortest_path s e = .ok r ∧
      g2.dijkstra_shortest_path s e = .ok r) ∧
    (∀ r g2, g.a_star_run h s e = .ok (r, g2) → QueryEvolves g g2 ∧
      g.a_star_shortest_path h s e = .ok r ∧
      g2.a_star_shortest_path h s e = .ok r) ∧
    QueryEvolves g (g.get_route_details_run path).2 ∧
    ((g.get_route_details_run path).2).get_route_details path =
      g.get_route_details path := by
  refine ⟨?_, ?_, ?_, get_route_details_run_evolves g path,
    get_route_details_repeat g path⟩
  · intro r g2 hrun
    exact ⟨bfs_run_evolves hrun, bfs_repeat hrun⟩
  · intro r g2 hrun
    exact ⟨dijkstra_run_evolves hrun, dijkstra_repeat hrun⟩
  · intro r g2 hrun
    exact ⟨a_star_run_evolves hrun, a_star_repeat hrun⟩

theorem claim_C6_counterexample :
    (twoStations.get_route_details_run ["A", "B"]).2.adjacency_list =
      [("A", [])] ∧
    twoStations.adjacency_list = [] :=
  ⟨by with_unfolding_all rfl, by with_unfolding_all rfl⟩

/-- C7 (amended): provided no search of the enumeration raises (recorded
edge targets indexed, distances non-negative) and station codes are unique
(they are keys of the station dict), the city resolver folds over the
Cartesian product of the two sorted station lists (origin outer) and
returns the first strictly-best non-empty pair result, each pair judged by
its pristine search; it returns notFound exactly when a city is empty or
every pair's path is empty. -/
theorem claim_C7 {g : RailwayGraph} (oc dc alg : String)
    (hnn : NonnegWeights g) (hwf : WellFormedTargets g)
    (hnodup : (g.stations.map Prod.fst).Nodup) :
    ∃ res g2,
      g.find_best_route_between_cities_run oc dc alg = .ok (res, g2) ∧
      ((g.get_stations_by_city oc = [] ∨ g.get_stations_by_city dc = []) →
        res = .notFound
          "No se encontraron estaciones en una o ambas ciudades") ∧
      (¬(g.get_stations_by_city oc = [] ∨ g.get_stations_by_city dc = []) →
        ((res = .notFound "No se encontro ninguna ruta entre las ciudades" ↔
          ∀ pr ∈ cityPairs (g.get_stations_by_city oc)
            (g.get_stations_by_city dc), (pairValue alg g pr).1 = []) ∧
        (∀ r, res = .found r →
          ∃ pre x post,
            cityPairs (g.get_stations_by_city oc)
              (g.get_stations_by_city dc) = pre ++ x :: post ∧
            (pairValue alg g x).1 ≠ [] ∧
            r = ⟨x.1.1, x.1.2, x.2.1, x.2.2, (pairValue alg g x).1,
              (pairValue alg g x).2, alg⟩ ∧
            (∀ y ∈ pre, (pairValue alg g y).1 = [] ∨
              (pairValue alg g x).2 < (pairValue alg g y).2) ∧
            (∀ y ∈ post, (pairValue alg g y).1 = [] ∨
              (pairValue alg g x).2 ≤ (pairValue alg g y).2)))) := by
  obtain ⟨g2, hrun⟩ := find_best_cities_run_eq hnn hwf hnodup
  refine ⟨_, g2, hrun, fun hemp => by rw [if_pos hemp], fun hnemp => ?_⟩
  rw [if_neg hnemp]
  cases hsf : specFold alg
      ((cityPairs (g.get_stations_by_city oc)
          (g.get_stations_by_city dc)).map
        (fun pr => (pr, pairValue alg g pr))) none ⊤ with
  | none =>
    refine ⟨⟨fun _ pr hpr => ?_, fun _ => rfl⟩, fun r hr => by simp at hr⟩
    obtain ⟨_, hall⟩ := specFold_none _ _ _ hsf
    have hmem : (pr, pairValue alg g pr) ∈
        (cityPairs (g.get_stations_by_city oc)
          (g.get_stations_by_city dc)).map
        (fun pr => (pr, pairValue alg g pr)) :=
      List.mem_map_of_mem _ hpr
    rcases hall _ hmem with hempit | hfin
    · exact hempit
    · by_contra hne
      obtain ⟨q, hq⟩ := pairValue_finite hnn pr hne
      rw [hq] at hfin
      exact hfin (WithTop.coe_lt_top q)
  | some r0 =>
    refine ⟨⟨fun hcon => by simp at hcon, fun hall => ?_⟩, fun r hr => ?_⟩
    · have hempall : ∀ y ∈ (cityPairs (g.get_stations_by_city oc)
          (g.get_stations_by_city dc)).map
          (fun pr => (pr, pairValue alg g pr)), y.2.1 = [] := by
        intro y hy
        obtain ⟨pr, hpr, hypr⟩ := List.mem_map.mp hy
        rw [← hypr]
        exact hall pr hpr
      rw [specFold_all_empty _ _ _ hempall] at hsf
      exact absurd hsf (by simp)
    · have hr0 : r0 = r := BestRoute.found.inj hr
      subst hr0
      rcases specFold_found _ _ _ hsf with hfound | hkept
      · obtain ⟨preR, xR, postR, hsplit, hne, _, hr0, hpreR, hpostR⟩ := hfound
        obtain ⟨pre, t, hpairs, hpreM, htM⟩ :=
          List.append_eq_map_iff.mp hsplit.symm
        cases t with
        | nil => simp at htM
        | cons x post =>
          rw [List.map_cons] at htM
          have hx : (x, pairValue alg g x) = xR := (List.cons.inj htM).1
          have hpostM : post.map (fun pr => (pr, pairValue alg g pr)) =
            postR := (List.cons.inj htM).2
          refine ⟨pre, x, post, hpairs, ?_, ?_, ?_, ?_⟩
          · rw [show (pairValue alg g x) = xR.2 from congrArg Prod.snd hx]
            exact hne
          · rw [hr0, show (pairValue alg g x) = xR.2 from
              congrArg Prod.snd hx, show x = xR.1 from
              congrArg Prod.fst hx]
          · intro y hy
            have hyR := hpreR _ (hpreM ▸ List.mem_map_of_mem
              (fun pr => (pr, pairValue alg g pr)) hy)
            rw [show (pairValue alg g x) = xR.2 from congrArg Prod.snd hx]
            exact hyR
          · intro y hy
            have hyR := hpostR _ (hpostM ▸ List.mem_map_of_mem
              (fun pr => (pr, pairValue alg g pr)) hy)
            rw [show (pairValue alg g x) = xR.2 from congrArg Prod.snd hx]
            exact hyR
      · exact absurd hkept.1 (by simp)

theorem claim_C7_witness :
    ∃ res g2,
      exampleGraph.find_best_route_between_cities_run "CiudadA" "CiudadC"
        "dijkstra" = .ok (res, g2) ∧
      ((exampleGraph.get_stations_by_city "CiudadA" = [] ∨
          exampleGraph.get_stations_by_city "CiudadC" = []) →
        res = .notFound
          "No se encontraron estaciones en una o ambas ciudades") ∧
      (¬(exampleGraph.get_stations_by_city "CiudadA" = [] ∨
          exampleGraph.get_stations_by_city "CiudadC" = []) →
        ((res = .notFound "No se encontro ninguna ruta entre las ciudades" ↔
          ∀ pr ∈ cityPairs (exampleGraph.get_stations_by_city "CiudadA")
            (exampleGraph.get_stations_by_city "CiudadC"),
            (pairValue "dijkstra" exampleGraph pr).1 = []) ∧
        (∀ r, res = .found r →
          ∃ pre x post,
            cityPairs (exampleGraph.get_stations_by_city "CiudadA")
              (exampleGraph.get_stations_by_city "CiudadC") =
                pre ++ x :: post ∧
            (pairValue "dijkstra" exampleGraph x).1 ≠ [] ∧
            r = ⟨x.1.1, x.1.2, x.2.1, x.2.2,
              (pairValue "dijkstra" exampleGraph x).1,
              (pairValue "dijkstra" exampleGraph x).2, "dijkstra"⟩ ∧
            (∀ y ∈ pre, (pairValue "dijkstra" exampleGraph y).1 = [] ∨
              (pairValue "dijkstra" exampleGraph x).2 <
                (pairValue "dijkstra" exampleGraph y).2) ∧
            (∀ y ∈ post, (pairValue "dijkstra" exampleGraph y).1 = [] ∨
              (pairValue "dijkstra" exampleGraph x).2 ≤
                (pairValue "dijkstra" exampleGraph y).2)))) :=
  @claim_C7 exampleGraph "CiudadA" "CiudadC" "dijkstra"
    (by unfold NonnegWeights; decide) (by unfold WellFormedTargets; decide)
    (by decide)

theorem claim_C7_counterexample :
    danglingGraph.find_best_route_between_cities "CiudadA" "CiudadB"
      "dijkstra" = .error (.keyError "X") := by
  with_unfolding_all rfl

/-- C8 (amended): the station resolver raises ValueError for every strategy
other than the heuristic search, and returns a structured notFound for
unknown codes; the city resolver however rejects nothing: every strategy
other than bfs, a_star included, silently runs Dijkstra for each pair. -/
theorem claim_C8 (g : RailwayGraph) (h : String → WithTop ℚ)
    (o d alg : String) :
    (alg ≠ "a_star" → g.find_best_route_between_stations_run h o d alg =
      .error (.valueError
        "El algoritmo seleccionado no es valido. Solo se permite A*.")) ∧
    (alg ≠ "bfs" → runPairSearch alg g o d = g.dijkstra_run o d) ∧
    ((hasKey g.stations o = false ∨ hasKey g.stations d = false) →
      g.find_best_route_between_stations_run h o d "a_star" =
        .ok (.notFound "No se encontraron estaciones de origen o destino",
          g)) := by
  refine ⟨fun halg => ?_, fun halg => ?_, fun hkeys => ?_⟩
  · unfold RailwayGraph.find_best_route_between_stations_run
    rw [if_pos halg]
  · unfold runPairSearch
    rw [if_neg halg]
  · unfold RailwayGraph.find_best_route_between_stations_run
    rw [if_neg (show ¬("a_star" ≠ "a_star") from by simp), if_pos hkeys]

theorem claim_C8_counterexample :
    exampleGraph.find_best_route_between_cities "CiudadA" "CiudadC"
      "a_star" = .ok (.found ⟨"A", "Alpha", "C", "Gamma", ["A", "B", "C"],
        ((20 : ℚ) : WithTop ℚ), "a_star"⟩) := by
  with_unfolding_all rfl

/-- C9 (amended): on the worked example, Dijkstra returns ([A,B,C], 20),
BFS returns ([A,B,C], 2) and time(20, 3) = 0.35 as the spec says, but
price(20) is 8.00 (5.0 + 0.15 * 20), not 7.00. -/
theorem claim_C9 :
    exampleGraph.dijkstra_shortest_path "A" "C" =
      .ok (["A", "B", "C"], ((20 : ℚ) : WithTop ℚ)) ∧
    exampleGraph.bfs_shortest_path "A" "C" = .ok (["A", "B", "C"], 2) ∧
    exampleGraph.calculate_price 20 = 8 ∧
    exampleGraph.calculate_time 20 3 = 7/20 :=
  ⟨by with_unfolding_all rfl, by with_unfolding_all rfl,
    by with_unfolding_all rfl, by with_unfolding_all rfl⟩

theorem claim_C9_counterexample :
    exampleGraph.calculate_price 20 = 8 ∧ (8 : ℚ) ≠ 7 :=
  ⟨by with_unfolding_all rfl, by norm_num⟩

/-- C10 (amended): `get_route_details` returns one record per indexed
station of the path in path order (codes missing from the station index are
skipped, not reported); a record at a non-final path position carries the
first matching adjacency distance to the next path element, none when no
entry matches. -/
theorem claim_C10 (g : RailwayGraph) (path : List String) :
    g.get_route_details path =
      detailsSpec g.stations g.adjacency_list path 0 ∧
    (g.get_route_details path).length =
      (path.filter (fun c => hasKey g.stations c)).length := by
  refine ⟨get_route_details_spec g path, ?_⟩
  rw [get_route_details_spec g path]
  exact detailsSpec_length g.stations g.adjacency_list path 0

theorem claim_C10_counterexample :
    danglingGraph.get_route_details ["A", "X"] =
      [⟨1, "A", "Alpha", "CiudadA", some ((5 : ℚ))⟩] ∧
    (["A", "X"] : List String).length = 2 :=
  ⟨by with_unfolding_all rfl, rfl⟩

end SmartPath
